import Mathlib

/-!
Verification of the uninformed search methods of the `usm_implementation`
package (`methods/dfs.py`, `methods/bfs.py`, `methods/dls.py`,
`methods/ids.py`, `methods/bidi.py`, `methods/ucs.py`) against the
natural-language specification.

The Python code is shallowly embedded as follows.

* A vertex (`Union[int, str]`) is `Vert`.
* A Python dict is an association list (`alookup` / `aset`); a lookup of a
  missing key is the `KeyError` outcome `SearchRes.keyErr`.
* A graph (`Dict[Vertex, Set[Vertex]]`) is a list of key/adjacency-list
  pairs; the adjacency list records one iteration order of the Python set.
  All theorems quantifying over graphs quantify over every such order.
* Loops are fuel-indexed; `SearchRes.outOfFuel` marks an exhausted fuel
  budget and never corresponds to a Python behaviour, while
  `SearchRes.diverge` marks a parent-pointer cycle inside `_compose_path`,
  on which the Python `while paths[v]` loop never terminates.
* Numeric edge costs are embedded as integers (the costs of every Python
  run with `int` weights), and the `float('inf')` default of the UCS cost
  map as `EC.inf`.
* `heapq` is embedded as a multiset popped at its lexicographically least
  `(cost, vertex)` entry, which is the value `heappop` returns whenever the
  entries are pairwise comparable — in particular whenever the graph keys
  are all of one Python type, all strings or all ints (`homogB`).  On a
  cost tie between an int vertex and a str vertex, Python's tuple
  comparison inside `heappush`/`heappop` raises `TypeError`; the embedded
  order instead totalizes the comparison (int before str).  Every theorem
  below that quantifies over graphs and runs `perform_ucs` therefore
  carries the `homogB` hypothesis, restricting it to inputs on which no
  comparison the heap can perform is a mixed one and the embedding is
  exact; the concrete-graph `perform_ucs` theorems use single-type keys.
-/

set_option maxRecDepth 20000

namespace USM

/-- A Python vertex: `Vertex = Union[int, str]`. -/
inductive Vert where
  | i : Int → Vert
  | s : String → Vert
deriving DecidableEq, Repr

/-- Python truthiness of a vertex value: `0` and `""` are falsy. -/
def Vert.truthy : Vert → Bool
  | .i n => n != 0
  | .s t => t != ""

/-- The f-string rendering `f"{v}"` used by `ucs.py` to build edge-cost keys. -/
def Vert.pyStr : Vert → String
  | .i n => toString n
  | .s t => t

/-- Association-list lookup, embedding `d[k]`; `none` is a `KeyError`. -/
def alookup {α : Type} : List (Vert × α) → Vert → Option α
  | [], _ => Option.none
  | (k, v) :: rest, x => if k = x then some v else alookup rest x

/-- Association-list update, embedding `d[k] = v` (replace or append). -/
def aset {α : Type} : List (Vert × α) → Vert → α → List (Vert × α)
  | [], k, v => [(k, v)]
  | (k', v') :: rest, k, v =>
    if k' = k then (k', v) :: rest else (k', v') :: aset rest k v

/-- String-keyed association-list lookup (for the UCS edge-cost table). -/
def slookup {α : Type} : List (String × α) → String → Option α
  | [], _ => Option.none
  | (k, v) :: rest, x => if k = x then some v else slookup rest x

/-- `Graph = Dict[Vertex, Set[Vertex]]`, with each set in iteration order. -/
abbrev Graph := List (Vert × List Vert)

/-- `PathMap = Dict[Vertex, Union[Vertex, None]]`. -/
abbrev PathMapV := List (Vert × Option Vert)

/-- The keys of a graph. -/
def gkeys (G : Graph) : List Vert := G.map Prod.fst

/-- Outcome of one of the Python search functions. -/
inductive SearchRes where
  /-- The function returned this list of vertices. -/
  | path : List Vert → SearchRes
  /-- The function returned the empty set `set()`. -/
  | noPath : SearchRes
  /-- The function returned `None`. -/
  | noneRes : SearchRes
  /-- The function raised `KeyError`. -/
  | keyErr : SearchRes
  /-- The function hangs in the `while paths[v]` loop of `_compose_path`. -/
  | diverge : SearchRes
  /-- Artefact of the embedding: the fuel budget ran out. -/
  | outOfFuel : SearchRes
deriving DecidableEq, Repr

/-- The loop of `_compose_path`: prepend parents while they are truthy. -/
def composeAux (paths : PathMapV) : Nat → Vert → List Vert → SearchRes
  | 0, _, _ => .diverge
  | fuel + 1, v, acc =>
    match alookup paths v with
    | Option.none => .keyErr
    | some Option.none => .path acc
    | some (some p) =>
      if p.truthy then composeAux paths fuel p (p :: acc) else .path acc

/-- `_compose_path(v, paths)` (identical in all six modules).  The internal
fuel `paths.length + 1` exceeds the length of any repetition-free parent
chain, so exhausting it means the chain revisits a key, i.e. the parent
pointers contain a cycle and the Python loop diverges. -/
def compose_path (v : Vert) (paths : PathMapV) : SearchRes :=
  composeAux paths (paths.length + 1) v [v]

/-- State of the `perform_dfs` / `perform_bfs` / `perform_dls` loop. -/
structure SState where
  stack : List Vert
  visited : List Vert
  paths : PathMapV
  depths : List (Vert × Int)
deriving Repr

/-- `stack.pop(-1)` when `lifo`, else `queue.pop(0)`. -/
def popF (lifo : Bool) (l : List Vert) : Option (Vert × List Vert) :=
  if lifo then
    match l.getLast? with
    | Option.none => Option.none
    | some x => some (x, l.dropLast)
  else
    match l with
    | [] => Option.none
    | x :: xs => some (x, xs)

/-- One loop step: either a returned/raised outcome or the next state. -/
inductive Step (σ : Type) where
  | done : SearchRes → Step σ
  | next : σ → Step σ
deriving Repr

/-- Fuel-indexed iteration of a loop step. -/
def iterStep {σ : Type} (step : σ → Step σ) : Nat → σ → SearchRes
  | 0, _ => .outOfFuel
  | fuel + 1, st =>
    match step st with
    | .done r => r
    | .next st' => iterStep step fuel st'

/-- The common loop body of `perform_dfs` (`lifo`, no limit), `perform_bfs`
(FIFO, no limit) and `perform_dls` (`lifo`, `dlim = some depth_limit`).
`dfs.py` and `bfs.py` have no depth map; with `dlim = none` the `depths`
field is never read or written, so the three scripts are this one function
at three parameter choices. -/
def searchStep (lifo : Bool) (dlim : Option Int) (goal : Vert) (G : Graph)
    (st : SState) : Step SState :=
  match popF lifo st.stack with
  | Option.none => .done .noPath
  | some (vertex, rest) =>
    if vertex ∈ st.visited then
      .next { st with stack := rest }
    else
      let visited' := vertex :: st.visited
      match compose_path vertex st.paths with
      | .path node_path =>
        if vertex = goal then .done (.path node_path)
        else
          match dlim with
          | Option.none =>
            match alookup G vertex with
            | Option.none => .done .keyErr
            | some adj =>
              let adjacent := adj.filter fun v =>
                decide (¬ v ∈ visited' ∧ ¬ v ∈ rest)
              .next ⟨rest ++ adjacent, visited',
                adjacent.foldl (fun m v => aset m v (some vertex)) st.paths,
                st.depths⟩
          | some L =>
            match alookup st.depths vertex with
            | Option.none => .done .keyErr
            | some d =>
              if L ≤ d then
                .next { st with stack := rest, visited := visited' }
              else
                match alookup G vertex with
                | Option.none => .done .keyErr
                | some adj =>
                  let adjacent := adj.filter fun v =>
                    decide (¬ v ∈ visited' ∧ ¬ v ∈ rest)
                  .next ⟨rest ++ adjacent, visited',
                    adjacent.foldl (fun m v => aset m v (some vertex)) st.paths,
                    adjacent.foldl (fun m v => aset m v (d + 1)) st.depths⟩
      | e => .done e

/-- The `while stack` loop shared by `perform_dfs`, `perform_bfs` and
`perform_dls`. -/
def searchLoop (lifo : Bool) (dlim : Option Int) (goal : Vert) (G : Graph)
    (fuel : Nat) (st : SState) : SearchRes :=
  iterStep (searchStep lifo dlim goal G) fuel st

/-- `paths: PathMap = {v: None for v in graph}`. -/
def initPaths (G : Graph) : PathMapV := G.map fun p => (p.1, Option.none)

/-- `depths: DepthMap = {v: -1 for v in graph}` followed by `depths[root] = 0`. -/
def initDepths (G : Graph) (root : Vert) : List (Vert × Int) :=
  aset (G.map fun p => (p.1, (-1 : Int))) root 0

/-- `perform_dfs(root, goal, graph)` from `methods/dfs.py`. -/
def perform_dfs (root goal : Vert) (G : Graph) (fuel : Nat) : SearchRes :=
  searchLoop true Option.none goal G fuel ⟨[root], [], initPaths G, []⟩

/-- `perform_bfs(root, goal, graph)` from `methods/bfs.py`. -/
def perform_bfs (root goal : Vert) (G : Graph) (fuel : Nat) : SearchRes :=
  searchLoop false Option.none goal G fuel ⟨[root], [], initPaths G, []⟩

/-- `perform_dls(root, goal, graph, depth_limit)` from `methods/dls.py`.
`_perform_dls` of `methods/ids.py` is the same function with the two
visitor-callback invocations removed, which the embedding ignores anyway,
so it is embedded by this same definition. -/
def perform_dls (root goal : Vert) (G : Graph) (depth_limit : Int)
    (fuel : Nat) : SearchRes :=
  searchLoop true (some depth_limit) goal G fuel
    ⟨[root], [], initPaths G, initDepths G root⟩

/-- The `for i in range(max_depth)` loop of `perform_ids`, with `L = i + 1`
the limit of the next `_perform_dls` call. -/
def idsAux (root goal : Vert) (G : Graph) (fuel : Nat) : Nat → Int → SearchRes
  | 0, _ => .noneRes
  | k + 1, L =>
    match perform_dls root goal G L fuel with
    | .path p => if p = [] then idsAux root goal G fuel k (L + 1) else .path p
    | .noPath => idsAux root goal G fuel k (L + 1)
    | e => e

/-- `perform_ids(root, goal, graph, max_depth)` from `methods/ids.py`; the
exhausted loop falls through and returns `None`. -/
def perform_ids (root goal : Vert) (G : Graph) (max_depth : Int)
    (fuel : Nat) : SearchRes :=
  idsAux root goal G fuel max_depth.toNat 1

/-- State of the `perform_bidi` loop: the two queues, the two visited sets
and the single shared parent map. -/
structure BState where
  rq : List Vert
  gq : List Vert
  rv : List Vert
  gv : List Vert
  paths : PathMapV
deriving Repr

/-- Result of scanning the adjacent vertices on one side of `perform_bidi`:
either an early return (a meeting point, a `KeyError` or a hang) or the
parent map extended by the scanned assignments. -/
inductive BScan where
  | done : SearchRes → BScan
  | cont : PathMapV → BScan

/-- The `for v in adjacent_vertices` loop of one side of `perform_bidi`.
`rootSide = true` is the root-side block: on a meeting point it returns
`_compose_path(vertex) ++ reversed(_compose_path(v))`, evaluating
`_compose_path(v)` first as the Python source does; the goal-side block
swaps the roles of `v` and `vertex`. -/
def bidiScan (rootSide : Bool) (vertex : Vert) : PathMapV → List Vert → BScan
  | paths, [] => .cont paths
  | paths, v :: vs =>
    match alookup paths v with
    | Option.none => .done .keyErr
    | some pv =>
      if (match pv with | some p => p.truthy | Option.none => false) then
        if rootSide then
          match compose_path v paths with
          | .path toGoal =>
            match compose_path vertex paths with
            | .path fromRoot => .done (.path (fromRoot ++ toGoal.reverse))
            | e => .done e
          | e => .done e
        else
          match compose_path vertex paths with
          | .path toGoal =>
            match compose_path v paths with
            | .path fromRoot => .done (.path (fromRoot ++ toGoal.reverse))
            | e => .done e
          | e => .done e
      else
        bidiScan rootSide vertex (aset paths v (some vertex)) vs

/-- One `if root_queue:` (resp. `if goal_queue:`) block of `perform_bidi`. -/
def bidiSide (rootSide : Bool) (G : Graph) (st : BState) :
    Sum SearchRes BState :=
  let q := if rootSide then st.rq else st.gq
  match q with
  | [] => .inr st
  | vertex :: rest =>
    let vis := if rootSide then st.rv else st.gv
    if vertex ∈ vis then
      .inr (if rootSide then { st with rq := rest } else { st with gq := rest })
    else
      let vis' := vertex :: vis
      match alookup G vertex with
      | Option.none => .inl .keyErr
      | some adj =>
        let adjacent := adj.filter fun v => decide (¬ v ∈ vis' ∧ ¬ v ∈ rest)
        match bidiScan rootSide vertex st.paths adjacent with
        | .done r => .inl r
        | .cont paths' =>
          if rootSide then
            .inr ⟨rest ++ adjacent, st.gq, vis', st.gv, paths'⟩
          else
            .inr ⟨st.rq, rest ++ adjacent, st.rv, vis', paths'⟩

/-- One iteration of the `while root_queue or goal_queue` loop of
`perform_bidi`: one root-side block then one goal-side block. -/
def bidiStep (G : Graph) (st : BState) : Step BState :=
  if st.rq = [] ∧ st.gq = [] then .done .noPath
  else
    match bidiSide true G st with
    | .inl r => .done r
    | .inr st' =>
      match bidiSide false G st' with
      | .inl r => .done r
      | .inr st'' => .next st''

/-- The `while root_queue or goal_queue` loop of `perform_bidi`. -/
def bidiLoop (G : Graph) (fuel : Nat) (st : BState) : SearchRes :=
  iterStep (bidiStep G) fuel st

/-- `perform_bidi(root, goal, graph)` from `methods/bidi.py`. -/
def perform_bidi (root goal : Vert) (G : Graph) (fuel : Nat) : SearchRes :=
  bidiLoop G fuel ⟨[root], [goal], [], [], initPaths G⟩

/-- A UCS cost value: a finite weight, or the `float('inf')` initial
value.  Weights are embedded as integers: every weight table the theorems
below quantify over is integer-valued, matching Python integer costs. -/
inductive EC where
  | fin : Int → EC
  | inf : EC
deriving DecidableEq, Repr

/-- `c + w` for a cost-map value `c` and a finite edge weight `w`. -/
def EC.add : EC → Int → EC
  | .fin a, w => .fin (a + w)
  | .inf, _ => .inf

/-- `<` on cost values, as Python compares floats with `inf`. -/
def EC.lt : EC → EC → Bool
  | .fin a, .fin b => a < b
  | .fin _, .inf => true
  | .inf, _ => false

/-- Lexicographic comparison of code-point lists, as Python compares
strings. -/
def strLtAux : List Char → List Char → Bool
  | [], [] => false
  | [], _ :: _ => true
  | _ :: _, [] => false
  | a :: as, b :: bs => if a = b then strLtAux as bs else Nat.blt a.toNat b.toNat

/-- Python `<` on strings. -/
def strLt (a b : String) : Bool := strLtAux a.data b.data

/-- Strict comparison of vertices, used only to order cost-tied heap
entries: ints by value, strings lexicographically.  The two mixed cases
totalize Python's `<`, which raises `TypeError` there; the universal
`perform_ucs` theorems below therefore assume `homogB` (keys all of one
type), under which the heap never compares a mixed pair (see the
header). -/
def vLt : Vert → Vert → Bool
  | .i a, .i b => a < b
  | .s a, .s b => strLt a b
  | .i _, .s _ => true
  | .s _, .i _ => false

/-- Lexicographic order on heap entries `(cost, vertex)`. -/
def entryLt (a b : EC × Vert) : Bool :=
  EC.lt a.1 b.1 || (a.1 = b.1 && vLt a.2 b.2)

/-- The least entry of `e :: es` under `entryLt`. -/
def minEntry : EC × Vert → List (EC × Vert) → EC × Vert
  | m, [] => m
  | m, e :: es => minEntry (if entryLt e m then e else m) es

/-- Remove the first occurrence of an entry. -/
def removeFirst : List (EC × Vert) → EC × Vert → List (EC × Vert)
  | [], _ => []
  | e :: es, m => if e = m then es else e :: removeFirst es m

/-- `heapq.heappop`: remove and return a least entry of the heap.  This
is the entry `heappop` returns whenever the heap's entries are pairwise
comparable, as under `homogB`; on a heap holding a cost-tied mixed
int/str pair, Python's `heappush`/`heappop` can instead raise `TypeError`
(see the header), so the universal `perform_ucs` theorems below assume
`homogB`. -/
def popMin (l : List (EC × Vert)) : Option ((EC × Vert) × List (EC × Vert)) :=
  match l with
  | [] => Option.none
  | e :: es =>
    let m := minEntry e es
    some (m, removeFirst (e :: es) m)

/-- State of the `perform_ucs` loop. -/
structure UState where
  frontier : List (EC × Vert)
  visited : List Vert
  paths : PathMapV
  costs : List (Vert × EC)
deriving Repr

/-- Result of the `for neighbor in graph[current_vertex]` loop of
`perform_ucs`: an error, or the updated parent map, cost map and frontier. -/
inductive UScan where
  | err : SearchRes → UScan
  | cont : PathMapV → List (Vert × EC) → List (EC × Vert) → UScan

/-- The neighbor loop of `perform_ucs`.  `costs[current_vertex]` is looked
up afresh on every iteration (a self-loop updates it mid-loop), the
edge-cost key is `f"{current_vertex}-{neighbor}"`, and the guard
`neighbor not in visited or cost < costs[neighbor]` is evaluated lazily. -/
def ucsScan (cur : Vert) (ec : List (String × Int)) (visited : List Vert) :
    PathMapV → List (Vert × EC) → List (EC × Vert) → List Vert → UScan
  | paths, costs, frontier, [] => .cont paths costs frontier
  | paths, costs, frontier, nb :: nbs =>
    match alookup costs cur with
    | Option.none => .err .keyErr
    | some ccur =>
      match slookup ec (cur.pyStr ++ "-" ++ nb.pyStr) with
      | Option.none => .err .keyErr
      | some w =>
        let cost := ccur.add w
        let go : Bool → UScan := fun doPush =>
          if doPush then
            ucsScan cur ec visited
              (aset paths nb (some cur)) (aset costs nb cost)
              (frontier ++ [(cost, nb)]) nbs
          else
            ucsScan cur ec visited paths costs frontier nbs
        if nb ∈ visited then
          match alookup costs nb with
          | Option.none => .err .keyErr
          | some cnb => go (EC.lt cost cnb)
        else
          go true

/-- One iteration of the `while frontier` loop of `perform_ucs`.  Note the
source order: the path is composed before the goal test, the goal test
precedes the visited insertion, and there is no visited-skip guard at pop
time. -/
def ucsStep (goal : Vert) (G : Graph) (ec : List (String × Int))
    (st : UState) : Step UState :=
  match popMin st.frontier with
  | Option.none => .done .noneRes
  | some ((_, cur), rest) =>
    match compose_path cur st.paths with
    | .path node_path =>
      if cur = goal then .done (.path node_path)
      else
        let visited' := if cur ∈ st.visited then st.visited else cur :: st.visited
        match alookup G cur with
        | Option.none => .done .keyErr
        | some adj =>
          match ucsScan cur ec visited' st.paths st.costs rest adj with
          | .err r => .done r
          | .cont paths' costs' frontier' =>
            .next ⟨frontier', visited', paths', costs'⟩
    | e => .done e

/-- The `while frontier` loop of `perform_ucs`. -/
def ucsLoop (goal : Vert) (G : Graph) (ec : List (String × Int))
    (fuel : Nat) (st : UState) : SearchRes :=
  iterStep (ucsStep goal G ec) fuel st

/-- `costs: CostMap = {v: float('inf') for v in graph}; costs[root] = 0`. -/
def initCosts (G : Graph) (root : Vert) : List (Vert × EC) :=
  aset (G.map fun p => (p.1, EC.inf)) root (EC.fin 0)

/-- `perform_ucs(root, goal, graph, edge_costs)` from `methods/ucs.py`. -/
def perform_ucs (root goal : Vert) (G : Graph) (ec : List (String × Int))
    (fuel : Nat) : SearchRes :=
  ucsLoop goal G ec fuel ⟨[(EC.fin 0, root)], [], initPaths G, initCosts G root⟩

/-- A fuel-indexed run returns `r`: some fuel budget suffices and the
outcome is not the fuel artefact.  By `iterStep` monotonicity every larger
budget gives the same outcome, so this is the value of the Python call. -/
def Returns (run : Nat → SearchRes) (r : SearchRes) : Prop :=
  r ≠ SearchRes.outOfFuel ∧ ∃ f, run f = r

/-- `v` is a neighbor of `u`: `u` is a key and `v` is in its adjacency set. -/
def edgeB (G : Graph) (u v : Vert) : Bool :=
  match alookup G u with
  | some adj => decide (v ∈ adj)
  | Option.none => false

/-- Every consecutive pair of the list is a directed edge of `G`. -/
def chainB (G : Graph) : List Vert → Bool
  | [] => true
  | [_] => true
  | a :: b :: rest => edgeB G a b && chainB G (b :: rest)

/-- `p` is a path of `G` from `r` to `g`: nonempty, starts at `r`, ends at
`g`, and every consecutive pair is a directed edge. -/
def validPathB (G : Graph) (r g : Vert) (p : List Vert) : Bool :=
  decide (p.head? = some r) && decide (p.getLast? = some g) && chainB G p

/-- `g` is reachable from `r` in `G`. -/
def Reaches (G : Graph) (r g : Vert) : Prop :=
  ∃ p, validPathB G r g p = true

/-- Every vertex referenced as a neighbor is itself a key (the graph-model
invariant of spec section 3). -/
def closedB (G : Graph) : Bool :=
  G.all fun pr => pr.2.all fun v => decide (v ∈ gkeys G)

/-- Every key is a truthy vertex (no vertex named `0` or `""`). -/
def truthyB (G : Graph) : Bool :=
  G.all fun pr => pr.1.truthy

/-- Keys are pairwise distinct and each adjacency list is duplicate-free,
as is automatic for a Python dict of sets. -/
def nodupB (G : Graph) : Bool :=
  decide (gkeys G).Nodup && G.all fun pr => decide pr.2.Nodup

/-- All graph keys are of one Python type: all strings, or all ints.
Then every comparison a cost tie can force inside the heap is between
same-type vertices and is defined; with keys of both types, a cost-tied
mixed pair makes Python's `<` raise `TypeError` inside
`heappush`/`heappop`, which the heap embedding does not model (see the
header), so the universal `perform_ucs` theorems assume this check. -/
def homogB (G : Graph) : Bool :=
  (G.all fun pr => match pr.1 with | .s _ => true | .i _ => false) ||
  (G.all fun pr => match pr.1 with | .i _ => true | .s _ => false)

/-- The total cost of a list of vertices under an edge-cost table: the sum
of the table entries of its consecutive pairs. -/
def pathCost (ec : List (String × Int)) : List Vert → Option Int
  | [] => some 0
  | [_] => some 0
  | a :: b :: rest =>
    match slookup ec (a.pyStr ++ "-" ++ b.pyStr), pathCost ec (b :: rest) with
    | some w, some c => some (w + c)
    | _, _ => Option.none

/-- The edge-cost table has a nonnegative entry for every adjacency pair. -/
def CostsComplete (G : Graph) (ec : List (String × Int)) : Prop :=
  ∀ u adj, alookup G u = some adj → ∀ v ∈ adj,
    ∃ w : Int, slookup ec (u.pyStr ++ "-" ++ v.pyStr) = some w ∧ 0 ≤ w

/-- Executable check of `CostsComplete` over the graph's entries. -/
def ecOkB (G : Graph) (ec : List (String × Int)) : Bool :=
  G.all fun pr => pr.2.all fun v =>
    match slookup ec (pr.1.pyStr ++ "-" ++ v.pyStr) with
    | some w => decide (0 ≤ w)
    | Option.none => false

/-- The fuel budget of the DFS/BFS/DLS loop: for every unvisited graph
entry, its adjacency size plus one. -/
def sbudget : Graph → List Vert → Nat
  | [], _ => 0
  | pr :: rest, visited =>
    (if pr.1 ∈ visited then 0 else pr.2.length + 1) + sbudget rest visited

/-- The termination measure of the DFS/BFS/DLS loop. -/
def smeasure (G : Graph) (st : SState) : Nat :=
  st.stack.length + sbudget G st.visited

/-- The natural value of a cost-map entry (`0` for `inf` or a missing key;
used only on visited vertices, whose entries are finite and nonnegative). -/
def costValN : Option EC → Nat
  | some (.fin c) => c.toNat
  | _ => 0

/-- Sum of the recorded costs of the visited vertices: the second
component of the UCS termination measure. -/
def sumCostVisited (costs : List (Vert × EC)) : List Vert → Nat
  | [] => 0
  | x :: xs => costValN (alookup costs x) + sumCostVisited costs xs

/-- The number of frontier entries whose vertex is already visited: the
third component of the UCS termination measure. -/
def frontVisCount (front : List (EC × Vert)) (visited : List Vert) : Nat :=
  front.countP fun e => decide (e.2 ∈ visited)

/-- The core invariant of the `perform_ucs` loop on a well-formed graph
with a complete nonnegative cost table.  The cost-chain clause (a parent's
recorded cost is at most its child's) is what keeps the parent pointers
acyclic even though `perform_ucs` reassigns them; it is stated without the
frontier-closure clause so that it also holds midway through the neighbor
loop. -/
structure UCore (goal : Vert) (G : Graph) (r : Vert) (st : UState) : Prop where
  pkeys : st.paths.map Prod.fst = gkeys G
  ckeys : st.costs.map Prod.fst = gkeys G
  frontK : ∀ e ∈ st.frontier, e.2 ∈ gkeys G
  visK : ∀ v ∈ st.visited, v ∈ gkeys G
  visNodup : st.visited.Nodup
  goalV : goal ∉ st.visited
  rootOk : (r ∈ st.visited ∧ alookup st.paths r = some Option.none) ∨
    (st.visited = [] ∧ st.frontier = [(EC.fin 0, r)] ∧
      st.paths = initPaths G ∧ st.costs = initCosts G r)
  rootCost : alookup st.costs r = some (EC.fin 0)
  frontCost : ∀ e ∈ st.frontier, ∃ c, alookup st.costs e.2 = some (EC.fin c) ∧
    0 ≤ c
  parents : ∀ v u, alookup st.paths v = some (some u) →
    u ∈ st.visited ∧ edgeB G u v = true
  costsChain : ∀ v u, alookup st.paths v = some (some u) →
    ∃ cu cv, alookup st.costs u = some (EC.fin cu) ∧
      alookup st.costs v = some (EC.fin cv) ∧ cu ≤ cv
  costsNonneg : ∀ v c, alookup st.costs v = some (EC.fin c) → 0 ≤ c
  visCost : ∀ v ∈ st.visited, ∃ c, alookup st.costs v = some (EC.fin c) ∧ 0 ≤ c
  comp : ∀ v, ((∃ c, (c, v) ∈ st.frontier) ∨ v ∈ st.visited) →
    ∃ p, compose_path v st.paths = .path p ∧ validPathB G r v p = true ∧
      p.Nodup ∧ (∀ x ∈ p, x ∈ st.visited ∨ x = v)

/-- The frontier-closure clause of the UCS loop invariant: every neighbor
of a visited vertex is visited or still carried by some frontier entry.
It fails midway through the neighbor loop (the popped vertex is already
in `visited` but its neighbors are not yet pushed), so it is kept apart
from `UCore`. -/
def uclosure (st : UState) (G : Graph) : Prop :=
  ∀ u ∈ st.visited, ∀ adj, alookup G u = some adj → ∀ v ∈ adj,
    v ∈ st.visited ∨ ∃ c, (c, v) ∈ st.frontier

/-- `u` would pass the depth test of `perform_dls` (vacuous for DFS/BFS). -/
def NotPruned (dlim : Option Int) (depths : List (Vert × Int)) (u : Vert) : Prop :=
  ∀ L, dlim = some L → ∃ d, alookup depths u = some d ∧ d < L

/-- The loop invariant of the DFS/BFS/DLS loop on a well-formed graph:
the parent and depth maps keep the graph's key set, every pending or
processed vertex is a key whose parent chain composes to a duplicate-free
valid path from the root lying inside the processed region, recorded
depths are chain lengths, and every processed unpruned vertex has all its
neighbors pending or processed. -/
structure SInv (dlim : Option Int) (goal : Vert) (G : Graph) (r : Vert)
    (st : SState) : Prop where
  pkeys : st.paths.map Prod.fst = gkeys G
  dkeys : ∀ L, dlim = some L → st.depths.map Prod.fst = gkeys G
  stackK : ∀ v ∈ st.stack, v ∈ gkeys G
  visK : ∀ v ∈ st.visited, v ∈ gkeys G
  rootIn : r ∈ st.stack ∨ r ∈ st.visited
  goalV : goal ∉ st.visited
  comp : ∀ v, v ∈ st.stack ∨ v ∈ st.visited →
    ∃ p, compose_path v st.paths = .path p ∧ validPathB G r v p = true ∧
      p.Nodup ∧ (∀ x ∈ p, x ∈ st.visited ∨ x = v)
  depthsOK : ∀ L, dlim = some L → ∀ v, v ∈ st.stack ∨ v ∈ st.visited →
    ∃ p, compose_path v st.paths = .path p ∧
      alookup st.depths v = some ((p.length : Int) - 1) ∧
      ((p.length : Int) - 1 ≤ L ∨ v = r)
  closure : ∀ u ∈ st.visited, NotPruned dlim st.depths u →
    ∀ adj, alookup G u = some adj → ∀ v ∈ adj, v ∈ st.visited ∨ v ∈ st.stack

/-- The number of vertices on the composed parent-chain path of `v` (`0`
when the chain does not compose); the BFS level of a discovered vertex is
this length minus one. -/
def clen (paths : PathMapV) (v : Vert) : Nat :=
  match compose_path v paths with
  | .path p => p.length
  | _ => 0

/-- The BFS queue holds at most two consecutive levels, in order: a block
of vertices at level `b` followed by a block at level `b + 1`, and every
visited vertex is at level at most `b`. -/
def BLevel (paths : PathMapV) (visited stack : List Vert) : Prop :=
  ∃ b s t, stack = s ++ t ∧ (∀ u ∈ visited, clen paths u ≤ b) ∧
    (∀ w ∈ s, clen paths w = b) ∧ (∀ w ∈ t, clen paths w = b + 1)

/-- Every valid root path either lies inside the visited region or meets
the queue at a vertex whose level does not exceed its position on the
path, after a visited prefix.  Instantiated at a popped goal this says the
goal's composed path is no longer than any root-to-goal path. -/
def BCover (G : Graph) (r : Vert) (paths : PathMapV)
    (visited stack : List Vert) : Prop :=
  ∀ z q, validPathB G r z q = true →
    (∀ v ∈ q, v ∈ visited) ∨
    ∃ q1 x q2, q = q1 ++ x :: q2 ∧ x ∈ stack ∧ x ∉ visited ∧
      clen paths x ≤ q1.length + 1 ∧ (∀ v ∈ q1, v ∈ visited)

/-- The BFS shortest-path invariant. -/
def BInv (G : Graph) (r : Vert) (st : SState) : Prop :=
  BLevel st.paths st.visited st.stack ∧ BCover G r st.paths st.visited st.stack

theorem iterStep_succ_of_ne {σ : Type} (step : σ → Step σ) :
    ∀ (f : Nat) (st : σ), iterStep step f st ≠ .outOfFuel →
      iterStep step (f + 1) st = iterStep step f st := by
  intro f
  induction f with
  | zero => intro st h; exact absurd rfl h
  | succ n ih =>
    intro st h
    cases hs : step st with
    | done r => simp [iterStep, hs]
    | next st' =>
      have h' : iterStep step n st' ≠ .outOfFuel := by
        simpa [iterStep, hs] using h
      simp only [iterStep, hs]
      exact ih st' h'

theorem iterStep_mono {σ : Type} (step : σ → Step σ) (f f' : Nat)
    (hle : f ≤ f') (st : σ) (h : iterStep step f st ≠ .outOfFuel) :
    iterStep step f' st = iterStep step f st := by
  induction f' with
  | zero =>
    cases Nat.le_zero.mp hle
    rfl
  | succ n ih =>
    rcases Nat.lt_or_ge f (n + 1) with hlt | hge
    · have hfn : f ≤ n := Nat.lt_succ_iff.mp hlt
      rw [iterStep_succ_of_ne step n st (by rw [ih hfn]; exact h), ih hfn]
    · cases Nat.le_antisymm hle hge
      rfl

theorem Returns_eq {run : Nat → SearchRes} {σ : Type} {step : σ → Step σ}
    {st : σ} (hrun : ∀ f, run f = iterStep step f st) {r r' : SearchRes}
    (h : Returns run r) (h' : Returns run r') : r = r' := by
  obtain ⟨hr, f, hf⟩ := h
  obtain ⟨hr', f', hf'⟩ := h'
  rcases Nat.le_total f f' with hle | hle
  · rw [← hf', ← hf, hrun f, hrun f',
      iterStep_mono step f f' hle st (by rw [← hrun f, hf]; exact hr)]
  · rw [← hf', ← hf, hrun f, hrun f',
      iterStep_mono step f' f hle st (by rw [← hrun f', hf']; exact hr')]

theorem alookup_initPaths {G : Graph} {r : Vert} (h : r ∈ gkeys G) :
    alookup (initPaths G) r = some Option.none := by
  induction G with
  | nil => cases h
  | cons p rest ih =>
    by_cases hk : p.1 = r
    · simp [initPaths, alookup, hk]
    · have : r ∈ gkeys rest := by
        rcases List.mem_cons.mp h with h | h
        · exact absurd h.symm hk
        · exact h
      simp only [initPaths, List.map_cons, alookup, if_neg hk]
      exact ih this

theorem compose_path_none {paths : PathMapV} {v : Vert}
    (h : alookup paths v = some Option.none) :
    compose_path v paths = .path [v] := by
  show composeAux paths (paths.length + 1) v [v] = _
  simp [composeAux, h]

theorem compose_path_falsy {paths : PathMapV} {v w : Vert}
    (h : alookup paths v = some (some w)) (hw : w.truthy = false) :
    compose_path v paths = .path [v] := by
  show composeAux paths (paths.length + 1) v [v] = _
  simp [composeAux, h, hw]

/-- Any list of sets closed under the neighbor relation of `G` traps the
last vertex of every chain starting inside it. -/
theorem chainB_last_mem {G : Graph} {S : List Vert}
    (hS : ∀ u ∈ S, ∀ adj, alookup G u = some adj → ∀ v ∈ adj, v ∈ S) :
    ∀ (p : List Vert) (a : Vert), a ∈ S → chainB G (a :: p) = true →
      ∀ b, (a :: p).getLast? = some b → b ∈ S := by
  intro p
  induction p with
  | nil =>
    intro a ha _ b hb
    cases hb
    exact ha
  | cons c rest ih =>
    intro a ha hchain b hb
    have hedge : edgeB G a c = true := by
      have := hchain
      simp only [chainB, Bool.and_eq_true] at this
      exact this.1
    have hc : c ∈ S := by
      unfold edgeB at hedge
      cases hadj : alookup G a with
      | none => rw [hadj] at hedge; cases hedge
      | some adj =>
        rw [hadj] at hedge
        exact hS a ha adj hadj c (by simpa using hedge)
    have hchain' : chainB G (c :: rest) = true := by
      have := hchain
      simp only [chainB, Bool.and_eq_true] at this
      exact this.2
    exact ih c hc hchain' b (by simpa using hb)

/-- `Reaches` cannot escape a neighbor-closed set containing the root. -/
theorem reaches_subset {G : Graph} {S : List Vert}
    (hS : ∀ u ∈ S, ∀ adj, alookup G u = some adj → ∀ v ∈ adj, v ∈ S)
    {r g : Vert} (hr : r ∈ S) (h : Reaches G r g) : g ∈ S := by
  obtain ⟨p, hp⟩ := h
  simp only [validPathB, Bool.and_eq_true, decide_eq_true_eq] at hp
  obtain ⟨⟨hhead, hlast⟩, hchain⟩ := hp
  match p, hhead with
  | a :: rest, hhead =>
    have ha : a = r := by simpa using hhead
    subst ha
    exact chainB_last_mem hS rest a hr hchain g hlast

theorem iterStep_inv {σ : Type} (step : σ → Step σ) (I : σ → Prop)
    (P : σ → SearchRes → Prop)
    (hpres : ∀ s s', I s → step s = .next s' → I s')
    (hdone : ∀ s r, I s → step s = .done r → P s r) :
    ∀ (f : Nat) (s : σ), I s → iterStep step f s ≠ .outOfFuel →
      ∃ s', I s' ∧ P s' (iterStep step f s) := by
  intro f
  induction f with
  | zero => intro s _ h; exact absurd rfl h
  | succ n ih =>
    intro s hI h
    cases hs : step s with
    | done r =>
      refine ⟨s, hI, ?_⟩
      simpa [iterStep, hs] using hdone s r hI hs
    | next s' =>
      have h' : iterStep step n s' ≠ .outOfFuel := by simpa [iterStep, hs] using h
      have := ih s' (hpres s s' hI hs) h'
      simpa [iterStep, hs] using this

theorem iterStep_term {σ : Type} (step : σ → Step σ) (I : σ → Prop)
    (μ : σ → Nat)
    (hpres : ∀ s s', I s → step s = .next s' → I s' ∧ μ s' < μ s)
    (hdone : ∀ s r, I s → step s = .done r → r ≠ .outOfFuel) :
    ∀ (n : Nat) (s : σ), I s → μ s ≤ n → iterStep step (n + 1) s ≠ .outOfFuel := by
  intro n
  induction n with
  | zero =>
    intro s hI hμ
    cases hs : step s with
    | done r => simpa [iterStep, hs] using hdone s r hI hs
    | next s' => exact absurd (hpres s s' hI hs).2 (by omega)
  | succ m ih =>
    intro s hI hμ
    cases hs : step s with
    | done r => simpa [iterStep, hs] using hdone s r hI hs
    | next s' =>
      obtain ⟨hI', hμ'⟩ := hpres s s' hI hs
      have := ih s' hI' (by omega)
      simpa [iterStep, hs] using this

theorem alookup_aset_self {α : Type} (m : List (Vert × α)) (k : Vert) (v : α) :
    alookup (aset m k v) k = some v := by
  induction m with
  | nil => simp [aset, alookup]
  | cons p rest ih =>
    by_cases h : p.1 = k
    · simp [aset, h, alookup]
    · simp [aset, h, alookup, ih]

theorem alookup_aset_ne {α : Type} (m : List (Vert × α)) (k k' : Vert) (v : α)
    (h : k ≠ k') : alookup (aset m k v) k' = alookup m k' := by
  induction m with
  | nil => simp [aset, alookup, h]
  | cons p rest ih =>
    by_cases hp : p.1 = k
    · simp only [aset, if_pos hp, alookup]
      rw [if_neg (by rw [hp] at *; exact h), if_neg (by rw [hp]; exact h)]
    · simp only [aset, if_neg hp, alookup]
      by_cases hp' : p.1 = k'
      · simp [hp']
      · simp [hp', ih]

theorem aset_map_fst {α : Type} (m : List (Vert × α)) (k : Vert) (v : α)
    (h : k ∈ m.map Prod.fst) :
    (aset m k v).map Prod.fst = m.map Prod.fst := by
  induction m with
  | nil => cases h
  | cons p rest ih =>
    by_cases hp : p.1 = k
    · simp [aset, hp]
    · have : k ∈ rest.map Prod.fst := by
        simp only [List.map_cons, List.mem_cons] at h
        rcases h with h' | h'
        · exact absurd h'.symm hp
        · exact h'
      simp [aset, hp, ih this]

theorem alookup_isSome_of_mem {α : Type} (m : List (Vert × α)) (k : Vert)
    (h : k ∈ m.map Prod.fst) : ∃ v, alookup m k = some v := by
  induction m with
  | nil => cases h
  | cons p rest ih =>
    by_cases hp : p.1 = k
    · exact ⟨p.2, by simp [alookup, hp]⟩
    · have : k ∈ rest.map Prod.fst := by
        simp only [List.map_cons, List.mem_cons] at h
        rcases h with h' | h'
        · exact absurd h'.symm hp
        · exact h'
      obtain ⟨v, hv⟩ := ih this
      exact ⟨v, by simp [alookup, hp, hv]⟩

theorem alookup_mem {α : Type} (m : List (Vert × α)) (k : Vert) (v : α)
    (h : alookup m k = some v) : k ∈ m.map Prod.fst := by
  induction m with
  | nil => cases h
  | cons p rest ih =>
    by_cases hp : p.1 = k
    · simp [hp.symm]
    · simp only [alookup, if_neg hp] at h
      simp only [List.map_cons, List.mem_cons]
      exact Or.inr (ih h)

theorem alookup_foldl_aset_const {α : Type} (c : α) :
    ∀ (xs : List Vert) (m : List (Vert × α)) (k : Vert),
      alookup (xs.foldl (fun m v => aset m v c) m) k =
        if k ∈ xs then some c else alookup m k := by
  intro xs
  induction xs with
  | nil => intro m k; simp
  | cons x rest ih =>
    intro m k
    rw [List.foldl_cons, ih]
    by_cases hk : k ∈ rest
    · simp [hk]
    · by_cases hx : k = x
      · simp [hk, hx, alookup_aset_self]
      · simp [hk, hx, alookup_aset_ne m x k c (fun h => hx h.symm)]

theorem foldl_aset_map_fst {α : Type} (c : α) :
    ∀ (xs : List Vert) (m : List (Vert × α)),
      (∀ x ∈ xs, x ∈ m.map Prod.fst) →
      (xs.foldl (fun m v => aset m v c) m).map Prod.fst = m.map Prod.fst := by
  intro xs
  induction xs with
  | nil => intro m _; simp
  | cons x rest ih =>
    intro m h
    rw [List.foldl_cons]
    rw [ih (aset m x c) fun y hy => by
      rw [aset_map_fst m x c (h x (by simp))]
      exact h y (by simp [hy])]
    exact aset_map_fst m x c (h x (by simp))

theorem popF_none {lifo : Bool} {l : List Vert} (h : popF lifo l = Option.none) :
    l = [] := by
  cases lifo with
  | true =>
    cases hg : l.getLast? with
    | none => exact List.getLast?_eq_none_iff.mp hg
    | some x => simp [popF, hg] at h
  | false =>
    cases l with
    | nil => rfl
    | cons a as => simp [popF] at h

theorem popF_some {lifo : Bool} {l rest : List Vert} {v : Vert}
    (h : popF lifo l = some (v, rest)) :
    (∀ x, x ∈ l ↔ x = v ∨ x ∈ rest) ∧ l.length = rest.length + 1 := by
  cases lifo with
  | true =>
    cases hg : l.getLast? with
    | none => simp [popF, hg] at h
    | some x =>
      simp only [popF, hg, if_true] at h
      obtain ⟨hv, hrest⟩ := Prod.mk.injEq .. ▸ Option.some.injEq _ _ ▸ h
      have hne : l ≠ [] := by
        intro he
        rw [he] at hg
        simp at hg
      have hdecomp : l.dropLast ++ [l.getLast hne] = l :=
        List.dropLast_append_getLast hne
      have hx : x = l.getLast hne := by
        have := List.getLast?_eq_getLast l hne
        rw [this] at hg
        exact (Option.some.injEq _ _ ▸ hg).symm
      constructor
      · intro y
        constructor
        · intro hy
          rw [← hdecomp] at hy
          rcases List.mem_append.mp hy with h' | h'
          · exact Or.inr (by rw [← hrest]; exact h')
          · simp at h'
            exact Or.inl (by rw [h', ← hx, ← hv])
        · intro hy
          rcases hy with h' | h'
          · rw [h', ← hv, hx]
            exact List.getLast_mem hne
          · rw [← hrest] at h'
            exact List.dropLast_sublist l |>.mem h'
      · rw [← hrest, ← hdecomp]
        simp
  | false =>
    cases l with
    | nil => simp [popF] at h
    | cons a as =>
      simp only [popF] at h
      obtain ⟨hv, hrest⟩ := Prod.mk.injEq .. ▸ Option.some.injEq _ _ ▸ h
      subst hv
      subst hrest
      constructor
      · intro y; simp [eq_comm]
      · simp

theorem composeAux_acc (paths : PathMapV) :
    ∀ (fuel : Nat) (v : Vert) (acc p : List Vert),
      composeAux paths fuel v acc = .path p →
      ∃ pre, p = pre ++ acc ∧
        ∀ acc', composeAux paths fuel v acc' = .path (pre ++ acc') := by
  intro fuel
  induction fuel with
  | zero => intro v acc p h; cases h
  | succ n ih =>
    intro v acc p h
    cases hl : alookup paths v with
    | none => simp only [composeAux, hl] at h; cases h
    | some pv =>
      cases pv with
      | none =>
        simp only [composeAux, hl] at h
        cases h
        exact ⟨[], by simp, fun acc' => by simp [composeAux, hl]⟩
      | some w =>
        by_cases hw : w.truthy = true
        · simp only [composeAux, hl, if_pos hw] at h
          obtain ⟨pre, hpre, hall⟩ := ih w (w :: acc) p h
          refine ⟨pre ++ [w], by simpa using hpre, fun acc' => ?_⟩
          simp only [composeAux, hl, if_pos hw]
          simpa using hall (w :: acc')
        · simp only [composeAux, hl, if_neg hw] at h
          cases h
          exact ⟨[], by simp, fun acc' => by simp [composeAux, hl, hw]⟩

theorem composeAux_min_fuel (paths : PathMapV) :
    ∀ (fuel : Nat) (v : Vert) (acc p : List Vert),
      composeAux paths fuel v acc = .path p →
      ∀ fuel', p.length + 1 ≤ fuel' + acc.length →
        composeAux paths fuel' v acc = .path p := by
  intro fuel
  induction fuel with
  | zero => intro v acc p h; cases h
  | succ n ih =>
    intro v acc p h fuel' hlen
    have hacc : acc.length ≤ p.length := by
      obtain ⟨pre, hpre, _⟩ := composeAux_acc paths (n + 1) v acc p h
      rw [hpre]
      simp
    obtain ⟨m, hm⟩ : ∃ m, fuel' = m + 1 := by
      cases fuel' with
      | zero => omega
      | succ k => exact ⟨k, rfl⟩
    subst hm
    cases hl : alookup paths v with
    | none => simp only [composeAux, hl] at h; cases h
    | some pv =>
      cases pv with
      | none =>
        simp only [composeAux, hl] at h
        simp only [composeAux, hl]
        exact h
      | some w =>
        by_cases hw : w.truthy = true
        · simp only [composeAux, hl, if_pos hw] at h
          simp only [composeAux, hl, if_pos hw]
          exact ih w (w :: acc) p h m (by simp at hlen ⊢; omega)
        · simp only [composeAux, hl, if_neg hw] at h
          simp only [composeAux, hl, if_neg hw]
          exact h

theorem composeAux_congr (paths paths' : PathMapV) :
    ∀ (fuel : Nat) (v : Vert) (acc p : List Vert), v ∈ acc →
      List.Subset acc p →
      composeAux paths fuel v acc = .path p →
      (∀ x ∈ p, alookup paths' x = alookup paths x) →
      composeAux paths' fuel v acc = .path p := by
  intro fuel
  induction fuel with
  | zero => intro v acc p _ _ h; cases h
  | succ n ih =>
    intro v acc p hv hsub h hagree
    have hvp : v ∈ p := hsub hv
    cases hl : alookup paths v with
    | none => simp only [composeAux, hl] at h; cases h
    | some pv =>
      cases pv with
      | none =>
        simp only [composeAux, hl] at h
        simp only [composeAux, hagree v hvp, hl]
        exact h
      | some w =>
        by_cases hw : w.truthy = true
        · simp only [composeAux, hl, if_pos hw] at h
          simp only [composeAux, hagree v hvp, hl, if_pos hw]
          have hsub' : List.Subset (w :: acc) p := by
            obtain ⟨pre, hpre, _⟩ := composeAux_acc paths n w (w :: acc) p h
            intro y hy
            rw [hpre]
            exact List.mem_append.mpr (Or.inr hy)
          exact ih w (w :: acc) p (by simp) hsub' h hagree
        · simp only [composeAux, hl, if_neg hw] at h
          simp only [composeAux, hagree v hvp, hl, if_neg hw]
          exact h

theorem compose_path_sub {paths : PathMapV} {v : Vert} {p : List Vert}
    (h : compose_path v paths = .path p) : v ∈ p ∧ p ≠ [] := by
  obtain ⟨pre, hpre, _⟩ := composeAux_acc paths (paths.length + 1) v [v] p h
  constructor
  · rw [hpre]; simp
  · rw [hpre]; simp

theorem compose_path_congr {paths paths' : PathMapV} {v : Vert} {p : List Vert}
    (hlen : paths'.length = paths.length)
    (hagree : ∀ x ∈ p, alookup paths' x = alookup paths x)
    (h : compose_path v paths = .path p) : compose_path v paths' = .path p := by
  have hvp := (compose_path_sub h).1
  have := composeAux_congr paths paths' (paths.length + 1) v [v] p (by simp)
    (by intro y hy; simp at hy; rw [hy]; exact hvp) h hagree
  unfold compose_path
  rw [hlen]
  exact this

theorem compose_path_push {paths : PathMapV} {v u : Vert} {p : List Vert}
    (hv : alookup paths v = some (some u)) (hu : u.truthy = true)
    (hcomp : compose_path u paths = .path p) (hlen : p.length ≤ paths.length) :
    compose_path v paths = .path (p ++ [v]) := by
  obtain ⟨pre, hpre, hall⟩ :=
    composeAux_acc paths (paths.length + 1) u [u] p hcomp
  have h1 : composeAux paths (paths.length + 1) u (u :: [v]) =
      .path (pre ++ (u :: [v])) := hall (u :: [v])
  have h2 : composeAux paths paths.length u (u :: [v]) =
      .path (pre ++ (u :: [v])) := by
    refine composeAux_min_fuel paths (paths.length + 1) u (u :: [v]) _ h1
      paths.length ?_
    have : p.length = pre.length + 1 := by rw [hpre]; simp
    simp only [List.length_append, List.length_cons, List.length_nil]
    omega
  unfold compose_path
  simp only [composeAux, hv, if_pos hu, h2, hpre]
  simp

theorem validPathB_iff {G : Graph} {r g : Vert} {p : List Vert} :
    validPathB G r g p = true ↔
      p.head? = some r ∧ p.getLast? = some g ∧ chainB G p = true := by
  simp [validPathB, Bool.and_eq_true, and_assoc]

theorem chainB_cons_iff {G : Graph} {a b : Vert} {rest : List Vert} :
    chainB G (a :: b :: rest) = true ↔
      edgeB G a b = true ∧ chainB G (b :: rest) = true := by
  simp [chainB, Bool.and_eq_true]

theorem chainB_append_single {G : Graph} :
    ∀ (p : List Vert) (a b : Vert), chainB G p = true → p.getLast? = some a →
      edgeB G a b = true → chainB G (p ++ [b]) = true := by
  intro p
  induction p with
  | nil => intro a b _ hl; cases hl
  | cons c rest ih =>
    intro a b hc hl he
    cases rest with
    | nil =>
      have : c = a := by simpa using hl
      subst this
      simp [chainB, he]
    | cons d rest' =>
      obtain ⟨h1, h2⟩ := chainB_cons_iff.mp hc
      have hl' : (d :: rest').getLast? = some a := by
        rw [← hl]
        exact (List.getLast?_cons_cons ..).symm
      have := ih a b h2 hl' he
      show chainB G (c :: (d :: rest' ++ [b])) = true
      exact chainB_cons_iff.mpr ⟨h1, this⟩

theorem chainB_all_mem {G : Graph}
    (HC : ∀ u adj, alookup G u = some adj → ∀ v ∈ adj, v ∈ gkeys G) :
    ∀ (p : List Vert) (a : Vert), a ∈ gkeys G → chainB G (a :: p) = true →
      ∀ x ∈ a :: p, x ∈ gkeys G := by
  intro p
  induction p with
  | nil =>
    intro a ha _ x hx
    simp at hx
    rwa [hx]
  | cons c rest ih =>
    intro a ha hc x hx
    obtain ⟨h1, h2⟩ := chainB_cons_iff.mp hc
    have hck : c ∈ gkeys G := by
      unfold edgeB at h1
      cases hadj : alookup G a with
      | none => rw [hadj] at h1; cases h1
      | some adj =>
        rw [hadj] at h1
        exact HC a adj hadj c (by simpa using h1)
    rcases List.mem_cons.mp hx with h | h
    · rwa [h]
    · exact ih c hck h2 x h

theorem validPathB_mem_keys {G : Graph} {r g : Vert} {p : List Vert}
    (HC : ∀ u adj, alookup G u = some adj → ∀ v ∈ adj, v ∈ gkeys G)
    (hr : r ∈ gkeys G) (h : validPathB G r g p = true) :
    ∀ x ∈ p, x ∈ gkeys G := by
  obtain ⟨hh, _, hc⟩ := validPathB_iff.mp h
  match p, hh with
  | a :: rest, hh =>
    have ha : a = r := by simpa using hh
    subst ha
    exact chainB_all_mem HC rest a hr hc

theorem nodup_subset_length {l keys : List Vert} (hn : l.Nodup)
    (hs : ∀ x ∈ l, x ∈ keys) : l.length ≤ keys.length := by
  calc l.length = l.toFinset.card := (List.toFinset_card_of_nodup hn).symm
    _ ≤ keys.toFinset.card := by
        apply Finset.card_le_card
        intro x hx
        simp only [List.mem_toFinset] at hx ⊢
        exact hs x hx
    _ ≤ keys.length := keys.toFinset_card_le

theorem sbudget_mono (G : Graph) (x : Vert) (vis : List Vert) :
    sbudget G (x :: vis) ≤ sbudget G vis := by
  induction G with
  | nil => exact Nat.le_refl _
  | cons pr rest ih =>
    unfold sbudget
    by_cases h2 : pr.1 ∈ vis
    · have h1 : pr.1 ∈ x :: vis := by simp [h2]
      rw [if_pos h1, if_pos h2]
      omega
    · by_cases h1 : pr.1 ∈ x :: vis
      · rw [if_pos h1, if_neg h2]
        omega
      · rw [if_neg h1, if_neg h2]
        omega

theorem sbudget_remove {vertex : Vert} {adj : List Vert} :
    ∀ {G : Graph}, alookup G vertex = some adj → ∀ {vis : List Vert},
      vertex ∉ vis → sbudget G (vertex :: vis) + adj.length + 1 ≤ sbudget G vis := by
  intro G
  induction G with
  | nil => intro h; cases h
  | cons pr rest ih =>
    intro hmem vis hnv
    unfold sbudget
    by_cases hp : pr.1 = vertex
    · have hadj : pr.2 = adj := by
        simp only [alookup, if_pos hp] at hmem
        exact Option.some.injEq _ _ ▸ hmem
      have hk1 : pr.1 ∈ vertex :: vis := by simp [hp]
      have hk2 : pr.1 ∉ vis := by rw [hp]; exact hnv
      rw [if_pos hk1, if_neg hk2, hadj]
      have := sbudget_mono rest vertex vis
      omega
    · simp only [alookup, if_neg hp] at hmem
      have := ih hmem hnv
      by_cases h2 : pr.1 ∈ vis
      · have h1 : pr.1 ∈ vertex :: vis := by simp [h2]
        rw [if_pos h1, if_pos h2]
        omega
      · have h1 : pr.1 ∉ vertex :: vis := by
          intro h
          rcases List.mem_cons.mp h with h' | h'
          · exact hp h'
          · exact h2 h'
        rw [if_neg h1, if_neg h2]
        omega

theorem sinv_skip {dlim : Option Int} {goal : Vert} {G : Graph} {r : Vert}
    {st : SState} (hI : SInv dlim goal G r st) {vertex : Vert} {rest : List Vert}
    (hpop : ∀ x, x ∈ st.stack ↔ x = vertex ∨ x ∈ rest)
    (hvis : vertex ∈ st.visited) :
    SInv dlim goal G r { st with stack := rest } := by
  refine ⟨hI.pkeys, hI.dkeys, ?_, hI.visK, ?_, hI.goalV, ?_, ?_, ?_⟩
  · intro v hv
    exact hI.stackK v ((hpop v).mpr (Or.inr hv))
  · rcases hI.rootIn with h | h
    · rcases (hpop r).mp h with h' | h'
      · exact Or.inr (h' ▸ hvis)
      · exact Or.inl h'
    · exact Or.inr h
  · intro v hv
    refine hI.comp v ?_
    rcases hv with h | h
    · exact Or.inl ((hpop v).mpr (Or.inr h))
    · exact Or.inr h
  · intro L hL v hv
    refine hI.depthsOK L hL v ?_
    rcases hv with h | h
    · exact Or.inl ((hpop v).mpr (Or.inr h))
    · exact Or.inr h
  · intro u hu hnp adj hadj v hv
    rcases hI.closure u hu hnp adj hadj v hv with h | h
    · exact Or.inl h
    · rcases (hpop v).mp h with h' | h'
      · exact Or.inl (h' ▸ hvis)
      · exact Or.inr h'

theorem sinv_prune {dlim : Option Int} {goal : Vert} {G : Graph} {r : Vert}
    {st : SState} (hI : SInv dlim goal G r st) {vertex : Vert} {rest : List Vert}
    (hpop : ∀ x, x ∈ st.stack ↔ x = vertex ∨ x ∈ rest)
    (hng : vertex ≠ goal) {L : Int} (hdl : dlim = some L) {d : Int}
    (hd : alookup st.depths vertex = some d) (hLd : L ≤ d) :
    SInv dlim goal G r { st with stack := rest, visited := vertex :: st.visited } := by
  have hvk : vertex ∈ gkeys G := hI.stackK vertex ((hpop vertex).mpr (Or.inl rfl))
  refine ⟨hI.pkeys, hI.dkeys, ?_, ?_, ?_, ?_, ?_, ?_, ?_⟩
  · intro v hv
    exact hI.stackK v ((hpop v).mpr (Or.inr hv))
  · intro v hv
    rcases List.mem_cons.mp hv with h | h
    · exact h ▸ hvk
    · exact hI.visK v h
  · rcases hI.rootIn with h | h
    · rcases (hpop r).mp h with h' | h'
      · exact Or.inr (by simp [h'])
      · exact Or.inl h'
    · exact Or.inr (by simp [h])
  · intro hg
    rcases List.mem_cons.mp hg with h | h
    · exact hng h.symm
    · exact hI.goalV h
  · intro v hv
    have hv' : v ∈ st.stack ∨ v ∈ st.visited := by
      rcases hv with h | h
      · exact Or.inl ((hpop v).mpr (Or.inr h))
      · rcases List.mem_cons.mp h with h' | h'
        · exact Or.inl (h' ▸ (hpop vertex).mpr (Or.inl rfl))
        · exact Or.inr h'
    obtain ⟨p, h1, h2, h3, h4⟩ := hI.comp v hv'
    exact ⟨p, h1, h2, h3, fun x hx => by
      rcases h4 x hx with h | h
      · exact Or.inl (by simp [h])
      · exact Or.inr h⟩
  · intro L' hL' v hv
    have hv' : v ∈ st.stack ∨ v ∈ st.visited := by
      rcases hv with h | h
      · exact Or.inl ((hpop v).mpr (Or.inr h))
      · rcases List.mem_cons.mp h with h' | h'
        · exact Or.inl (h' ▸ (hpop vertex).mpr (Or.inl rfl))
        · exact Or.inr h'
    exact hI.depthsOK L' hL' v hv'
  · intro u hu hnp adj hadj v hv
    rcases List.mem_cons.mp hu with h | h
    · exfalso
      obtain ⟨d', hd', hdL⟩ := hnp L hdl
      rw [h, hd] at hd'
      have : d = d' := Option.some.injEq _ _ ▸ hd'
      omega
    · rcases hI.closure u h hnp adj hadj v hv with h' | h'
      · exact Or.inl (by simp [h'])
      · rcases (hpop v).mp h' with h'' | h''
        · exact Or.inl (by simp [h''])
        · exact Or.inr h''

theorem sinv_expand {dlim : Option Int} {goal : Vert} {G : Graph} {r : Vert}
    {st : SState} (hI : SInv dlim goal G r st)
    (HC : ∀ u adj, alookup G u = some adj → ∀ v ∈ adj, v ∈ gkeys G)
    (HT : ∀ v ∈ gkeys G, v.truthy = true) (hr : r ∈ gkeys G)
    {vertex : Vert} {rest : List Vert}
    (hpop : ∀ x, x ∈ st.stack ↔ x = vertex ∨ x ∈ rest)
    (hnv : vertex ∉ st.visited) (hng : vertex ≠ goal)
    {adj : List Vert} (hadj : alookup G vertex = some adj)
    {depths' : List (Vert × Int)}
    (hdep : (dlim = Option.none ∧ depths' = st.depths) ∨
      (∃ L d, dlim = some L ∧ alookup st.depths vertex = some d ∧ ¬ L ≤ d ∧
        depths' = (adj.filter fun v =>
          decide (¬ v ∈ vertex :: st.visited ∧ ¬ v ∈ rest)).foldl
          (fun m v => aset m v (d + 1)) st.depths)) :
    SInv dlim goal G r
      ⟨rest ++ adj.filter (fun v => decide (¬ v ∈ vertex :: st.visited ∧ ¬ v ∈ rest)),
        vertex :: st.visited,
        (adj.filter fun v => decide (¬ v ∈ vertex :: st.visited ∧ ¬ v ∈ rest)).foldl
          (fun m v => aset m v (some vertex)) st.paths,
        depths'⟩ := by
  set adjacent := adj.filter
    (fun v => decide (¬ v ∈ vertex :: st.visited ∧ ¬ v ∈ rest)) with hadjacent
  set paths' := adjacent.foldl (fun m v => aset m v (some vertex)) st.paths
    with hpaths'
  have hvstack : vertex ∈ st.stack := (hpop vertex).mpr (Or.inl rfl)
  have hvk : vertex ∈ gkeys G := hI.stackK vertex hvstack
  have hmemadj : ∀ w, w ∈ adjacent ↔
      w ∈ adj ∧ (¬ w ∈ vertex :: st.visited ∧ ¬ w ∈ rest) := by
    intro w
    rw [hadjacent, List.mem_filter]
    simp
  have hadjK : ∀ w ∈ adjacent, w ∈ gkeys G := fun w hw =>
    HC vertex adj hadj w ((hmemadj w).mp hw).1
  have hnotadj : ∀ x, (x ∈ st.visited ∨ x = vertex ∨ x ∈ rest) → x ∉ adjacent := by
    intro x hx hmem
    obtain ⟨_, hx1, hx2⟩ := (hmemadj x).mp hmem
    rcases hx with h | h | h
    · exact hx1 (by simp [h])
    · exact hx1 (by simp [h])
    · exact hx2 h
  have hlookKeep : ∀ x, x ∉ adjacent → alookup paths' x = alookup st.paths x := by
    intro x hx
    rw [hpaths', alookup_foldl_aset_const]
    simp [hx]
  have hlookNew : ∀ w ∈ adjacent, alookup paths' w = some (some vertex) := by
    intro w hw
    rw [hpaths', alookup_foldl_aset_const]
    simp [hw]
  have hpk' : paths'.map Prod.fst = st.paths.map Prod.fst := by
    rw [hpaths']
    exact foldl_aset_map_fst _ adjacent st.paths
      (fun x hx => by rw [hI.pkeys]; exact hadjK x hx)
  have hplen : paths'.length = st.paths.length := by
    have h1 := congrArg List.length hpk'
    simpa using h1
  obtain ⟨p, hp, hvp, hnd, helems⟩ := hI.comp vertex (Or.inl hvstack)
  have hcompVertex : compose_path vertex paths' = .path p := by
    refine compose_path_congr hplen ?_ hp
    intro x hx
    refine hlookKeep x (hnotadj x ?_)
    rcases helems x hx with h | h
    · exact Or.inl h
    · exact Or.inr (Or.inl h)
  have hpsub : ∀ x ∈ p, x ∈ gkeys G := validPathB_mem_keys HC hr hvp
  have hpbound : p.length ≤ st.paths.length := by
    have h1 := nodup_subset_length hnd hpsub
    have h2 : (gkeys G).length = st.paths.length := by
      rw [← hI.pkeys]
      simp
    omega
  have htv : vertex.truthy = true := HT vertex hvk
  obtain ⟨hh, hlastp, hchainp⟩ := validPathB_iff.mp hvp
  have hold : ∀ v, v ∈ rest ∨ v ∈ vertex :: st.visited →
      ∃ q, compose_path v paths' = .path q ∧ compose_path v st.paths = .path q ∧
        validPathB G r v q = true ∧ q.Nodup ∧
        (∀ x ∈ q, x ∈ st.visited ∨ x = v) := by
    intro v hv
    have hv' : v ∈ st.stack ∨ v ∈ st.visited := by
      rcases hv with h | h
      · exact Or.inl ((hpop v).mpr (Or.inr h))
      · rcases List.mem_cons.mp h with h' | h'
        · exact Or.inl (h' ▸ hvstack)
        · exact Or.inr h'
    obtain ⟨q, hq, hvq, hndq, helq⟩ := hI.comp v hv'
    refine ⟨q, ?_, hq, hvq, hndq, helq⟩
    refine compose_path_congr hplen ?_ hq
    intro x hx
    refine hlookKeep x (hnotadj x ?_)
    rcases helq x hx with h | h
    · exact Or.inl h
    · rcases hv with h2 | h2
      · exact Or.inr (Or.inr (h ▸ h2))
      · rcases List.mem_cons.mp h2 with h3 | h3
        · exact Or.inr (Or.inl (h.trans h3))
        · exact Or.inl (h ▸ h3)
  have hnewcomp : ∀ v ∈ adjacent, compose_path v paths' = .path (p ++ [v]) := by
    intro v hv
    exact compose_path_push (hlookNew v hv) htv hcompVertex (hplen ▸ hpbound)
  have hnewvalid : ∀ v ∈ adjacent, validPathB G r v (p ++ [v]) = true := by
    intro v hv
    refine validPathB_iff.mpr ⟨?_, ?_, ?_⟩
    · match p, hh with
      | a :: q, hh => simpa using hh
    · exact List.getLast?_concat _
    · refine chainB_append_single p vertex v hchainp hlastp ?_
      unfold edgeB
      rw [hadj]
      simp [((hmemadj v).mp hv).1]
  have hnewnodup : ∀ v ∈ adjacent, (p ++ [v]).Nodup := by
    intro v hv
    have hvnp : v ∉ p := by
      intro hvin
      rcases helems v hvin with h | h
      · exact ((hmemadj v).mp hv).2.1 (by simp [h])
      · exact ((hmemadj v).mp hv).2.1 (by simp [h])
    simp [List.nodup_append, hnd, hvnp]
  refine ⟨?_, ?_, ?_, ?_, ?_, ?_, ?_, ?_, ?_⟩
  · show paths'.map Prod.fst = gkeys G
    rw [hpk']
    exact hI.pkeys
  · intro L hL
    rcases hdep with ⟨hnone, _⟩ | ⟨L0, d, hdl, hd, hLd, hdeq⟩
    · rw [hnone] at hL
      cases hL
    · show depths'.map Prod.fst = gkeys G
      rw [hdeq]
      rw [foldl_aset_map_fst _ adjacent st.depths
        (fun x hx => by rw [hI.dkeys L hL]; exact hadjK x hx)]
      exact hI.dkeys L hL
  · intro v hv
    rcases List.mem_append.mp hv with h | h
    · exact hI.stackK v ((hpop v).mpr (Or.inr h))
    · exact hadjK v h
  · intro v hv
    rcases List.mem_cons.mp hv with h | h
    · exact h ▸ hvk
    · exact hI.visK v h
  · rcases hI.rootIn with h | h
    · rcases (hpop r).mp h with h' | h'
      · exact Or.inr (by simp [h'])
      · exact Or.inl (List.mem_append.mpr (Or.inl h'))
    · exact Or.inr (by simp [h])
  · intro hg
    rcases List.mem_cons.mp hg with h | h
    · exact hng h.symm
    · exact hI.goalV h
  · intro v hv
    rcases hv with hv | hv
    · rcases List.mem_append.mp hv with h | h
      · obtain ⟨q, hq1, _, hvq, hndq, helq⟩ := hold v (Or.inl h)
        refine ⟨q, hq1, hvq, hndq, fun x hx => ?_⟩
        rcases helq x hx with h2 | h2
        · exact Or.inl (by simp [h2])
        · exact Or.inr h2
      · refine ⟨p ++ [v], hnewcomp v h, hnewvalid v h, hnewnodup v h,
          fun x hx => ?_⟩
        rcases List.mem_append.mp hx with h2 | h2
        · rcases helems x h2 with h3 | h3
          · exact Or.inl (by simp [h3])
          · exact Or.inl (by simp [h3])
        · exact Or.inr (by simpa using h2)
    · obtain ⟨q, hq1, _, hvq, hndq, helq⟩ := hold v (Or.inr hv)
      refine ⟨q, hq1, hvq, hndq, fun x hx => ?_⟩
      rcases helq x hx with h2 | h2
      · exact Or.inl (by simp [h2])
      · exact Or.inr h2
  · intro L hL v hv
    rcases hdep with ⟨hnone, _⟩ | ⟨L0, d, hdl, hd, hLd, hdeq⟩
    · rw [hnone] at hL
      cases hL
    · have hL0 : L0 = L := by
        rw [hdl] at hL
        exact Option.some.injEq _ _ ▸ hL
      subst hL0
      obtain ⟨p2, hp2, hdvert, _⟩ := hI.depthsOK L0 hdl vertex (Or.inl hvstack)
      have hp2p : p2 = p := by
        rw [hp] at hp2
        exact (SearchRes.path.injEq _ _ ▸ hp2).symm
      subst hp2p
      have hdval : d = (p2.length : Int) - 1 := by
        rw [hd] at hdvert
        exact Option.some.injEq _ _ ▸ hdvert
      rcases hv with hv | hv
      · rcases List.mem_append.mp hv with h | h
        · obtain ⟨q, hq1, hq0, hvq, _, _⟩ := hold v (Or.inl h)
          obtain ⟨q2, hq2, hdq, hbq⟩ := hI.depthsOK L0 hdl v
            (Or.inl ((hpop v).mpr (Or.inr h)))
          have hq2q : q2 = q := by
            rw [hq0] at hq2
            exact (SearchRes.path.injEq _ _ ▸ hq2).symm
          subst hq2q
          refine ⟨q2, hq1, ?_, hbq⟩
          rw [hdeq, alookup_foldl_aset_const,
            if_neg (hnotadj v (Or.inr (Or.inr h)))]
          exact hdq
        · have hlen2 : ((p2 ++ [v]).length : Int) = (p2.length : Int) + 1 := by
            simp
          refine ⟨p2 ++ [v], hnewcomp v h, ?_, ?_⟩
          · rw [hdeq, alookup_foldl_aset_const, if_pos h]
            congr 1
            omega
          · left
            omega
      · obtain ⟨q, hq1, hq0, hvq, _, _⟩ := hold v (Or.inr hv)
        have hv' : v ∈ st.stack ∨ v ∈ st.visited := by
          rcases List.mem_cons.mp hv with h' | h'
          · exact Or.inl (h' ▸ hvstack)
          · exact Or.inr h'
        obtain ⟨q2, hq2, hdq, hbq⟩ := hI.depthsOK L0 hdl v hv'
        have hq2q : q2 = q := by
          rw [hq0] at hq2
          exact (SearchRes.path.injEq _ _ ▸ hq2).symm
        subst hq2q
        have hvno : v ∉ adjacent := by
          rcases List.mem_cons.mp hv with h' | h'
          · exact hnotadj v (Or.inr (Or.inl h'))
          · exact hnotadj v (Or.inl h')
        refine ⟨q2, hq1, ?_, hbq⟩
        rw [hdeq, alookup_foldl_aset_const]
        simp [hvno, hdq]
  · intro u hu hnp adj2 hadj2 v hv
    have htransfer : ∀ x, x ∉ adjacent →
        alookup depths' x = alookup st.depths x := by
      intro x hx
      rcases hdep with ⟨_, hdeq⟩ | ⟨L0, d, hdl, hd, hLd, hdeq⟩
      · rw [hdeq]
      · rw [hdeq, alookup_foldl_aset_const]
        simp [hx]
    rcases List.mem_cons.mp hu with h | h
    · have hadjeq : adj2 = adj := by
        rw [h, hadj] at hadj2
        exact (Option.some.injEq _ _ ▸ hadj2).symm
      subst hadjeq
      by_cases hva : v ∈ adjacent
      · exact Or.inr (List.mem_append.mpr (Or.inr hva))
      · have := (hmemadj v).not.mp hva
        push_neg at this
        rcases Decidable.em (v ∈ vertex :: st.visited) with h2 | h2
        · exact Or.inl h2
        · have h3 := this hv h2
          exact Or.inr (List.mem_append.mpr (Or.inl h3))
    · have hunp : NotPruned dlim st.depths u := by
        intro L hL
        obtain ⟨d, hd, hdL⟩ := hnp L hL
        refine ⟨d, ?_, hdL⟩
        rw [← htransfer u (hnotadj u (Or.inl h))]
        exact hd
      rcases hI.closure u h hunp adj2 hadj2 v hv with h2 | h2
      · exact Or.inl (by simp [h2])
      · rcases (hpop v).mp h2 with h3 | h3
        · exact Or.inl (by simp [h3])
        · exact Or.inr (List.mem_append.mpr (Or.inl h3))

theorem searchStep_next {lifo : Bool} {dlim : Option Int} {goal : Vert}
    {G : Graph} {r : Vert} {st st' : SState}
    (HC : ∀ u adj, alookup G u = some adj → ∀ v ∈ adj, v ∈ gkeys G)
    (HT : ∀ v ∈ gkeys G, v.truthy = true) (hr : r ∈ gkeys G)
    (hI : SInv dlim goal G r st)
    (hstep : searchStep lifo dlim goal G st = .next st') :
    SInv dlim goal G r st' ∧ smeasure G st' < smeasure G st := by
  unfold searchStep at hstep
  cases hpop : popF lifo st.stack with
  | none => rw [hpop] at hstep; cases hstep
  | some pr =>
    obtain ⟨vertex, rest⟩ := pr
    rw [hpop] at hstep
    obtain ⟨hmem, hlen⟩ := popF_some hpop
    simp only at hstep
    by_cases hvis : vertex ∈ st.visited
    · rw [if_pos hvis] at hstep
      cases hstep
      refine ⟨sinv_skip hI hmem hvis, ?_⟩
      unfold smeasure
      simp only
      omega
    · rw [if_neg hvis] at hstep
      obtain ⟨p, hp, hvp, hnd, helems⟩ := hI.comp vertex
        (Or.inl ((hmem vertex).mpr (Or.inl rfl)))
      rw [hp] at hstep
      simp only at hstep
      by_cases hg : vertex = goal
      · rw [if_pos hg] at hstep
        cases hstep
      · rw [if_neg hg] at hstep
        cases hdl : dlim with
        | none =>
          rw [hdl] at hstep
          simp only at hstep
          cases hadj : alookup G vertex with
          | none =>
            rw [hadj] at hstep
            cases hstep
          | some adj =>
            rw [hadj] at hstep
            simp only at hstep
            cases hstep
            refine ⟨hdl ▸ sinv_expand hI HC HT hr hmem hvis hg hadj
              (Or.inl ⟨hdl, rfl⟩), ?_⟩
            unfold smeasure
            simp only [List.length_append]
            have hb := sbudget_remove hadj hvis
            have hf : (adj.filter fun v =>
                decide (¬ v ∈ vertex :: st.visited ∧ ¬ v ∈ rest)).length ≤
                adj.length := List.length_filter_le _ _
            omega
        | some L =>
          rw [hdl] at hstep
          simp only at hstep
          cases hdv : alookup st.depths vertex with
          | none =>
            rw [hdv] at hstep
            cases hstep
          | some d =>
            rw [hdv] at hstep
            simp only at hstep
            by_cases hLd : L ≤ d
            · rw [if_pos hLd] at hstep
              cases hstep
              refine ⟨hdl ▸ sinv_prune hI hmem hg hdl hdv hLd, ?_⟩
              unfold smeasure
              simp only
              have := sbudget_mono G vertex st.visited
              omega
            · rw [if_neg hLd] at hstep
              cases hadj : alookup G vertex with
              | none =>
                rw [hadj] at hstep
                cases hstep
              | some adj =>
                rw [hadj] at hstep
                simp only at hstep
                cases hstep
                refine ⟨hdl ▸ sinv_expand hI HC HT hr hmem hvis hg hadj
                  (Or.inr ⟨L, d, hdl, hdv, hLd, rfl⟩), ?_⟩
                unfold smeasure
                simp only [List.length_append]
                have hb := sbudget_remove hadj hvis
                have hf : (adj.filter fun v =>
                    decide (¬ v ∈ vertex :: st.visited ∧ ¬ v ∈ rest)).length ≤
                    adj.length := List.length_filter_le _ _
                omega

theorem searchStep_done {lifo : Bool} {dlim : Option Int} {goal : Vert}
    {G : Graph} {r : Vert} {st : SState} {res : SearchRes}
    (hI : SInv dlim goal G r st)
    (hstep : searchStep lifo dlim goal G st = .done res) :
    (res = .noPath ∧ st.stack = []) ∨
    (∃ p, res = .path p ∧ validPathB G r goal p = true ∧ p.Nodup ∧
      (∀ L, dlim = some L → (p.length : Int) - 1 ≤ L ∨ goal = r)) := by
  unfold searchStep at hstep
  cases hpop : popF lifo st.stack with
  | none =>
    rw [hpop] at hstep
    cases hstep
    exact Or.inl ⟨rfl, popF_none hpop⟩
  | some pr =>
    obtain ⟨vertex, rest⟩ := pr
    rw [hpop] at hstep
    obtain ⟨hmem, hlen⟩ := popF_some hpop
    simp only at hstep
    by_cases hvis : vertex ∈ st.visited
    · rw [if_pos hvis] at hstep
      cases hstep
    · rw [if_neg hvis] at hstep
      have hvst : vertex ∈ st.stack := (hmem vertex).mpr (Or.inl rfl)
      have hvk : vertex ∈ gkeys G := hI.stackK vertex hvst
      obtain ⟨p, hp, hvp, hnd, helems⟩ := hI.comp vertex (Or.inl hvst)
      rw [hp] at hstep
      simp only at hstep
      by_cases hg : vertex = goal
      · rw [if_pos hg] at hstep
        cases hstep
        refine Or.inr ⟨p, rfl, hg ▸ hvp, hnd, ?_⟩
        intro L hL
        obtain ⟨p2, hp2, _, hb⟩ := hI.depthsOK L hL vertex (Or.inl hvst)
        have hp2p : p2 = p := by
          rw [hp] at hp2
          exact (SearchRes.path.injEq _ _ ▸ hp2).symm
        subst hp2p
        rcases hb with hb | hb
        · exact Or.inl hb
        · exact Or.inr (hg ▸ hb)
      · rw [if_neg hg] at hstep
        cases hdl : dlim with
        | none =>
          rw [hdl] at hstep
          simp only at hstep
          cases hadj : alookup G vertex with
          | none =>
            obtain ⟨adj, ha⟩ := alookup_isSome_of_mem G vertex hvk
            rw [ha] at hadj
            cases hadj
          | some adj =>
            rw [hadj] at hstep
            simp only at hstep
            cases hstep
        | some L =>
          rw [hdl] at hstep
          simp only at hstep
          cases hdv : alookup st.depths vertex with
          | none =>
            obtain ⟨p2, _, hd2, _⟩ := hI.depthsOK L hdl vertex (Or.inl hvst)
            rw [hdv] at hd2
            cases hd2
          | some d =>
            rw [hdv] at hstep
            simp only at hstep
            by_cases hLd : L ≤ d
            · rw [if_pos hLd] at hstep
              cases hstep
            · rw [if_neg hLd] at hstep
              cases hadj : alookup G vertex with
              | none =>
                obtain ⟨adj, ha⟩ := alookup_isSome_of_mem G vertex hvk
                rw [ha] at hadj
                cases hadj
              | some adj =>
                rw [hadj] at hstep
                simp only at hstep
                cases hstep

theorem composeAux_cases (paths : PathMapV) :
    ∀ (fuel : Nat) (v : Vert) (acc : List Vert),
      (∃ p, composeAux paths fuel v acc = .path p) ∨
      composeAux paths fuel v acc = .keyErr ∨
      composeAux paths fuel v acc = .diverge := by
  intro fuel
  induction fuel with
  | zero => intro v acc; exact Or.inr (Or.inr rfl)
  | succ n ih =>
    intro v acc
    cases hl : alookup paths v with
    | none => exact Or.inr (Or.inl (by simp [composeAux, hl]))
    | some pv =>
      cases pv with
      | none => exact Or.inl ⟨acc, by simp [composeAux, hl]⟩
      | some w =>
        by_cases hw : w.truthy = true
        · rcases ih w (w :: acc) with ⟨p, hp⟩ | h | h
          · exact Or.inl ⟨p, by simp [composeAux, hl, hw, hp]⟩
          · exact Or.inr (Or.inl (by simp [composeAux, hl, hw, h]))
          · exact Or.inr (Or.inr (by simp [composeAux, hl, hw, h]))
        · exact Or.inl ⟨acc, by simp [composeAux, hl, hw]⟩

theorem compose_path_ne_oof (paths : PathMapV) (v : Vert) :
    compose_path v paths ≠ .outOfFuel := by
  unfold compose_path
  rcases composeAux_cases paths (paths.length + 1) v [v] with ⟨p, hp⟩ | h | h
  · simp [hp]
  · simp [h]
  · simp [h]

theorem searchStep_no_oof {lifo : Bool} {dlim : Option Int} {goal : Vert}
    {G : Graph} {st : SState} {res : SearchRes}
    (hstep : searchStep lifo dlim goal G st = .done res) :
    res ≠ .outOfFuel := by
  unfold searchStep at hstep
  cases hpop : popF lifo st.stack with
  | none =>
    rw [hpop] at hstep
    cases hstep
    simp
  | some pr =>
    obtain ⟨vertex, rest⟩ := pr
    rw [hpop] at hstep
    simp only at hstep
    by_cases hvis : vertex ∈ st.visited
    · rw [if_pos hvis] at hstep
      cases hstep
    · rw [if_neg hvis] at hstep
      cases hcomp : compose_path vertex st.paths with
      | path np =>
        rw [hcomp] at hstep
        simp only at hstep
        by_cases hg : vertex = goal
        · rw [if_pos hg] at hstep
          cases hstep
          simp
        · rw [if_neg hg] at hstep
          cases hdl : dlim with
          | none =>
            rw [hdl] at hstep
            simp only at hstep
            cases hadj : alookup G vertex with
            | none => rw [hadj] at hstep; cases hstep; simp
            | some adj => rw [hadj] at hstep; simp only at hstep; cases hstep
          | some L =>
            rw [hdl] at hstep
            simp only at hstep
            cases hdv : alookup st.depths vertex with
            | none => rw [hdv] at hstep; cases hstep; simp
            | some d =>
              rw [hdv] at hstep
              simp only at hstep
              by_cases hLd : L ≤ d
              · rw [if_pos hLd] at hstep
                cases hstep
              · rw [if_neg hLd] at hstep
                cases hadj : alookup G vertex with
                | none => rw [hadj] at hstep; cases hstep; simp
                | some adj => rw [hadj] at hstep; simp only at hstep; cases hstep
      | noPath => have := compose_path_ne_oof st.paths vertex; rw [hcomp] at hstep; cases hstep; simp
      | noneRes => rw [hcomp] at hstep; cases hstep; simp
      | keyErr => rw [hcomp] at hstep; cases hstep; simp
      | diverge => rw [hcomp] at hstep; cases hstep; simp
      | outOfFuel =>
        exact absurd hcomp (compose_path_ne_oof st.paths vertex)

theorem searchStep_measure {lifo : Bool} {dlim : Option Int} {goal : Vert}
    {G : Graph} {st st' : SState}
    (hstep : searchStep lifo dlim goal G st = .next st') :
    smeasure G st' < smeasure G st := by
  unfold searchStep at hstep
  cases hpop : popF lifo st.stack with
  | none => rw [hpop] at hstep; cases hstep
  | some pr =>
    obtain ⟨vertex, rest⟩ := pr
    rw [hpop] at hstep
    obtain ⟨hmem, hlen⟩ := popF_some hpop
    simp only at hstep
    by_cases hvis : vertex ∈ st.visited
    · rw [if_pos hvis] at hstep
      cases hstep
      unfold smeasure
      simp only
      omega
    · rw [if_neg hvis] at hstep
      cases hcomp : compose_path vertex st.paths with
      | path np =>
        rw [hcomp] at hstep
        simp only at hstep
        by_cases hg : vertex = goal
        · rw [if_pos hg] at hstep
          cases hstep
        · rw [if_neg hg] at hstep
          cases hdl : dlim with
          | none =>
            rw [hdl] at hstep
            simp only at hstep
            cases hadj : alookup G vertex with
            | none => rw [hadj] at hstep; cases hstep
            | some adj =>
              rw [hadj] at hstep
              simp only at hstep
              cases hstep
              unfold smeasure
              simp only [List.length_append]
              have hb := sbudget_remove hadj hvis
              have hf : (adj.filter fun v =>
                  decide (¬ v ∈ vertex :: st.visited ∧ ¬ v ∈ rest)).length ≤
                  adj.length := List.length_filter_le _ _
              omega
          | some L =>
            rw [hdl] at hstep
            simp only at hstep
            cases hdv : alookup st.depths vertex with
            | none => rw [hdv] at hstep; cases hstep
            | some d =>
              rw [hdv] at hstep
              simp only at hstep
              by_cases hLd : L ≤ d
              · rw [if_pos hLd] at hstep
                cases hstep
                unfold smeasure
                simp only
                have := sbudget_mono G vertex st.visited
                omega
              · rw [if_neg hLd] at hstep
                cases hadj : alookup G vertex with
                | none => rw [hadj] at hstep; cases hstep
                | some adj =>
                  rw [hadj] at hstep
                  simp only at hstep
                  cases hstep
                  unfold smeasure
                  simp only [List.length_append]
                  have hb := sbudget_remove hadj hvis
                  have hf : (adj.filter fun v =>
                      decide (¬ v ∈ vertex :: st.visited ∧ ¬ v ∈ rest)).length ≤
                      adj.length := List.length_filter_le _ _
                  omega
      | noPath => rw [hcomp] at hstep; cases hstep
      | noneRes => rw [hcomp] at hstep; cases hstep
      | keyErr => rw [hcomp] at hstep; cases hstep
      | diverge => rw [hcomp] at hstep; cases hstep
      | outOfFuel => rw [hcomp] at hstep; cases hstep

/-- Every run of the DFS/BFS/DLS loop terminates on every finite graph. -/
theorem searchLoop_terminates (lifo : Bool) (dlim : Option Int) (goal : Vert)
    (G : Graph) (st : SState) :
    searchLoop lifo dlim goal G (smeasure G st + 1) st ≠ .outOfFuel := by
  exact iterStep_term (searchStep lifo dlim goal G) (fun _ => True)
    (smeasure G)
    (fun s s' _ hs => ⟨trivial, searchStep_measure hs⟩)
    (fun s r _ hs => searchStep_no_oof hs)
    (smeasure G st) st trivial (Nat.le_refl _)

theorem initDepths_map_fst (G : Graph) (r : Vert) (hr : r ∈ gkeys G) :
    (initDepths G r).map Prod.fst = gkeys G := by
  unfold initDepths
  have hm : (G.map fun p => (p.1, (-1 : Int))).map Prod.fst = gkeys G := by
    unfold gkeys
    simp
  rw [aset_map_fst _ _ _ (by rw [hm]; exact hr), hm]

theorem alookup_initDepths_root (G : Graph) (r : Vert) :
    alookup (initDepths G r) r = some 0 := alookup_aset_self _ r 0

theorem validPathB_single (G : Graph) (r : Vert) :
    validPathB G r r [r] = true := by
  simp [validPathB, chainB]

theorem sinv_init {dlim : Option Int} {goal : Vert} {G : Graph} {r : Vert}
    {D : List (Vert × Int)} (hr : r ∈ gkeys G)
    (hD : ∀ L, dlim = some L → D = initDepths G r) :
    SInv dlim goal G r ⟨[r], [], initPaths G, D⟩ := by
  have hcomp0 : compose_path r (initPaths G) = .path [r] :=
    compose_path_none (alookup_initPaths hr)
  refine ⟨?_, ?_, ?_, ?_, ?_, ?_, ?_, ?_, ?_⟩
  · unfold initPaths gkeys
    simp
  · intro L hL
    rw [hD L hL]
    exact initDepths_map_fst G r hr
  · intro v hv
    simp at hv
    rwa [hv]
  · intro v hv
    cases hv
  · exact Or.inl (by simp)
  · intro h
    cases h
  · intro v hv
    have hv' : v = r := by
      rcases hv with h | h
      · simpa using h
      · cases h
    rw [hv']
    exact ⟨[r], hcomp0, validPathB_single G r, by simp, by simp⟩
  · intro L hL v hv
    have hv' : v = r := by
      rcases hv with h | h
      · simpa using h
      · cases h
    rw [hv']
    refine ⟨[r], hcomp0, ?_, Or.inr rfl⟩
    rw [hD L hL, alookup_initDepths_root]
    simp
  · intro u hu
    cases hu

theorem sinv_final_unreach {dlim : Option Int} {goal : Vert} {G : Graph}
    {r : Vert} {s' : SState}
    (HC : ∀ u adj, alookup G u = some adj → ∀ v ∈ adj, v ∈ gkeys G)
    (hr : r ∈ gkeys G)
    (hI : SInv dlim goal G r s') (hempty : s'.stack = [])
    (hbig : dlim = Option.none ∨
      ∃ L, dlim = some L ∧ ((gkeys G).length : Int) ≤ L) :
    ¬ Reaches G r goal := by
  intro hre
  have hclosed : ∀ u ∈ s'.visited, ∀ adj, alookup G u = some adj →
      ∀ v ∈ adj, v ∈ s'.visited := by
    intro u hu adj hadj v hv
    have hnp : NotPruned dlim s'.depths u := by
      rcases hbig with h | ⟨L, hL, hbigL⟩
      · intro L' hL'
        rw [h] at hL'
        cases hL'
      · intro L' hL'
        have hLL : L' = L := by
          rw [hL] at hL'
          exact (Option.some.injEq _ _ ▸ hL').symm
        subst hLL
        obtain ⟨p, hp, hd, _⟩ := hI.depthsOK L' hL u (Or.inr hu)
        obtain ⟨p2, hp2, hvp2, hnd2, _⟩ := hI.comp u (Or.inr hu)
        have hpp : p2 = p := by
          rw [hp] at hp2
          exact (SearchRes.path.injEq _ _ ▸ hp2).symm
        subst hpp
        refine ⟨(p2.length : Int) - 1, hd, ?_⟩
        have hsub := validPathB_mem_keys HC hr hvp2
        have hlen := nodup_subset_length hnd2 hsub
        have hpos : 1 ≤ p2.length := by
          obtain ⟨hh, _, _⟩ := validPathB_iff.mp hvp2
          cases p2 with
          | nil => cases hh
          | cons a q => simp
        omega
    rcases hI.closure u hu hnp adj hadj v hv with h | h
    · exact h
    · rw [hempty] at h
      cases h
  have hrv : r ∈ s'.visited := by
    rcases hI.rootIn with h | h
    · rw [hempty] at h
      cases h
    · exact h
  exact hI.goalV (reaches_subset hclosed hrv hre)

/-- The full characterization of a terminating DFS/BFS/DLS run from the
initial state on a well-formed graph. -/
theorem searchLoop_result {lifo : Bool} {dlim : Option Int} {goal : Vert}
    {G : Graph} {r : Vert} {D : List (Vert × Int)}
    (HC : ∀ u adj, alookup G u = some adj → ∀ v ∈ adj, v ∈ gkeys G)
    (HT : ∀ v ∈ gkeys G, v.truthy = true) (hr : r ∈ gkeys G)
    (hD : ∀ L, dlim = some L → D = initDepths G r) (f : Nat)
    (hne : searchLoop lifo dlim goal G f ⟨[r], [], initPaths G, D⟩ ≠ .outOfFuel) :
    (searchLoop lifo dlim goal G f ⟨[r], [], initPaths G, D⟩ = .noPath ∧
      ((dlim = Option.none ∨
        ∃ L, dlim = some L ∧ ((gkeys G).length : Int) ≤ L) →
        ¬ Reaches G r goal)) ∨
    (∃ p, searchLoop lifo dlim goal G f ⟨[r], [], initPaths G, D⟩ = .path p ∧
      validPathB G r goal p = true ∧ p.Nodup ∧
      (∀ L, dlim = some L → (p.length : Int) - 1 ≤ L ∨ goal = r)) := by
  obtain ⟨s', hI', hP⟩ := iterStep_inv (searchStep lifo dlim goal G)
    (SInv dlim goal G r)
    (fun s' res => (res = .noPath ∧ s'.stack = []) ∨
      (∃ p, res = .path p ∧ validPathB G r goal p = true ∧ p.Nodup ∧
        (∀ L, dlim = some L → (p.length : Int) - 1 ≤ L ∨ goal = r)))
    (fun s s' hs hstep => (searchStep_next HC HT hr hs hstep).1)
    (fun s res hs hstep => searchStep_done hs hstep)
    f ⟨[r], [], initPaths G, D⟩ (sinv_init hr hD) hne
  rcases hP with ⟨h1, h2⟩ | ⟨p, h1, h2, h3, h4⟩
  · exact Or.inl ⟨h1, fun hbig => sinv_final_unreach HC hr hI' h2 hbig⟩
  · exact Or.inr ⟨p, h1, h2, h3, h4⟩

/-- `perform_dfs` on a well-formed graph: a valid root-to-goal path when
the goal is reachable, the empty set otherwise. -/
theorem dfs_spec {G : Graph} {r g : Vert}
    (HC : ∀ u adj, alookup G u = some adj → ∀ v ∈ adj, v ∈ gkeys G)
    (HT : ∀ v ∈ gkeys G, v.truthy = true) (hr : r ∈ gkeys G) :
    (Reaches G r g →
      ∃ p, Returns (perform_dfs r g G) (.path p) ∧ validPathB G r g p = true) ∧
    (¬ Reaches G r g → Returns (perform_dfs r g G) .noPath) := by
  set st0 : SState := ⟨[r], [], initPaths G, []⟩ with hst0
  set f := smeasure G st0 + 1 with hf
  have hne : perform_dfs r g G f ≠ .outOfFuel := searchLoop_terminates _ _ _ _ _
  have hres := @searchLoop_result true Option.none g G r [] HC HT hr
    (fun L hL => by cases hL) f hne
  constructor
  · intro hre
    rcases hres with ⟨h1, h2⟩ | ⟨p, h1, h2, _, _⟩
    · exact absurd hre (h2 (Or.inl rfl))
    · exact ⟨p, ⟨by simp, f, h1⟩, h2⟩
  · intro hun
    rcases hres with ⟨h1, _⟩ | ⟨p, h1, h2, _, _⟩
    · exact ⟨by simp, f, h1⟩
    · exact absurd ⟨p, h2⟩ hun

/-- `perform_bfs` on a well-formed graph: a valid root-to-goal path when
the goal is reachable, the empty set otherwise. -/
theorem bfs_spec {G : Graph} {r g : Vert}
    (HC : ∀ u adj, alookup G u = some adj → ∀ v ∈ adj, v ∈ gkeys G)
    (HT : ∀ v ∈ gkeys G, v.truthy = true) (hr : r ∈ gkeys G) :
    (Reaches G r g →
      ∃ p, Returns (perform_bfs r g G) (.path p) ∧ validPathB G r g p = true) ∧
    (¬ Reaches G r g → Returns (perform_bfs r g G) .noPath) := by
  set st0 : SState := ⟨[r], [], initPaths G, []⟩ with hst0
  set f := smeasure G st0 + 1 with hf
  have hne : perform_bfs r g G f ≠ .outOfFuel := searchLoop_terminates _ _ _ _ _
  have hres := @searchLoop_result false Option.none g G r [] HC HT hr
    (fun L hL => by cases hL) f hne
  constructor
  · intro hre
    rcases hres with ⟨h1, h2⟩ | ⟨p, h1, h2, _, _⟩
    · exact absurd hre (h2 (Or.inl rfl))
    · exact ⟨p, ⟨by simp, f, h1⟩, h2⟩
  · intro hun
    rcases hres with ⟨h1, _⟩ | ⟨p, h1, h2, _, _⟩
    · exact ⟨by simp, f, h1⟩
    · exact absurd ⟨p, h2⟩ hun

/-- `perform_dls` on a well-formed graph: the empty set whenever the goal
is unreachable (any depth limit), and a valid root-to-goal path of tree
depth at most the limit whenever the goal is reachable and the limit is at
least the number of keys. -/
theorem dls_spec {G : Graph} {r g : Vert} (L : Int)
    (HC : ∀ u adj, alookup G u = some adj → ∀ v ∈ adj, v ∈ gkeys G)
    (HT : ∀ v ∈ gkeys G, v.truthy = true) (hr : r ∈ gkeys G) :
    (Reaches G r g → ((gkeys G).length : Int) ≤ L →
      ∃ p, Returns (perform_dls r g G L) (.path p) ∧
        validPathB G r g p = true ∧ ((p.length : Int) - 1 ≤ L ∨ g = r)) ∧
    (¬ Reaches G r g → Returns (perform_dls r g G L) .noPath) ∧
    (∀ res, Returns (perform_dls r g G L) res →
      res = .noPath ∨ ∃ p, res = .path p ∧ validPathB G r g p = true ∧
        ((p.length : Int) - 1 ≤ L ∨ g = r)) := by
  set st0 : SState := ⟨[r], [], initPaths G, initDepths G r⟩ with hst0
  set f := smeasure G st0 + 1 with hf
  have hne : perform_dls r g G L f ≠ .outOfFuel := searchLoop_terminates _ _ _ _ _
  have hres := @searchLoop_result true (some L) g G r (initDepths G r) HC HT hr
    (fun L' hL' => rfl) f hne
  refine ⟨?_, ?_, ?_⟩
  · intro hre hbig
    rcases hres with ⟨h1, h2⟩ | ⟨p, h1, h2, _, h4⟩
    · exact absurd hre (h2 (Or.inr ⟨L, rfl, hbig⟩))
    · exact ⟨p, ⟨by simp, f, h1⟩, h2, h4 L rfl⟩
  · intro hun
    rcases hres with ⟨h1, _⟩ | ⟨p, h1, h2, _, _⟩
    · exact ⟨by simp, f, h1⟩
    · exact absurd ⟨p, h2⟩ hun
  · intro res hret
    have hret0 : Returns (perform_dls r g G L) (searchLoop true (some L) g G f st0) := by
      rcases hres with ⟨h1, _⟩ | ⟨p, h1, _, _, _⟩
      · exact ⟨by rw [h1]; simp, f, rfl⟩
      · exact ⟨by rw [h1]; simp, f, rfl⟩
    have hrun : ∀ f', perform_dls r g G L f' =
        iterStep (searchStep true (some L) g G) f' st0 := fun f' => rfl
    have := Returns_eq hrun hret hret0
    rcases hres with ⟨h1, _⟩ | ⟨p, h1, h2, _, h4⟩
    · rw [this, h1]
      exact Or.inl rfl
    · rw [this, h1]
      exact Or.inr ⟨p, rfl, h2, h4 L rfl⟩

theorem idsAux_spec {G : Graph} {root goal : Vert} (f : Nat)
    (hgood : ∀ L : Int, perform_dls root goal G L f = .noPath ∨
      ∃ p, perform_dls root goal G L f = .path p ∧
        validPathB G root goal p = true) :
    ∀ (k : Nat) (L : Int),
      (idsAux root goal G f k L = .noneRes ∧
        ∀ j : Nat, j < k → perform_dls root goal G (L + j) f = .noPath) ∨
      (∃ p, idsAux root goal G f k L = .path p ∧
        validPathB G root goal p = true) := by
  intro k
  induction k with
  | zero =>
    intro L
    exact Or.inl ⟨rfl, fun j hj => absurd hj (by omega)⟩
  | succ n ih =>
    intro L
    rcases hgood L with h | ⟨p, hp, hv⟩
    · rcases ih (L + 1) with ⟨h1, h2⟩ | ⟨p, h1, h2⟩
      · refine Or.inl ⟨by simp [idsAux, h, h1], ?_⟩
        intro j hj
        cases j with
        | zero => simpa using h
        | succ m =>
          have h3 := h2 m (by omega)
          have he : L + ((m + 1 : Nat) : Int) = L + 1 + (m : Int) := by
            push_cast
            ring
          rw [he]
          exact h3
      · exact Or.inr ⟨p, by simp [idsAux, h, h1], h2⟩
    · have hpne : p ≠ [] := by
        obtain ⟨hh, _, _⟩ := validPathB_iff.mp hv
        cases p with
        | nil => cases hh
        | cons a q => simp
      exact Or.inr ⟨p, by simp [idsAux, hp, hpne], hv⟩

/-- `perform_ids` on a well-formed graph: `None` whenever the goal is
unreachable, and a valid root-to-goal path whenever the goal is reachable
and `max_depth` is at least the number of keys. -/
theorem ids_spec {G : Graph} {r g : Vert} (D : Int)
    (HC : ∀ u adj, alookup G u = some adj → ∀ v ∈ adj, v ∈ gkeys G)
    (HT : ∀ v ∈ gkeys G, v.truthy = true) (hr : r ∈ gkeys G) :
    (¬ Reaches G r g → Returns (perform_ids r g G D) .noneRes) ∧
    (Reaches G r g → ((gkeys G).length : Int) ≤ D →
      ∃ p, Returns (perform_ids r g G D) (.path p) ∧
        validPathB G r g p = true) := by
  set st0 : SState := ⟨[r], [], initPaths G, initDepths G r⟩ with hst0
  set f := smeasure G st0 + 1 with hf
  have hne : ∀ L : Int, perform_dls r g G L f ≠ .outOfFuel := fun L =>
    searchLoop_terminates _ _ _ _ _
  have hres : ∀ L : Int,
      (perform_dls r g G L f = .noPath ∧
        (((gkeys G).length : Int) ≤ L → ¬ Reaches G r g)) ∨
      (∃ p, perform_dls r g G L f = .path p ∧
        validPathB G r g p = true) := by
    intro L
    rcases @searchLoop_result true (some L) g G r (initDepths G r) HC HT hr
      (fun L' hL' => rfl) f (hne L) with ⟨h1, h2⟩ | ⟨p, h1, h2, _, _⟩
    · exact Or.inl ⟨h1, fun hL => h2 (Or.inr ⟨L, rfl, hL⟩)⟩
    · exact Or.inr ⟨p, h1, h2⟩
  have hgood : ∀ L : Int, perform_dls r g G L f = .noPath ∨
      ∃ p, perform_dls r g G L f = .path p ∧ validPathB G r g p = true := by
    intro L
    rcases hres L with ⟨h1, _⟩ | h
    · exact Or.inl h1
    · exact Or.inr h
  constructor
  · intro hun
    rcases idsAux_spec f hgood D.toNat 1 with ⟨h1, _⟩ | ⟨p, _, h2⟩
    · exact ⟨by simp, f, h1⟩
    · exact absurd ⟨p, h2⟩ hun
  · intro hre hD
    have hk1 : 1 ≤ (gkeys G).length := List.length_pos.mpr
      (List.ne_nil_of_mem hr)
    rcases idsAux_spec f hgood D.toNat 1 with ⟨h1, h2⟩ | ⟨p, h1, h2⟩
    · exfalso
      have hj : (gkeys G).length - 1 < D.toNat := by omega
      have h3 := h2 ((gkeys G).length - 1) hj
      have he : (1 : Int) + (((gkeys G).length - 1 : Nat) : Int) =
          ((gkeys G).length : Int) := by
        push_cast [hk1]
        omega
      rw [he] at h3
      rcases hres ((gkeys G).length : Int) with ⟨_, hun⟩ | ⟨p, hp, hv⟩
      · exact hun (by omega) hre
      · rw [h3] at hp
        cases hp
    · exact ⟨p, ⟨by simp, f, h1⟩, h2⟩

theorem composeAux_len (paths : PathMapV) :
    ∀ (fuel : Nat) (v : Vert) (acc p : List Vert),
      composeAux paths fuel v acc = .path p → p.length ≤ fuel + acc.length := by
  intro fuel
  induction fuel with
  | zero => intro v acc p h; cases h
  | succ n ih =>
    intro v acc p h
    cases hl : alookup paths v with
    | none => simp only [composeAux, hl] at h; cases h
    | some pv =>
      cases pv with
      | none =>
        simp only [composeAux, hl] at h
        cases h
        omega
      | some w =>
        by_cases hw : w.truthy = true
        · simp only [composeAux, hl, if_pos hw] at h
          have := ih w (w :: acc) p h
          simp only [List.length_cons] at this
          omega
        · simp only [composeAux, hl, if_neg hw] at h
          cases h
          omega

theorem compose_path_last {paths : PathMapV} {v : Vert} {p : List Vert}
    (h : compose_path v paths = .path p) : p.getLast? = some v := by
  obtain ⟨pre, hpre, _⟩ := composeAux_acc paths (paths.length + 1) v [v] p h
  rw [hpre]
  exact List.getLast?_concat _

theorem compose_path_inversion {paths : PathMapV} {v : Vert} {p : List Vert}
    (h : compose_path v paths = .path p) :
    p = [v] ∨
    ∃ u q, alookup paths v = some (some u) ∧ u.truthy = true ∧
      compose_path u paths = .path q ∧ p = q ++ [v] := by
  unfold compose_path at h
  cases hl : alookup paths v with
  | none => simp only [composeAux, hl] at h; cases h
  | some pv =>
    cases pv with
    | none =>
      simp only [composeAux, hl] at h
      cases h
      exact Or.inl rfl
    | some w =>
      by_cases hw : w.truthy = true
      · simp only [composeAux, hl, if_pos hw] at h
        have hlen := composeAux_len paths paths.length w [w, v] p h
        obtain ⟨preq, hpq, hall⟩ :=
          composeAux_acc paths paths.length w [w, v] p h
        have h1 : composeAux paths paths.length w [w] = .path (preq ++ [w]) :=
          hall [w]
        have h2 : compose_path w paths = .path (preq ++ [w]) := by
          refine composeAux_min_fuel paths paths.length w [w] _ h1
            (paths.length + 1) ?_
          simp only [List.length_append, List.length_cons, List.length_nil]
          simp only [hpq, List.length_append, List.length_cons,
            List.length_nil] at hlen
          omega
        refine Or.inr ⟨w, preq ++ [w], rfl, hw, h2, by rw [hpq]; simp⟩
      · simp only [composeAux, hl, if_neg hw] at h
        cases h
        exact Or.inl rfl

/-- The walk of `_compose_path` is deterministic: the portion of a composed
path up to any of its members is itself the composed path of that member. -/
theorem compose_path_split {paths : PathMapV} :
    ∀ (n : Nat) (p : List Vert) (v : Vert), p.length ≤ n →
      compose_path v paths = .path p →
      ∀ pre x suf, p = pre ++ x :: suf →
        compose_path x paths = .path (pre ++ [x]) := by
  intro n
  induction n with
  | zero =>
    intro p v hl h pre x suf hp
    subst hp
    simp at hl
  | succ m ih =>
    intro p v hl h pre x suf hp
    rcases suf.eq_nil_or_concat with rfl | ⟨suf', y, hsy⟩
    · have hlast := compose_path_last h
      rw [hp] at hlast
      have hx : x = v := by
        have : (pre ++ [x]).getLast? = some v := hlast
        rw [List.getLast?_concat] at this
        simpa using this
      subst hx
      rw [← hp]
      exact h
    · subst hsy
      rcases compose_path_inversion h with heq | ⟨u, q, hlu, hu, hq, hpq⟩
      · rw [heq] at hp
        have := congrArg List.length hp
        simp [List.concat_eq_append] at this
        exact absurd this (by omega)
      · have hglue : (pre ++ x :: suf') ++ [y] = q ++ [v] := by
          rw [← hpq, hp]
          simp [List.concat_eq_append]
        have h2 := List.append_inj' hglue (by simp)
        have hqq : pre ++ x :: suf' = q := h2.1
        have hlq : q.length ≤ m := by
          have hlp := congrArg List.length hpq
          simp only [List.length_append, List.length_cons,
            List.length_nil] at hlp
          omega
        exact ih q u hlq hq pre x suf' hqq.symm

/-- Along a composed path, recorded costs are monotone under the
parent-cost-chain invariant: every member's cost is at most the final
vertex's cost. -/
theorem chain_cost_le {paths : PathMapV} {costs : List (Vert × EC)}
    (hcc : ∀ v u, alookup paths v = some (some u) →
      ∃ cu cv, alookup costs u = some (EC.fin cu) ∧
        alookup costs v = some (EC.fin cv) ∧ cu ≤ cv) :
    ∀ (n : Nat) (p : List Vert) (v : Vert), p.length ≤ n →
      compose_path v paths = .path p → ∀ x ∈ p, x = v ∨
        ∃ cx cv, alookup costs x = some (EC.fin cx) ∧
          alookup costs v = some (EC.fin cv) ∧ cx ≤ cv := by
  intro n
  induction n with
  | zero =>
    intro p v hl h x hx
    have := List.length_pos.mpr (List.ne_nil_of_mem hx)
    omega
  | succ m ih =>
    intro p v hl h x hx
    rcases compose_path_inversion h with rfl | ⟨u, q, hlu, hu, hq, rfl⟩
    · exact Or.inl (by simpa using hx)
    · rcases List.mem_append.mp hx with hxq | hxv
      · have hlq : q.length ≤ m := by
          simp only [List.length_append, List.length_cons] at hl
          omega
        rcases ih q u hlq hq x hxq with rfl | ⟨cx, cu, h1, h2, h3⟩
        · obtain ⟨cu, cv, hcu, hcv, hle⟩ := hcc v x hlu
          exact Or.inr ⟨cu, cv, hcu, hcv, hle⟩
        · obtain ⟨cu', cv, hcu', hcv, hle'⟩ := hcc v u hlu
          have : cu = cu' := by
            rw [h2] at hcu'
            cases hcu'
            rfl
          exact Or.inr ⟨cx, cv, h1, hcv, by omega⟩
      · exact Or.inl (by simpa using hxv)

/-- Rebuilding a composed path after one parent pointer on it is redirected:
the new path is the redirected member's new composed path followed by the
unchanged tail. -/
theorem compose_splice {paths paths' : PathMapV}
    (hlen : paths'.length = paths.length) :
    ∀ (n : Nat) (suf : List Vert), suf.length ≤ n →
      ∀ (v x : Vert) (pre q : List Vert),
      compose_path v paths = .path (pre ++ x :: suf) →
      (∀ y ∈ suf, alookup paths' y = alookup paths y) →
      compose_path x paths' = .path q →
      q.length + suf.length ≤ paths.length + 1 →
      compose_path v paths' = .path (q ++ suf) := by
  intro n
  induction n with
  | zero =>
    intro suf hsl v x pre q h hagree hx hfuel
    have hnil : suf = [] := List.length_eq_zero.mp (by omega)
    subst hnil
    have hlast := compose_path_last h
    have hxv : x = v := by
      have : (pre ++ [x]).getLast? = some v := hlast
      rw [List.getLast?_concat] at this
      simpa using this
    subst hxv
    simpa using hx
  | succ m ih =>
    intro suf hsl v x pre q h hagree hx hfuel
    rcases suf.eq_nil_or_concat with rfl | ⟨suf', y, hsy⟩
    · have hlast := compose_path_last h
      have hxv : x = v := by
        have : (pre ++ [x]).getLast? = some v := hlast
        rw [List.getLast?_concat] at this
        simpa using this
      subst hxv
      simpa using hx
    · subst hsy
      have hlast := compose_path_last h
      have hyv : y = v := by
        have h1 : ((pre ++ x :: suf') ++ [y]).getLast? = some v := by
          rw [show (pre ++ x :: suf') ++ [y] = pre ++ x :: suf'.concat y by
            simp [List.concat_eq_append]]
          exact hlast
        rw [List.getLast?_concat] at h1
        simpa using h1
      subst hyv
      rcases compose_path_inversion h with heq | ⟨u, qq, hlu, hu, hq, hpq⟩
      · have := congrArg List.length heq
        simp [List.concat_eq_append] at this
        exact absurd this (by omega)
      · have hglue : (pre ++ x :: suf') ++ [y] = qq ++ [y] := by
          rw [← hpq]
          simp [List.concat_eq_append]
        have hqq : pre ++ x :: suf' = qq := (List.append_inj' hglue (by simp)).1
        have hrec : compose_path u paths' = .path (q ++ suf') := by
          refine ih suf' ?_ u x pre q (hqq ▸ hq)
            (fun z hz => hagree z (by simp [List.concat_eq_append, hz])) hx ?_
          · simp only [List.concat_eq_append, List.length_append,
              List.length_cons, List.length_nil] at hsl
            omega
          · simp only [List.concat_eq_append, List.length_append,
              List.length_cons, List.length_nil] at hfuel ⊢
            omega
        have hv' : alookup paths' y = some (some u) := by
          rw [hagree y (by simp [List.concat_eq_append]), hlu]
        have hpush := compose_path_push hv' hu hrec (by
          rw [hlen]
          simp only [List.concat_eq_append, List.length_append,
            List.length_cons, List.length_nil] at hfuel ⊢
          omega)
        rw [hpush]
        simp [List.concat_eq_append]

theorem chainB_mid {G : Graph} : ∀ (xs : List Vert) (x : Vert) (ys : List Vert),
    chainB G (xs ++ x :: ys) = true → chainB G (x :: ys) = true := by
  intro xs
  induction xs with
  | nil => intro x ys h; simpa using h
  | cons a rest ih =>
    intro x ys h
    cases rest with
    | nil =>
      have h' : chainB G (a :: x :: ys) = true := by simpa using h
      exact (chainB_cons_iff.mp h').2
    | cons b rest' =>
      have h' : chainB G (a :: b :: (rest' ++ x :: ys)) = true := by simpa using h
      exact ih x ys (by simpa using (chainB_cons_iff.mp h').2)

theorem chainB_glue {G : Graph} : ∀ (p : List Vert) (x : Vert) (ys : List Vert),
    chainB G (p ++ [x]) = true → chainB G (x :: ys) = true →
    chainB G (p ++ x :: ys) = true := by
  intro p
  induction p with
  | nil => intro x ys _ h2; simpa using h2
  | cons a rest ih =>
    intro x ys h1 h2
    cases rest with
    | nil =>
      have h1' : chainB G (a :: x :: []) = true := by simpa using h1
      have he := (chainB_cons_iff.mp h1').1
      show chainB G (a :: x :: ys) = true
      exact chainB_cons_iff.mpr ⟨he, h2⟩
    | cons b rest' =>
      have h1' : chainB G (a :: b :: (rest' ++ [x])) = true := by simpa using h1
      obtain ⟨he, hc⟩ := chainB_cons_iff.mp h1'
      have := ih x ys (by simpa using hc) h2
      show chainB G (a :: b :: (rest' ++ x :: ys)) = true
      exact chainB_cons_iff.mpr ⟨he, by simpa using this⟩

theorem removeFirst_subset :
    ∀ (l : List (EC × Vert)) (m e : EC × Vert),
      e ∈ removeFirst l m → e ∈ l := by
  intro l
  induction l with
  | nil => intro m e h; cases h
  | cons a rest ih =>
    intro m e h
    by_cases ha : a = m
    · simp only [removeFirst, if_pos ha] at h
      exact List.mem_cons_of_mem _ h
    · simp only [removeFirst, if_neg ha] at h
      rcases List.mem_cons.mp h with h | h
      · exact h ▸ List.mem_cons_self _ _
      · exact List.mem_cons_of_mem _ (ih m e h)

theorem mem_removeFirst_or :
    ∀ (l : List (EC × Vert)) (m e : EC × Vert),
      e ∈ l → e ∈ removeFirst l m ∨ e = m := by
  intro l
  induction l with
  | nil => intro m e h; cases h
  | cons a rest ih =>
    intro m e h
    by_cases ha : a = m
    · simp only [removeFirst, if_pos ha]
      rcases List.mem_cons.mp h with h | h
      · exact Or.inr (h.trans ha)
      · exact Or.inl h
    · simp only [removeFirst, if_neg ha]
      rcases List.mem_cons.mp h with h | h
      · exact Or.inl (h ▸ List.mem_cons_self _ _)
      · rcases ih m e h with h' | h'
        · exact Or.inl (List.mem_cons_of_mem _ h')
        · exact Or.inr h'

theorem countP_removeFirst (p : EC × Vert → Bool) :
    ∀ (l : List (EC × Vert)) (m : EC × Vert), m ∈ l →
      (removeFirst l m).countP p + (if p m then 1 else 0) = l.countP p := by
  intro l
  induction l with
  | nil => intro m h; cases h
  | cons a rest ih =>
    intro m h
    by_cases ha : a = m
    · subst ha
      simp only [removeFirst, eq_self_iff_true, if_true, List.countP_cons]
    · have hm : m ∈ rest := by
        rcases List.mem_cons.mp h with h | h
        · exact absurd h.symm ha
        · exact h
      simp only [removeFirst, if_neg ha, List.countP_cons]
      have := ih m hm
      omega

theorem minEntry_mem :
    ∀ (es : List (EC × Vert)) (m : EC × Vert), minEntry m es ∈ m :: es := by
  intro es
  induction es with
  | nil => intro m; simp [minEntry]
  | cons e rest ih =>
    intro m
    simp only [minEntry]
    by_cases he : entryLt e m = true
    · rw [if_pos he]
      have := ih e
      rcases List.mem_cons.mp this with h | h
      · simp [h]
      · simp [List.mem_cons_of_mem, h]
    · rw [if_neg he]
      have := ih m
      rcases List.mem_cons.mp this with h | h
      · simp [h]
      · simp [List.mem_cons_of_mem, h]

theorem popMin_some {l : List (EC × Vert)} {m : EC × Vert}
    {rest : List (EC × Vert)} (h : popMin l = some (m, rest)) :
    m ∈ l ∧ rest = removeFirst l m := by
  cases l with
  | nil => cases h
  | cons e es =>
    simp only [popMin] at h
    obtain ⟨h1, h2⟩ := Prod.mk.injEq .. ▸ Option.some.injEq _ _ ▸ h
    exact ⟨h1 ▸ minEntry_mem es e, by rw [← h1, ← h2]⟩

theorem popMin_none {l : List (EC × Vert)} (h : popMin l = Option.none) :
    l = [] := by
  cases l with
  | nil => rfl
  | cons e es => simp [popMin] at h

theorem sumCostVisited_congr {c c' : List (Vert × EC)} :
    ∀ (vis : List Vert), (∀ x ∈ vis, alookup c' x = alookup c x) →
      sumCostVisited c' vis = sumCostVisited c vis := by
  intro vis
  induction vis with
  | nil => intro _; rfl
  | cons x rest ih =>
    intro h
    simp only [sumCostVisited, h x (by simp)]
    rw [ih fun y hy => h y (by simp [hy])]

theorem sumCostVisited_le {c c' : List (Vert × EC)} :
    ∀ (vis : List Vert),
      (∀ x ∈ vis, costValN (alookup c' x) ≤ costValN (alookup c x)) →
      sumCostVisited c' vis ≤ sumCostVisited c vis := by
  intro vis
  induction vis with
  | nil => intro _; exact le_refl _
  | cons x rest ih =>
    intro h
    simp only [sumCostVisited]
    have h1 := h x (by simp)
    have h2 := ih fun y hy => h y (by simp [hy])
    omega

theorem sumCostVisited_lt {c c' : List (Vert × EC)} :
    ∀ (vis : List Vert) (x0 : Vert), x0 ∈ vis →
      (∀ x ∈ vis, costValN (alookup c' x) ≤ costValN (alookup c x)) →
      costValN (alookup c' x0) < costValN (alookup c x0) →
      sumCostVisited c' vis < sumCostVisited c vis := by
  intro vis
  induction vis with
  | nil => intro x0 h; cases h
  | cons x rest ih =>
    intro x0 hx0 hle hlt
    simp only [sumCostVisited]
    rcases List.mem_cons.mp hx0 with h | h
    · have h2 := sumCostVisited_le rest fun y hy => hle y (by simp [hy])
      subst h
      omega
    · have h1 := hle x (by simp)
      have h2 := ih x0 h (fun y hy => hle y (by simp [hy])) hlt
      omega

theorem head_append_of_some {p q : List Vert} {r : Vert} (h : p.head? = some r) :
    (p ++ q).head? = some r := by
  cases p with
  | nil => cases h
  | cons a t => simpa using h

/-- If a composed path avoids `nb` and another composed path passes through
`nb`, the part of the second path after `nb` is disjoint from the first
path (both walks reaching a common vertex would have to agree below it). -/
theorem splice_disjoint {paths : PathMapV} {z v nb : Vert}
    {pz pre suf : List Vert}
    (hz : compose_path z paths = .path pz) (hnb : nb ∉ pz)
    (hv : compose_path v paths = .path (pre ++ nb :: suf)) :
    ∀ x ∈ suf, x ∉ pz := by
  intro x hws hwz
  obtain ⟨pre1, suf1, h1⟩ := List.append_of_mem hwz
  have hzw := compose_path_split pz.length pz z le_rfl hz pre1 x suf1 h1
  obtain ⟨s1, s2, h2⟩ := List.append_of_mem hws
  have hsplit2 : pre ++ nb :: suf = (pre ++ nb :: s1) ++ x :: s2 := by
    rw [h2]
    simp
  have hvw := compose_path_split (pre ++ nb :: suf).length _ v le_rfl hv
    (pre ++ nb :: s1) x s2 hsplit2
  rw [hzw] at hvw
  have heq : pre1 ++ [x] = (pre ++ nb :: s1) ++ [x] := by
    injection hvw
  have hnb1 : nb ∈ pre1 ++ [x] := by
    rw [heq]
    simp
  apply hnb
  rw [h1]
  rcases List.mem_append.mp hnb1 with h | h
  · exact List.mem_append.mpr (Or.inl h)
  · have : nb = x := by simpa using h
    rw [this]
    simp

/-- One push of the `perform_ucs` neighbor loop preserves the core
invariant: the update `paths[nb] = cur; costs[nb] = cost;
heappush(frontier, (cost, nb))`, taken when `nb` is unvisited or the new
cost strictly beats the recorded one.  Also returns the facts about the
termination measure that the scan lemma threads through. -/
theorem ucore_push {goal : Vert} {G : Graph} {r : Vert}
    (HC : ∀ u adj, alookup G u = some adj → ∀ v ∈ adj, v ∈ gkeys G)
    (HT : ∀ v ∈ gkeys G, v.truthy = true)
    {cur : Vert} {visited : List Vert} {paths : PathMapV}
    {costs : List (Vert × EC)} {frontier : List (EC × Vert)}
    (hcore : UCore goal G r ⟨frontier, visited, paths, costs⟩)
    (hcur : cur ∈ visited) (hroot : r ∈ visited)
    {nb : Vert} (hedge : edgeB G cur nb = true)
    {c w : Int} (hcc : alookup costs cur = some (EC.fin c)) (hw : 0 ≤ w)
    (hpush : nb ∈ visited → ∃ k, alookup costs nb = some (EC.fin k) ∧
      c + w < k) :
    UCore goal G r ⟨frontier ++ [(EC.fin (c + w), nb)], visited,
      aset paths nb (some cur), aset costs nb (EC.fin (c + w))⟩ ∧
    (∀ x ∈ visited, costValN (alookup (aset costs nb (EC.fin (c + w))) x) ≤
      costValN (alookup costs x)) ∧
    (nb ∈ visited → sumCostVisited (aset costs nb (EC.fin (c + w))) visited <
      sumCostVisited costs visited) ∧
    (nb ∉ visited → ∀ x ∈ visited,
      alookup (aset costs nb (EC.fin (c + w))) x = alookup costs x) := by
  have hnbK : nb ∈ gkeys G := by
    unfold edgeB at hedge
    cases hadj : alookup G cur with
    | none => rw [hadj] at hedge; cases hedge
    | some adj =>
      rw [hadj] at hedge
      exact HC cur adj hadj nb (by simpa using hedge)
  have hc0 : (0 : Int) ≤ c := hcore.costsNonneg cur c hcc
  have hnr : nb ≠ r := by
    intro hne
    by_cases hv : nb ∈ visited
    · obtain ⟨k, hk, hlt⟩ := hpush hv
      rw [hne, hcore.rootCost] at hk
      cases hk
      omega
    · exact hv (hne ▸ hroot)
  have hnc : nb ≠ cur := by
    intro hne
    by_cases hv : nb ∈ visited
    · obtain ⟨k, hk, hlt⟩ := hpush hv
      rw [hne, hcc] at hk
      cases hk
      omega
    · exact hv (hne ▸ hcur)
  obtain ⟨pcur, hcomp, hvalid, hnd, hel⟩ := hcore.comp cur (Or.inr hcur)
  have hnbp : nb ∉ pcur := by
    intro hmem
    rcases hel nb hmem with hv | hv
    · obtain ⟨k, hk, hlt⟩ := hpush hv
      rcases chain_cost_le hcore.costsChain pcur.length pcur cur le_rfl hcomp
        nb hmem with he | ⟨cx, cc', h1, h2, h3⟩
      · exact hnc he
      · rw [hk] at h1
        cases h1
        rw [hcc] at h2
        cases h2
        omega
    · exact hnc hv
  have hmemp : nb ∈ paths.map Prod.fst := by rw [hcore.pkeys]; exact hnbK
  have hmemc : nb ∈ costs.map Prod.fst := by rw [hcore.ckeys]; exact hnbK
  have hplen : paths.length = (gkeys G).length := by
    have := congrArg List.length hcore.pkeys
    simpa using this
  have hplen' : (aset paths nb (some cur)).length = paths.length := by
    have := congrArg List.length (aset_map_fst paths nb (some cur) hmemp)
    simpa using this
  have hkeysub : ∀ x ∈ pcur, x ∈ gkeys G := by
    intro x hx
    rcases hel x hx with hv | hv
    · exact hcore.visK x hv
    · exact hv ▸ hcore.visK cur hcur
  have hpclen : pcur.length ≤ (gkeys G).length :=
    nodup_subset_length hnd hkeysub
  have hcomp' : compose_path cur (aset paths nb (some cur)) = .path pcur := by
    refine compose_path_congr (by rw [hplen']) ?_ hcomp
    intro x hx
    exact alookup_aset_ne paths nb x _ fun he => hnbp (he ▸ hx)
  have hcurK : cur ∈ gkeys G := hcore.visK cur hcur
  have hcompnb : compose_path nb (aset paths nb (some cur)) =
      .path (pcur ++ [nb]) := by
    refine compose_path_push (alookup_aset_self paths nb _) (HT cur hcurK)
      hcomp' ?_
    rw [hplen', hplen]
    exact hpclen
  have hlastc : pcur.getLast? = some cur := (validPathB_iff.mp hvalid).2.1
  have hheadc : pcur.head? = some r := (validPathB_iff.mp hvalid).1
  have hchainc : chainB G pcur = true := (validPathB_iff.mp hvalid).2.2
  have hvalidnb : validPathB G r nb (pcur ++ [nb]) = true := by
    refine validPathB_iff.mpr ⟨head_append_of_some hheadc,
      List.getLast?_concat _, ?_⟩
    exact chainB_append_single pcur cur nb hchainc hlastc hedge
  have hndnb : (pcur ++ [nb]).Nodup := by
    simp [List.nodup_append, hnd, hnbp]
  refine ⟨⟨?_, ?_, ?_, hcore.visK, hcore.visNodup, hcore.goalV, ?_, ?_, ?_,
      ?_, ?_, ?_, ?_, ?_⟩, ?_, ?_, ?_⟩
  · rw [aset_map_fst paths nb _ hmemp]
    exact hcore.pkeys
  · rw [aset_map_fst costs nb _ hmemc]
    exact hcore.ckeys
  · intro e he
    rcases List.mem_append.mp he with h | h
    · exact hcore.frontK e h
    · have : e = (EC.fin (c + w), nb) := by simpa using h
      rw [this]
      exact hnbK
  · rcases hcore.rootOk with ⟨h1, h2⟩ | ⟨h1, _⟩
    · refine Or.inl ⟨h1, ?_⟩
      show alookup (aset paths nb (some cur)) r = some Option.none
      rw [alookup_aset_ne paths nb r _ hnr]
      exact h2
    · have h1' : visited = [] := h1
      rw [h1'] at hcur
      cases hcur
  · rw [alookup_aset_ne costs nb r _ hnr]
    exact hcore.rootCost
  · intro e he
    by_cases hen : e.2 = nb
    · exact ⟨c + w, by rw [hen, alookup_aset_self], by omega⟩
    · rcases List.mem_append.mp he with h | h
      · obtain ⟨k, hk, hk0⟩ := hcore.frontCost e h
        refine ⟨k, ?_, hk0⟩
        rw [alookup_aset_ne costs nb e.2 _ fun hne => hen hne.symm]
        exact hk
      · have : e = (EC.fin (c + w), nb) := by simpa using h
        rw [this] at hen
        exact absurd rfl hen
  · intro v u hvu
    by_cases hv : v = nb
    · subst hv
      rw [alookup_aset_self] at hvu
      cases hvu
      exact ⟨hcur, hedge⟩
    · rw [alookup_aset_ne paths nb v _ fun he => hv he.symm] at hvu
      exact hcore.parents v u hvu
  · intro v u hvu
    by_cases hv : v = nb
    · subst hv
      rw [alookup_aset_self] at hvu
      cases hvu
      refine ⟨c, c + w, ?_, by rw [alookup_aset_self], by omega⟩
      rw [alookup_aset_ne costs v cur _ hnc]
      exact hcc
    · rw [alookup_aset_ne paths nb v _ fun he => hv he.symm] at hvu
      obtain ⟨cu, cv, hcu, hcv, hle⟩ := hcore.costsChain v u hvu
      by_cases hu : u = nb
      · have hnbv : nb ∈ visited := hu ▸ (hcore.parents v u hvu).1
        obtain ⟨k, hk, hlt⟩ := hpush hnbv
        rw [hu, hk] at hcu
        cases hcu
        refine ⟨c + w, cv, by rw [hu, alookup_aset_self], ?_, by omega⟩
        rw [alookup_aset_ne costs nb v _ fun he => hv he.symm]
        exact hcv
      · refine ⟨cu, cv, ?_, ?_, hle⟩
        · rw [alookup_aset_ne costs nb u _ fun he => hu he.symm]
          exact hcu
        · rw [alookup_aset_ne costs nb v _ fun he => hv he.symm]
          exact hcv
  · intro v cv hcv
    by_cases hv : v = nb
    · rw [hv, alookup_aset_self] at hcv
      cases hcv
      omega
    · rw [alookup_aset_ne costs nb v _ fun he => hv he.symm] at hcv
      exact hcore.costsNonneg v cv hcv
  · intro v hv
    by_cases hvn : v = nb
    · exact ⟨c + w, by rw [hvn, alookup_aset_self], by omega⟩
    · obtain ⟨k, hk, hk0⟩ := hcore.visCost v hv
      refine ⟨k, ?_, hk0⟩
      rw [alookup_aset_ne costs nb v _ fun he => hvn he.symm]
      exact hk
  · intro v hv
    by_cases hvn : v = nb
    · subst hvn
      refine ⟨pcur ++ [v], hcompnb, hvalidnb, hndnb, ?_⟩
      intro x hx
      rcases List.mem_append.mp hx with h | h
      · rcases hel x h with h' | h'
        · exact Or.inl h'
        · exact Or.inl (h' ▸ hcur)
      · exact Or.inr (by simpa using h)
    · have hvold : (∃ ce, (ce, v) ∈ frontier) ∨ v ∈ visited := by
        rcases hv with ⟨ce, hce⟩ | h
        · rcases List.mem_append.mp hce with h | h
          · exact Or.inl ⟨ce, h⟩
          · have : (ce, v) = (EC.fin (c + w), nb) := by simpa using h
            exact absurd (congrArg Prod.snd this) hvn
        · exact Or.inr h
      obtain ⟨pv, hcompv, hvalidv, hndv, helv⟩ := hcore.comp v hvold
      have hvK : v ∈ gkeys G := by
        rcases hvold with ⟨ce, hce⟩ | h
        · exact hcore.frontK (ce, v) hce
        · exact hcore.visK v h
      by_cases hmem : nb ∈ pv
      · have hnbvis : nb ∈ visited := by
          rcases helv nb hmem with h | h
          · exact h
          · exact absurd h.symm hvn
        obtain ⟨pre, suf, hsplit⟩ := List.append_of_mem hmem
        have hnbsuf : nb ∉ suf := by
          have := hndv
          rw [hsplit] at this
          have h2 := (List.nodup_append.mp this).2.1
          exact (List.nodup_cons.mp h2).1
        have hdisj : ∀ x ∈ suf, x ∉ pcur :=
          splice_disjoint hcomp hnbp (hsplit ▸ hcompv)
        have hsufpv : ∀ x ∈ suf, x ∈ pv := by
          intro x hx
          rw [hsplit]
          simp [hx]
        have hndnew : ((pcur ++ [nb]) ++ suf).Nodup := by
          rw [List.nodup_append]
          refine ⟨hndnb, ?_, ?_⟩
          · have := hndv
            rw [hsplit] at this
            exact ((List.nodup_cons.mp (List.nodup_append.mp this).2.1)).2
          · intro x hx hy
            rcases List.mem_append.mp hx with h | h
            · exact hdisj x hy h
            · have hxe : x = nb := by simpa using h
              exact hnbsuf (hxe ▸ hy)
        have hsubnew : ∀ x ∈ (pcur ++ [nb]) ++ suf, x ∈ gkeys G := by
          intro x hx
          rcases List.mem_append.mp hx with h | h
          · rcases List.mem_append.mp h with h' | h'
            · exact hkeysub x h'
            · exact (by simpa using h' : x = nb) ▸ hnbK
          · rcases helv x (hsufpv x h) with h' | h'
            · exact hcore.visK x h'
            · exact h' ▸ hvK
        have hlennew : ((pcur ++ [nb]) ++ suf).length ≤ (gkeys G).length :=
          nodup_subset_length hndnew hsubnew
        have hnewcomp : compose_path v (aset paths nb (some cur)) =
            .path ((pcur ++ [nb]) ++ suf) := by
          refine compose_splice (by rw [hplen']) suf.length suf le_rfl v nb
            pre (pcur ++ [nb]) (hsplit ▸ hcompv) ?_ hcompnb ?_
          · intro y hy
            exact alookup_aset_ne paths nb y _ fun he => hnbsuf (he ▸ hy)
          · have : (pcur ++ [nb]).length + suf.length =
                ((pcur ++ [nb]) ++ suf).length := by
              simp only [List.length_append, List.length_cons, List.length_nil]
            rw [this, hplen]
            omega
        refine ⟨(pcur ++ [nb]) ++ suf, hnewcomp, ?_, hndnew, ?_⟩
        · refine validPathB_iff.mpr ⟨?_, ?_, ?_⟩
          · exact head_append_of_some (head_append_of_some hheadc)
          · exact compose_path_last hnewcomp
          · have hc1 : chainB G (pcur ++ [nb]) = true :=
              (validPathB_iff.mp hvalidnb).2.2
            have hc2 : chainB G (nb :: suf) = true := by
              have := (validPathB_iff.mp hvalidv).2.2
              rw [hsplit] at this
              exact chainB_mid pre nb suf this
            have := chainB_glue pcur nb suf hc1 hc2
            simpa using this
        · intro x hx
          rcases List.mem_append.mp hx with h | h
          · rcases List.mem_append.mp h with h' | h'
            · rcases hel x h' with h'' | h''
              · exact Or.inl h''
              · exact Or.inl (h'' ▸ hcur)
            · exact Or.inl ((by simpa using h' : x = nb) ▸ hnbvis)
          · rcases helv x (hsufpv x h) with h' | h'
            · exact Or.inl h'
            · exact Or.inr h'
      · refine ⟨pv, ?_, hvalidv, hndv, helv⟩
        refine compose_path_congr (by rw [hplen']) ?_ hcompv
        intro x hx
        exact alookup_aset_ne paths nb x _ fun he => hmem (he ▸ hx)
  · intro x hx
    by_cases hxn : x = nb
    · subst hxn
      rw [alookup_aset_self]
      obtain ⟨k, hk, hlt⟩ := hpush hx
      rw [hk]
      simp only [costValN]
      omega
    · rw [alookup_aset_ne costs nb x _ fun he => hxn he.symm]
  · intro hnbvis
    obtain ⟨k, hk, hlt⟩ := hpush hnbvis
    refine sumCostVisited_lt visited nb hnbvis ?_ ?_
    · intro x hx
      by_cases hxn : x = nb
      · subst hxn
        rw [alookup_aset_self, hk]
        simp only [costValN]
        omega
      · rw [alookup_aset_ne costs nb x _ fun he => hxn he.symm]
    · rw [alookup_aset_self, hk]
      simp only [costValN]
      omega
  · intro hnv x hx
    exact alookup_aset_ne costs nb x _ fun he => hnv (he ▸ hx)

theorem ucsScan_cons_eq {cur : Vert} {ec : List (String × Int)}
    (visited : List Vert) (paths : PathMapV) {costs : List (Vert × EC)}
    (frontier : List (EC × Vert)) {nb : Vert} (nbs : List Vert) {c w : Int}
    (hcc : alookup costs cur = some (EC.fin c))
    (hsl : slookup ec (cur.pyStr ++ "-" ++ nb.pyStr) = some w) :
    ucsScan cur ec visited paths costs frontier (nb :: nbs) =
      if nb ∈ visited then
        match alookup costs nb with
        | Option.none => .err .keyErr
        | some cnb =>
          if EC.lt (EC.fin (c + w)) cnb then
            ucsScan cur ec visited (aset paths nb (some cur))
              (aset costs nb (EC.fin (c + w)))
              (frontier ++ [(EC.fin (c + w), nb)]) nbs
          else ucsScan cur ec visited paths costs frontier nbs
      else
        ucsScan cur ec visited (aset paths nb (some cur))
          (aset costs nb (EC.fin (c + w)))
          (frontier ++ [(EC.fin (c + w), nb)]) nbs := by
  simp only [ucsScan, hcc, hsl, EC.add]
  by_cases hnv : nb ∈ visited
  · simp [hnv]
  · simp [hnv]

/-- The `for neighbor in graph[current_vertex]` loop of `perform_ucs`
succeeds under the core invariant and preserves it, growing the frontier
only by appended pushes; each processed neighbor ends up visited or on
the frontier, recorded costs of visited vertices never increase, and
either no push touched a visited vertex (with all visited costs literally
unchanged) or their summed cost strictly drops. -/
theorem ucsScan_spec {goal : Vert} {G : Graph} {r : Vert}
    {ec : List (String × Int)}
    (HC : ∀ u adj, alookup G u = some adj → ∀ v ∈ adj, v ∈ gkeys G)
    (HT : ∀ v ∈ gkeys G, v.truthy = true)
    (HCC : CostsComplete G ec)
    {cur : Vert} {adj : List Vert} (hadj : alookup G cur = some adj)
    {visited : List Vert} (hcur : cur ∈ visited) (hroot : r ∈ visited) :
    ∀ (nbs : List Vert), (∀ x ∈ nbs, x ∈ adj) →
    ∀ (paths : PathMapV) (costs : List (Vert × EC))
      (frontier : List (EC × Vert)),
      UCore goal G r ⟨frontier, visited, paths, costs⟩ →
      ∃ paths' costs' frontier',
        ucsScan cur ec visited paths costs frontier nbs =
          .cont paths' costs' frontier' ∧
        UCore goal G r ⟨frontier', visited, paths', costs'⟩ ∧
        (∃ L, frontier' = frontier ++ L) ∧
        (∀ nb ∈ nbs, nb ∈ visited ∨ ∃ ce, (ce, nb) ∈ frontier') ∧
        (∀ x ∈ visited,
          costValN (alookup costs' x) ≤ costValN (alookup costs x)) ∧
        ((∃ L, frontier' = frontier ++ L ∧ (∀ e ∈ L, e.2 ∉ visited) ∧
            (∀ x ∈ visited, alookup costs' x = alookup costs x)) ∨
          sumCostVisited costs' visited < sumCostVisited costs visited) := by
  intro nbs
  induction nbs with
  | nil =>
    intro _ paths costs frontier hcore
    exact ⟨paths, costs, frontier, rfl, hcore, ⟨[], by simp⟩, by simp,
      fun x _ => le_refl _, Or.inl ⟨[], by simp, by simp, fun x _ => rfl⟩⟩
  | cons nb nbs ih =>
    intro hsub paths costs frontier hcore
    have hnbadj : nb ∈ adj := hsub nb (by simp)
    have hnbK : nb ∈ gkeys G := HC cur adj hadj nb hnbadj
    obtain ⟨c, hcc, hc0⟩ := hcore.visCost cur hcur
    obtain ⟨w, hsl, hw0⟩ := HCC cur adj hadj nb hnbadj
    have hedge : edgeB G cur nb = true := by
      unfold edgeB
      rw [hadj]
      simpa using hnbadj
    have heq := ucsScan_cons_eq visited paths frontier nbs hcc hsl
    by_cases hnv : nb ∈ visited
    · obtain ⟨k, hk, hk0⟩ := hcore.visCost nb hnv
      have hk' : alookup costs nb = some (EC.fin k) := hk
      simp only [if_pos hnv, hk'] at heq
      by_cases hlt : c + w < k
      · rw [if_pos (show EC.lt (EC.fin (c + w)) (EC.fin k) = true by
          simp [EC.lt]
          omega)] at heq
        obtain ⟨hcore', hmono1, hstrict1, _⟩ :=
          ucore_push HC HT hcore hcur hroot hedge hcc hw0
            (fun _ => ⟨k, hk, hlt⟩)
        obtain ⟨paths', costs', frontier', hrun, hc2, ⟨L2, hL2⟩, hcov,
          hmono2, _⟩ := ih (fun x hx => hsub x (by simp [hx])) _ _ _ hcore'
        refine ⟨paths', costs', frontier', heq.trans hrun, hc2,
          ⟨[(EC.fin (c + w), nb)] ++ L2, by rw [hL2]; simp⟩, ?_, ?_, ?_⟩
        · intro x hx
          rcases List.mem_cons.mp hx with rfl | hx'
          · exact Or.inl hnv
          · exact hcov x hx'
        · intro x hx
          exact le_trans (hmono2 x hx) (hmono1 x hx)
        · refine Or.inr (lt_of_le_of_lt ?_ (hstrict1 hnv))
          exact sumCostVisited_le visited hmono2
      · rw [if_neg (show ¬ EC.lt (EC.fin (c + w)) (EC.fin k) = true by
          simp [EC.lt]
          omega)] at heq
        obtain ⟨paths', costs', frontier', hrun, hc2, hgrow, hcov,
          hmono2, hdisj2⟩ := ih (fun x hx => hsub x (by simp [hx])) _ _ _ hcore
        refine ⟨paths', costs', frontier', heq.trans hrun, hc2, hgrow, ?_,
          hmono2, hdisj2⟩
        intro x hx
        rcases List.mem_cons.mp hx with rfl | hx'
        · exact Or.inl hnv
        · exact hcov x hx'
    · simp only [if_neg hnv] at heq
      obtain ⟨hcore', hmono1, _, hunch1⟩ :=
        ucore_push HC HT hcore hcur hroot hedge hcc hw0
          (fun hvis => absurd hvis hnv)
      obtain ⟨paths', costs', frontier', hrun, hc2, ⟨L2, hL2⟩, hcov,
        hmono2, hdisj2⟩ := ih (fun x hx => hsub x (by simp [hx])) _ _ _ hcore'
      refine ⟨paths', costs', frontier', heq.trans hrun, hc2,
        ⟨[(EC.fin (c + w), nb)] ++ L2, by rw [hL2]; simp⟩, ?_, ?_, ?_⟩
      · intro x hx
        rcases List.mem_cons.mp hx with rfl | hx'
        · refine Or.inr ⟨EC.fin (c + w), ?_⟩
          rw [hL2]
          simp
        · exact hcov x hx'
      · intro x hx
        exact le_trans (hmono2 x hx) (hmono1 x hx)
      · rcases hdisj2 with ⟨L3, hL3, hLun, hLeq⟩ | hstrict
        · refine Or.inl ⟨[(EC.fin (c + w), nb)] ++ L3, ?_, ?_, ?_⟩
          · rw [hL3]
            simp
          · intro e he
            rcases List.mem_cons.mp he with rfl | he'
            · exact hnv
            · exact hLun e he'
          · intro x hx
            rw [hLeq x hx, hunch1 hnv x hx]
        · refine Or.inr (lt_of_lt_of_le hstrict (le_of_eq ?_))
          exact sumCostVisited_congr visited (hunch1 hnv)

/-- Popping a least frontier entry and inserting the popped vertex into
the visited list preserves the core invariant of `perform_ucs`. -/
theorem ucore_pop {goal : Vert} {G : Graph} {r : Vert} (hr : r ∈ gkeys G)
    {frontier : List (EC × Vert)} {visited : List Vert} {paths : PathMapV}
    {costs : List (Vert × EC)}
    (hcore : UCore goal G r ⟨frontier, visited, paths, costs⟩)
    {cm : EC} {cur : Vert} {rest : List (EC × Vert)}
    (hpop : popMin frontier = some ((cm, cur), rest))
    (hg : cur ≠ goal) :
    UCore goal G r ⟨rest, if cur ∈ visited then visited else cur :: visited,
      paths, costs⟩ ∧ cur ∈ gkeys G ∧
    r ∈ (if cur ∈ visited then visited else cur :: visited) ∧
    cur ∈ (if cur ∈ visited then visited else cur :: visited) := by
  obtain ⟨hm, hrest⟩ := popMin_some hpop
  have hcurK : cur ∈ gkeys G := hcore.frontK (cm, cur) hm
  have hrestsub : ∀ e ∈ rest, e ∈ frontier := by
    intro e he
    exact removeFirst_subset frontier (cm, cur) e (hrest ▸ he)
  have hvsub : ∀ x ∈ visited,
      x ∈ (if cur ∈ visited then visited else cur :: visited) := by
    intro x hx
    by_cases hcv : cur ∈ visited
    · rw [if_pos hcv]; exact hx
    · rw [if_neg hcv]; exact List.mem_cons_of_mem _ hx
  have hcmem : cur ∈ (if cur ∈ visited then visited else cur :: visited) := by
    by_cases hcv : cur ∈ visited
    · rw [if_pos hcv]; exact hcv
    · rw [if_neg hcv]; exact List.mem_cons_self _ _
  have hrootOk : (r ∈ (if cur ∈ visited then visited else cur :: visited) ∧
      alookup paths r = some Option.none) ∨
      ((if cur ∈ visited then visited else cur :: visited) = [] ∧
        rest = [(EC.fin 0, r)] ∧ paths = initPaths G ∧ costs = initCosts G r) := by
    rcases hcore.rootOk with ⟨h1, h2⟩ | ⟨h1, h2, h3, h4⟩
    · exact Or.inl ⟨hvsub r h1, h2⟩
    · have h1' : visited = [] := h1
      have h2' : frontier = [(EC.fin 0, r)] := h2
      rw [h2'] at hpop
      have hpop' : ((EC.fin 0, r), ([] : List (EC × Vert))) = ((cm, cur), rest) := by
        simpa [popMin, minEntry, removeFirst] using hpop
      have hcur : cur = r := (congrArg (fun q => q.1.2) hpop').symm
      refine Or.inl ⟨hcur ▸ hcmem, ?_⟩
      have h3' : paths = initPaths G := h3
      rw [h3']
      exact alookup_initPaths hr
  refine ⟨⟨hcore.pkeys, hcore.ckeys, ?_, ?_, ?_, ?_, hrootOk, hcore.rootCost,
      ?_, ?_, hcore.costsChain, hcore.costsNonneg, ?_, ?_⟩, hcurK,
      ?_, hcmem⟩
  · intro e he
    exact hcore.frontK e (hrestsub e he)
  · intro v hv
    by_cases hcv : cur ∈ visited
    · rw [if_pos hcv] at hv
      exact hcore.visK v hv
    · rw [if_neg hcv] at hv
      rcases List.mem_cons.mp hv with rfl | hv'
      · exact hcurK
      · exact hcore.visK v hv'
  · by_cases hcv : cur ∈ visited
    · rw [if_pos hcv]
      exact hcore.visNodup
    · rw [if_neg hcv]
      exact List.nodup_cons.mpr ⟨hcv, hcore.visNodup⟩
  · by_cases hcv : cur ∈ visited
    · rw [if_pos hcv]
      exact hcore.goalV
    · rw [if_neg hcv]
      intro hmem
      rcases List.mem_cons.mp hmem with h | h
      · exact hg h.symm
      · exact hcore.goalV h
  · intro e he
    exact hcore.frontCost e (hrestsub e he)
  · intro v u hvu
    obtain ⟨h1, h2⟩ := hcore.parents v u hvu
    exact ⟨hvsub u h1, h2⟩
  · intro v hv
    by_cases hcv : cur ∈ visited
    · rw [if_pos hcv] at hv
      exact hcore.visCost v hv
    · rw [if_neg hcv] at hv
      rcases List.mem_cons.mp hv with rfl | hv'
      · obtain ⟨k, hk, hk0⟩ := hcore.frontCost (cm, v) hm
        exact ⟨k, hk, hk0⟩
      · exact hcore.visCost v hv'
  · intro v hv
    have hvold : (∃ ce, (ce, v) ∈ frontier) ∨ v ∈ visited := by
      rcases hv with ⟨ce, hce⟩ | hvv
      · exact Or.inl ⟨ce, hrestsub (ce, v) hce⟩
      · by_cases hcv : cur ∈ visited
        · rw [if_pos hcv] at hvv
          exact Or.inr hvv
        · rw [if_neg hcv] at hvv
          rcases List.mem_cons.mp hvv with rfl | hvv'
          · exact Or.inl ⟨cm, hm⟩
          · exact Or.inr hvv'
    obtain ⟨p, h1, h2, h3, h4⟩ := hcore.comp v hvold
    refine ⟨p, h1, h2, h3, ?_⟩
    intro x hx
    rcases h4 x hx with h | h
    · exact Or.inl (hvsub x h)
    · exact Or.inr h
  · rcases hrootOk with ⟨h1, _⟩ | ⟨h1, _, _, _⟩
    · exact h1
    · rw [h1] at hcmem
      cases hcmem

/-- A stepping iteration of the `while frontier` loop of `perform_ucs`
preserves the invariant and strictly decreases the lexicographic measure
(unvisited keys, summed visited cost, frontier entries on visited
vertices). -/
theorem ucsStep_next_spec {goal : Vert} {G : Graph} {r : Vert}
    {ec : List (String × Int)}
    (HC : ∀ u adj, alookup G u = some adj → ∀ v ∈ adj, v ∈ gkeys G)
    (HT : ∀ v ∈ gkeys G, v.truthy = true)
    (HCC : CostsComplete G ec) (hr : r ∈ gkeys G)
    {st st' : UState} (hcore : UCore goal G r st) (hclos : uclosure st G)
    (hstep : ucsStep goal G ec st = .next st') :
    (UCore goal G r st' ∧ uclosure st' G) ∧
    ((gkeys G).length - st'.visited.length <
        (gkeys G).length - st.visited.length ∨
      (st'.visited = st.visited ∧
        (sumCostVisited st'.costs st.visited <
            sumCostVisited st.costs st.visited ∨
          (sumCostVisited st'.costs st.visited =
              sumCostVisited st.costs st.visited ∧
            frontVisCount st'.frontier st.visited <
              frontVisCount st.frontier st.visited)))) := by
  obtain ⟨frontier, visited, paths, costs⟩ := st
  simp only [ucsStep] at hstep
  cases hpop : popMin frontier with
  | none =>
    simp only [hpop] at hstep
    cases hstep
  | some pr =>
    obtain ⟨⟨cm, cur⟩, rest⟩ := pr
    simp only [hpop] at hstep
    obtain ⟨hmem, hrest⟩ := popMin_some hpop
    obtain ⟨pc, hcompc, hvalidc, hndc, helc⟩ :=
      hcore.comp cur (Or.inl ⟨cm, hmem⟩)
    simp only [hcompc] at hstep
    by_cases hg : cur = goal
    · rw [if_pos hg] at hstep
      cases hstep
    · rw [if_neg hg] at hstep
      obtain ⟨hcore2, hcurK, hroot', hcur'⟩ := ucore_pop hr hcore hpop hg
      obtain ⟨adj, hadj⟩ := alookup_isSome_of_mem G cur hcurK
      simp only [hadj] at hstep
      obtain ⟨paths', costs', frontier', hrun, hc2, ⟨L, hL⟩, hcov,
        hmono, hdisj⟩ := ucsScan_spec HC HT HCC hadj hcur' hroot' adj
          (fun x hx => hx) paths costs rest hcore2
      simp only [hrun] at hstep
      cases hstep
      refine ⟨⟨hc2, ?_⟩, ?_⟩
      · intro u hu adj0 hadj0 v hv0
        by_cases hcu : u = cur
        · subst hcu
          have hadj0' : adj0 = adj := by
            rw [hadj0] at hadj
            cases hadj
            rfl
          exact hcov v (hadj0' ▸ hv0)
        · have huv : u ∈ visited := by
            by_cases hcv : cur ∈ visited
            · rw [if_pos hcv] at hu
              exact hu
            · rw [if_neg hcv] at hu
              rcases List.mem_cons.mp hu with h | h
              · exact absurd h hcu
              · exact h
          rcases hclos u huv adj0 hadj0 v hv0 with h | ⟨ce, hce⟩
          · by_cases hcv : cur ∈ visited
            · rw [if_pos hcv]
              exact Or.inl h
            · rw [if_neg hcv]
              exact Or.inl (List.mem_cons_of_mem _ h)
          · rcases mem_removeFirst_or frontier (cm, cur) (ce, v) hce with
              h | h
            · refine Or.inr ⟨ce, ?_⟩
              rw [hL]
              exact List.mem_append.mpr (Or.inl (hrest ▸ h))
            · have hvcur : v = cur := congrArg Prod.snd h
              exact Or.inl (hvcur ▸ hcur')
      · by_cases hcv : cur ∈ visited
        · refine Or.inr ⟨by rw [if_pos hcv], ?_⟩
          rcases hdisj with ⟨L3, hL3, hLun, hLeq⟩ | hstrict
          · refine Or.inr ⟨?_, ?_⟩
            · refine sumCostVisited_congr visited ?_
              intro x hx
              exact hLeq x (by rw [if_pos hcv]; exact hx)
            · show frontVisCount frontier' visited <
                frontVisCount frontier visited
              rw [hL3, hrest]
              unfold frontVisCount
              rw [List.countP_append]
              have hz : L3.countP (fun e => decide (e.2 ∈ visited)) = 0 := by
                rw [List.countP_eq_zero]
                intro e he
                simp only [decide_eq_true_eq]
                intro hmem'
                exact hLun e he (by rw [if_pos hcv]; exact hmem')
              have hcnt := countP_removeFirst
                (fun e => decide (e.2 ∈ visited)) frontier (cm, cur) hmem
              rw [if_pos (by simpa using hcv)] at hcnt
              omega
          · refine Or.inl ?_
            have := hstrict
            rw [if_pos hcv] at this
            exact this
        · refine Or.inl ?_
          have hlen' : ((cur :: visited).length : Nat) ≤ (gkeys G).length := by
            refine nodup_subset_length ?_ ?_
            · exact List.nodup_cons.mpr ⟨hcv, hcore.visNodup⟩
            · intro x hx
              rcases List.mem_cons.mp hx with rfl | h
              · exact hcurK
              · exact hcore.visK x h
          show (gkeys G).length -
              (if cur ∈ visited then visited else cur :: visited).length < _
          rw [if_neg hcv]
          simp only [List.length_cons] at hlen' ⊢
          omega

/-- A terminating iteration of the `while frontier` loop of `perform_ucs`
returns `None` on an empty frontier or a composed valid root-to-goal path
on popping the goal; no error and no other outcome is possible under the
invariant. -/
theorem ucsStep_done_spec {goal : Vert} {G : Graph} {r : Vert}
    {ec : List (String × Int)}
    (HC : ∀ u adj, alookup G u = some adj → ∀ v ∈ adj, v ∈ gkeys G)
    (HT : ∀ v ∈ gkeys G, v.truthy = true)
    (HCC : CostsComplete G ec) (hr : r ∈ gkeys G)
    {st : UState} (hcore : UCore goal G r st)
    {res : SearchRes} (hstep : ucsStep goal G ec st = .done res) :
    (res = .noneRes ∧ st.frontier = []) ∨
    (∃ p, res = .path p ∧ validPathB G r goal p = true) := by
  obtain ⟨frontier, visited, paths, costs⟩ := st
  simp only [ucsStep] at hstep
  cases hpop : popMin frontier with
  | none =>
    simp only [hpop] at hstep
    cases hstep
    exact Or.inl ⟨rfl, popMin_none hpop⟩
  | some pr =>
    obtain ⟨⟨cm, cur⟩, rest⟩ := pr
    simp only [hpop] at hstep
    obtain ⟨hmem, hrest⟩ := popMin_some hpop
    obtain ⟨pc, hcompc, hvalidc, hndc, helc⟩ :=
      hcore.comp cur (Or.inl ⟨cm, hmem⟩)
    simp only [hcompc] at hstep
    by_cases hg : cur = goal
    · rw [if_pos hg] at hstep
      cases hstep
      exact Or.inr ⟨pc, rfl, hg ▸ hvalidc⟩
    · rw [if_neg hg] at hstep
      obtain ⟨hcore2, hcurK, hroot', hcur'⟩ := ucore_pop hr hcore hpop hg
      obtain ⟨adj, hadj⟩ := alookup_isSome_of_mem G cur hcurK
      simp only [hadj] at hstep
      obtain ⟨paths', costs', frontier', hrun, _⟩ :=
        ucsScan_spec HC HT HCC hadj hcur' hroot' adj
          (fun x hx => hx) paths costs rest hcore2
      simp only [hrun] at hstep
      cases hstep

/-- Fuel-indexed iteration terminates under a three-component
lexicographic measure. -/
theorem iterStep_term3 {σ : Type} (step : σ → Step σ) (I : σ → Prop)
    (μ1 μ2 μ3 : σ → Nat)
    (hpres : ∀ s s', I s → step s = .next s' → I s' ∧
      (μ1 s' < μ1 s ∨ (μ1 s' = μ1 s ∧ (μ2 s' < μ2 s ∨
        (μ2 s' = μ2 s ∧ μ3 s' < μ3 s)))))
    (hdone : ∀ s res, I s → step s = .done res → res ≠ .outOfFuel) :
    ∀ (a b c : Nat) (s : σ), I s → μ1 s = a → μ2 s = b → μ3 s = c →
      ∃ f, iterStep step f s ≠ .outOfFuel := by
  intro a
  induction a using Nat.strong_induction_on with
  | _ a ih1 =>
    intro b
    induction b using Nat.strong_induction_on with
    | _ b ih2 =>
      intro c
      induction c using Nat.strong_induction_on with
      | _ c ih3 =>
        intro s hI h1 h2 h3
        cases hs : step s with
        | done res =>
          refine ⟨1, ?_⟩
          simp only [iterStep, hs]
          exact hdone s res hI hs
        | next s' =>
          obtain ⟨hI', hlt⟩ := hpres s s' hI hs
          have hex : ∃ f, iterStep step f s' ≠ .outOfFuel := by
            rcases hlt with h | ⟨he1, h | ⟨he2, h⟩⟩
            · exact ih1 (μ1 s') (by omega) (μ2 s') (μ3 s') s' hI' rfl rfl rfl
            · exact ih2 (μ2 s') (by omega) (μ3 s') s' hI' (by omega) rfl rfl
            · exact ih3 (μ3 s') (by omega) s' hI' (by omega) (by omega) rfl
          obtain ⟨f, hf⟩ := hex
          refine ⟨f + 1, ?_⟩
          simp only [iterStep, hs]
          exact hf

theorem alookup_initPaths_none {G : Graph} :
    ∀ (v : Vert) (pv : Option Vert),
      alookup (initPaths G) v = some pv → pv = Option.none := by
  induction G with
  | nil => intro v pv h; cases h
  | cons p rest ih =>
    intro v pv h
    by_cases hk : p.1 = v
    · simp [initPaths, alookup, hk] at h
      exact h.symm
    · simp only [initPaths, List.map_cons, alookup, if_neg hk] at h
      exact ih v pv h

theorem alookup_map_inf {G : Graph} :
    ∀ (v : Vert) (e : EC),
      alookup (G.map fun p => (p.1, EC.inf)) v = some e → e = EC.inf := by
  induction G with
  | nil => intro v e h; cases h
  | cons p rest ih =>
    intro v e h
    by_cases hk : p.1 = v
    · simp [alookup, hk] at h
      exact h.symm
    · simp only [List.map_cons, alookup, if_neg hk] at h
      exact ih v e h

theorem initPaths_map_fst (G : Graph) :
    (initPaths G).map Prod.fst = gkeys G := by
  unfold initPaths gkeys
  rw [List.map_map]
  rfl

theorem initCosts_map_fst (G : Graph) (r : Vert) (hr : r ∈ gkeys G) :
    (initCosts G r).map Prod.fst = gkeys G := by
  unfold initCosts
  rw [aset_map_fst]
  · rw [List.map_map]
    rfl
  · rw [List.map_map]
    exact hr

theorem alookup_initCosts {G : Graph} {r : Vert} :
    ∀ (v : Vert) (c : Int),
      alookup (initCosts G r) v = some (EC.fin c) → v = r ∧ c = 0 := by
  intro v c h
  unfold initCosts at h
  by_cases hv : v = r
  · subst hv
    rw [alookup_aset_self] at h
    cases h
    exact ⟨rfl, rfl⟩
  · rw [alookup_aset_ne _ _ _ _ fun he => hv he.symm] at h
    have := alookup_map_inf v (EC.fin c) h
    cases this

/-- The initial state of `perform_ucs` satisfies the loop invariant. -/
theorem ucs_init {goal : Vert} {G : Graph} {r : Vert} (hr : r ∈ gkeys G) :
    UCore goal G r ⟨[(EC.fin 0, r)], [], initPaths G, initCosts G r⟩ ∧
    uclosure ⟨[(EC.fin 0, r)], [], initPaths G, initCosts G r⟩ G := by
  have hrc : alookup (initCosts G r) r = some (EC.fin 0) :=
    alookup_aset_self _ _ _
  refine ⟨⟨initPaths_map_fst G, initCosts_map_fst G r hr, ?_, ?_, ?_, ?_,
      Or.inr ⟨rfl, rfl, rfl, rfl⟩, hrc, ?_, ?_, ?_, ?_, ?_, ?_⟩, ?_⟩
  · intro e he
    have : e = (EC.fin 0, r) := by simpa using he
    rw [this]
    exact hr
  · intro v hv
    cases hv
  · exact List.nodup_nil
  · intro h
    cases h
  · intro e he
    have : e = (EC.fin 0, r) := by simpa using he
    rw [this]
    exact ⟨0, hrc, le_refl 0⟩
  · intro v u hvu
    have := alookup_initPaths_none v (some u) hvu
    cases this
  · intro v u hvu
    have := alookup_initPaths_none v (some u) hvu
    cases this
  · intro v cx hcx
    have := (alookup_initCosts v cx hcx).2
    omega
  · intro v hv
    cases hv
  · intro v hv
    rcases hv with ⟨ce, hce⟩ | hv
    · have hvr : v = r := by
        have : (ce, v) = (EC.fin 0, r) := by simpa using hce
        exact congrArg Prod.snd this
      subst hvr
      refine ⟨[v], ?_, validPathB_single G v, List.nodup_singleton v, ?_⟩
      · exact compose_path_none (alookup_initPaths hr)
      · intro x hx
        exact Or.inr (by simpa using hx)
    · cases hv
  · intro u hu
    cases hu

/-- `perform_ucs` on a closed truthy graph with a complete nonnegative
cost table terminates, and its value is `None` exactly when the goal is
unreachable, otherwise a valid root-to-goal path. -/
theorem ucs_spec {G : Graph} {r g : Vert} {ec : List (String × Int)}
    (HC : ∀ u adj, alookup G u = some adj → ∀ v ∈ adj, v ∈ gkeys G)
    (HT : ∀ v ∈ gkeys G, v.truthy = true)
    (HCC : CostsComplete G ec) (hr : r ∈ gkeys G) :
    (∃ res, Returns (perform_ucs r g G ec) res) ∧
    (∀ res, Returns (perform_ucs r g G ec) res →
      ((res = .noneRes ∧ ¬ Reaches G r g) ∨
        (∃ p, res = .path p ∧ validPathB G r g p = true))) := by
  set st0 : UState := ⟨[(EC.fin 0, r)], [], initPaths G, initCosts G r⟩ with hst0
  have hinit : UCore g G r st0 ∧ uclosure st0 G := ucs_init hr
  have hI : (fun st => UCore g G r st ∧ uclosure st G) st0 := hinit
  have hterm : ∃ f, iterStep (ucsStep g G ec) f st0 ≠ .outOfFuel := by
    refine iterStep_term3 (ucsStep g G ec)
      (fun st => UCore g G r st ∧ uclosure st G)
      (fun st => (gkeys G).length - st.visited.length)
      (fun st => sumCostVisited st.costs st.visited)
      (fun st => frontVisCount st.frontier st.visited)
      ?_ ?_ _ _ _ st0 hI rfl rfl rfl
    · intro s s' hIs hs
      obtain ⟨⟨hc', hcl'⟩, hm⟩ :=
        ucsStep_next_spec HC HT HCC hr hIs.1 hIs.2 hs
      refine ⟨⟨hc', hcl'⟩, ?_⟩
      rcases hm with h | ⟨hveq, h⟩
      · exact Or.inl h
      · refine Or.inr ⟨?_, ?_⟩
        · show (gkeys G).length - s'.visited.length =
            (gkeys G).length - s.visited.length
          rw [hveq]
        · show sumCostVisited s'.costs s'.visited <
              sumCostVisited s.costs s.visited ∨
            (sumCostVisited s'.costs s'.visited =
                sumCostVisited s.costs s.visited ∧
              frontVisCount s'.frontier s'.visited <
                frontVisCount s.frontier s.visited)
          rw [hveq]
          exact h
    · intro s res hIs hs
      rcases ucsStep_done_spec HC HT HCC hr hIs.1 hs with ⟨h1, _⟩ | ⟨p, h1, _⟩
      · rw [h1]
        intro h
        cases h
      · rw [h1]
        intro h
        cases h
  obtain ⟨f, hf⟩ := hterm
  constructor
  · exact ⟨iterStep (ucsStep g G ec) f st0, hf, f, rfl⟩
  · intro res ⟨hres, f', hf'⟩
    have hf'' : iterStep (ucsStep g G ec) f' st0 = res := hf'
    obtain ⟨s, ⟨hcs, hcls⟩, hP⟩ := iterStep_inv (ucsStep g G ec)
      (fun st => UCore g G r st ∧ uclosure st G)
      (fun s res => (res = .noneRes ∧ s.frontier = []) ∨
        (∃ p, res = .path p ∧ validPathB G r g p = true))
      (fun s s' hIs hs =>
        (ucsStep_next_spec HC HT HCC hr hIs.1 hIs.2 hs).1)
      (fun s res hIs hs => ucsStep_done_spec HC HT HCC hr hIs.1 hs)
      f' st0 hI (by rw [hf'']; exact hres)
    rw [hf''] at hP
    rcases hP with ⟨h1, h2⟩ | h
    · refine Or.inl ⟨h1, ?_⟩
      intro hreach
      have hclosed : ∀ u ∈ s.visited, ∀ adj, alookup G u = some adj →
          ∀ v ∈ adj, v ∈ s.visited := by
        intro u hu adj hadj v hv
        rcases hcls u hu adj hadj v hv with h | ⟨ce, hce⟩
        · exact h
        · rw [h2] at hce
          cases hce
      have hrv : r ∈ s.visited := by
        rcases hcs.rootOk with ⟨h3, _⟩ | ⟨_, h3, _, _⟩
        · exact h3
        · rw [h2] at h3
          cases h3
      have := reaches_subset hclosed hrv hreach
      exact hcs.goalV this
    · exact Or.inr h

theorem popF_false_eq {l rest : List Vert} {v : Vert}
    (h : popF false l = some (v, rest)) : l = v :: rest := by
  cases l with
  | nil => simp [popF] at h
  | cons a as =>
    simp only [popF] at h
    obtain ⟨h1, h2⟩ := Prod.mk.injEq .. ▸ Option.some.injEq _ _ ▸ h
    rw [← h1, ← h2]

theorem clen_of_compose {paths : PathMapV} {v : Vert} {p : List Vert}
    (h : compose_path v paths = .path p) : clen paths v = p.length := by
  unfold clen
  rw [h]

theorem mem_of_getLast? {l : List Vert} {a : Vert}
    (h : l.getLast? = some a) : a ∈ l := by
  induction l with
  | nil => cases h
  | cons x xs ih =>
    cases xs with
    | nil =>
      have : x = a := by simpa using h
      simp [this]
    | cons y ys =>
      have h' : (y :: ys).getLast? = some a := by
        rw [← h]
        exact (List.getLast?_cons_cons ..).symm
      exact List.mem_cons_of_mem _ (ih h')

/-- Walking a chain out of the visited region: either the whole chain is
visited, or it first leaves it through a queue member, whose level is
bounded by the queue bound. -/
theorem bfs_walk {G : Graph} {paths : PathMapV} {visited stack : List Vert}
    {m : Nat}
    (hclos : ∀ u ∈ visited, ∀ adj, alookup G u = some adj → ∀ v ∈ adj,
      v ∈ visited ∨ v ∈ stack)
    (hstkb : ∀ w ∈ stack, clen paths w ≤ m + 1) :
    ∀ (suffix : List Vert) (w : Vert), w ∈ visited →
      chainB G (w :: suffix) = true →
      (∀ v ∈ suffix, v ∈ visited) ∨
      ∃ s1 y s2, suffix = s1 ++ y :: s2 ∧ y ∈ stack ∧ y ∉ visited ∧
        clen paths y ≤ m + 1 ∧ (∀ v ∈ s1, v ∈ visited) := by
  intro suffix
  induction suffix with
  | nil =>
    intro w _ _
    exact Or.inl fun v hv => absurd hv (List.not_mem_nil v)
  | cons a restx ih =>
    intro w hw hchain
    obtain ⟨hedge, hchain'⟩ := chainB_cons_iff.mp hchain
    have hadj : ∃ adj, alookup G w = some adj ∧ a ∈ adj := by
      unfold edgeB at hedge
      cases hl : alookup G w with
      | none => rw [hl] at hedge; cases hedge
      | some adj =>
        rw [hl] at hedge
        exact ⟨adj, rfl, by simpa using hedge⟩
    obtain ⟨adj, hl, ha⟩ := hadj
    by_cases hav : a ∈ visited
    · rcases ih a hav hchain' with h | ⟨s1, y, s2, h1, h2, h3, h4, h5⟩
      · refine Or.inl ?_
        intro v hv
        rcases List.mem_cons.mp hv with rfl | hv'
        · exact hav
        · exact h v hv'
      · refine Or.inr ⟨a :: s1, y, s2, by simp [h1], h2, h3, h4, ?_⟩
        intro v hv
        rcases List.mem_cons.mp hv with rfl | hv'
        · exact hav
        · exact h5 v hv'
    · have hstk : a ∈ stack := by
        rcases hclos w hw adj hl a ha with h | h
        · exact absurd h hav
        · exact h
      exact Or.inr ⟨[], a, restx, rfl, hstk, hav, hstkb a hstk,
        fun v hv => absurd hv (List.not_mem_nil v)⟩

theorem binv_init {G : Graph} {r : Vert} (hr : r ∈ gkeys G) :
    BInv G r ⟨[r], [], initPaths G, []⟩ := by
  have hc : compose_path r (initPaths G) = .path [r] :=
    compose_path_none (alookup_initPaths hr)
  constructor
  · refine ⟨1, [r], [], by simp, ?_, ?_, ?_⟩
    · intro u hu
      cases hu
    · intro w hw
      have hwr : w = r := by simpa using hw
      rw [hwr, clen_of_compose hc]
      rfl
    · intro w hw
      cases hw
  · intro z q hq
    obtain ⟨hh, _, _⟩ := validPathB_iff.mp hq
    match q, hh with
    | a :: q', hh =>
      have ha : a = r := by simpa using hh
      refine Or.inr ⟨[], a, q', rfl, by simp [ha], List.not_mem_nil a, ?_,
        fun v hv => absurd hv (List.not_mem_nil v)⟩
      rw [ha, clen_of_compose hc]
      simp

theorem binv_skip {G : Graph} {r : Vert} {st : SState}
    (hB : BInv G r st) {vertex : Vert} {rest : List Vert}
    (hstack : st.stack = vertex :: rest) (hvis : vertex ∈ st.visited) :
    BInv G r { st with stack := rest } := by
  obtain ⟨⟨b, s, t, hsplit, hvb, hsb, htb⟩, hcov⟩ := hB
  rw [hstack] at hsplit
  constructor
  · cases s with
    | nil =>
      cases t with
      | nil => simp at hsplit
      | cons t0 t' =>
        have h1 : vertex = t0 ∧ rest = t' := by simpa using hsplit
        refine ⟨b + 1, rest, [], by simp, ?_, ?_, ?_⟩
        · intro u hu
          exact le_trans (hvb u hu) (by omega)
        · intro w hw
          exact htb w (by simp [h1.2 ▸ hw])
        · intro w hw
          cases hw
    | cons s0 s' =>
      have h1 : vertex = s0 ∧ rest = s' ++ t := by simpa using hsplit
      exact ⟨b, s', t, h1.2, hvb, fun w hw => hsb w (by simp [hw]), htb⟩
  · intro z q hq
    rcases hcov z q hq with h | ⟨q1, x, q2, h1, h2, h3, h4, h5⟩
    · exact Or.inl h
    · refine Or.inr ⟨q1, x, q2, h1, ?_, h3, h4, h5⟩
      have hxv : x ≠ vertex := fun he => h3 (he ▸ hvis)
      rw [hstack] at h2
      rcases List.mem_cons.mp h2 with h' | h'
      · exact absurd h' hxv
      · exact h'

theorem binv_expand {goal : Vert} {G : Graph} {r : Vert} {st : SState}
    (hI : SInv Option.none goal G r st) (hB : BInv G r st)
    (HC : ∀ u adj, alookup G u = some adj → ∀ v ∈ adj, v ∈ gkeys G)
    (HT : ∀ v ∈ gkeys G, v.truthy = true) (hr : r ∈ gkeys G)
    {vertex : Vert} {rest : List Vert}
    (hstack : st.stack = vertex :: rest)
    (hnv : vertex ∉ st.visited) (hng : vertex ≠ goal)
    {adj : List Vert} (hadj : alookup G vertex = some adj) :
    BInv G r
      ⟨rest ++ adj.filter (fun v => decide (¬ v ∈ vertex :: st.visited ∧ ¬ v ∈ rest)),
        vertex :: st.visited,
        (adj.filter fun v => decide (¬ v ∈ vertex :: st.visited ∧ ¬ v ∈ rest)).foldl
          (fun m v => aset m v (some vertex)) st.paths,
        st.depths⟩ := by
  set adjacent := adj.filter
    (fun v => decide (¬ v ∈ vertex :: st.visited ∧ ¬ v ∈ rest)) with hadjacent
  set paths' := adjacent.foldl (fun m v => aset m v (some vertex)) st.paths
    with hpaths'
  have hpop : ∀ x, x ∈ st.stack ↔ x = vertex ∨ x ∈ rest := by
    intro x
    rw [hstack]
    simp
  have hSI' : SInv Option.none goal G r
      ⟨rest ++ adjacent, vertex :: st.visited, paths', st.depths⟩ :=
    sinv_expand hI HC HT hr hpop hnv hng hadj (Or.inl ⟨rfl, rfl⟩)
  have hvstack : vertex ∈ st.stack := (hpop vertex).mpr (Or.inl rfl)
  have hvk : vertex ∈ gkeys G := hI.stackK vertex hvstack
  have hmemadj : ∀ w, w ∈ adjacent ↔
      w ∈ adj ∧ (¬ w ∈ vertex :: st.visited ∧ ¬ w ∈ rest) := by
    intro w
    rw [hadjacent, List.mem_filter]
    simp
  have hadjK : ∀ w ∈ adjacent, w ∈ gkeys G := fun w hw =>
    HC vertex adj hadj w ((hmemadj w).mp hw).1
  have hnotadj : ∀ x, (x ∈ st.visited ∨ x = vertex ∨ x ∈ rest) →
      x ∉ adjacent := by
    intro x hx hmem
    obtain ⟨_, hx1, hx2⟩ := (hmemadj x).mp hmem
    rcases hx with h | h | h
    · exact hx1 (by simp [h])
    · exact hx1 (by simp [h])
    · exact hx2 h
  have hlookKeep : ∀ x, x ∉ adjacent →
      alookup paths' x = alookup st.paths x := by
    intro x hx
    rw [hpaths', alookup_foldl_aset_const]
    simp [hx]
  have hlookNew : ∀ w ∈ adjacent, alookup paths' w = some (some vertex) := by
    intro w hw
    rw [hpaths', alookup_foldl_aset_const]
    simp [hw]
  have hpk' : paths'.map Prod.fst = st.paths.map Prod.fst := by
    rw [hpaths']
    exact foldl_aset_map_fst _ adjacent st.paths
      (fun x hx => by rw [hI.pkeys]; exact hadjK x hx)
  have hplen : paths'.length = st.paths.length := by
    have h1 := congrArg List.length hpk'
    simpa using h1
  have hckeep : ∀ y, y ∈ st.stack ∨ y ∈ st.visited →
      ∀ py, compose_path y st.paths = .path py →
        compose_path y paths' = .path py := by
    intro y hy py hpy
    obtain ⟨p0, hp0, _, _, helems0⟩ := hI.comp y hy
    have hpeq : p0 = py := by
      rw [hp0] at hpy
      injection hpy
    subst hpeq
    refine compose_path_congr hplen ?_ hpy
    intro x hx
    refine hlookKeep x (hnotadj x ?_)
    rcases helems0 x hx with h | h
    · exact Or.inl h
    · rcases hy with h' | h'
      · rcases (hpop y).mp h' with h'' | h''
        · exact Or.inr (Or.inl (h ▸ h''))
        · exact Or.inr (Or.inr (h ▸ h''))
      · exact Or.inl (h ▸ h')
  obtain ⟨pc, hpc, hvpc, hndc, helc⟩ := hI.comp vertex (Or.inl hvstack)
  have hpc' : compose_path vertex paths' = .path pc :=
    hckeep vertex (Or.inl hvstack) pc hpc
  have hpclen : pc.length ≤ paths'.length := by
    rw [hplen]
    have h1 : st.paths.length = (gkeys G).length := by
      have := congrArg List.length hI.pkeys
      simpa using this
    rw [h1]
    exact nodup_subset_length hndc (validPathB_mem_keys HC hr hvpc)
  have hpush : ∀ w ∈ adjacent,
      compose_path w paths' = .path (pc ++ [w]) := by
    intro w hw
    exact compose_path_push (hlookNew w hw) (HT vertex hvk) hpc' hpclen
  have hclenpush : ∀ w ∈ adjacent,
      clen paths' w = clen st.paths vertex + 1 := by
    intro w hw
    rw [clen_of_compose (hpush w hw), clen_of_compose hpc]
    simp
  have hclenkeep : ∀ y, y ∈ st.stack ∨ y ∈ st.visited →
      clen paths' y = clen st.paths y := by
    intro y hy
    obtain ⟨p0, hp0, _, _, _⟩ := hI.comp y hy
    rw [clen_of_compose hp0, clen_of_compose (hckeep y hy p0 hp0)]
  obtain ⟨b, s, t, hsplit, hvb, hsb, htb⟩ := hB.1
  rw [hstack] at hsplit
  have hrests : ∀ w ∈ rest, w ∈ st.stack := by
    intro w hw
    exact (hpop w).mpr (Or.inr hw)
  constructor
  · show BLevel paths' (vertex :: st.visited) (rest ++ adjacent)
    cases s with
    | nil =>
      cases t with
      | nil => simp at hsplit
      | cons t0 t' =>
        have h1 : vertex = t0 ∧ rest = t' := by simpa using hsplit
        have hcv : clen st.paths vertex = b + 1 := by
          rw [h1.1]
          exact htb t0 (by simp)
        refine ⟨b + 1, rest, adjacent, rfl, ?_, ?_, ?_⟩
        · intro u hu
          rcases List.mem_cons.mp hu with rfl | hu'
          · rw [hclenkeep u (Or.inl hvstack), hcv]
          · rw [hclenkeep u (Or.inr hu')]
            exact le_trans (hvb u hu') (by omega)
        · intro w hw
          rw [hclenkeep w (Or.inl (hrests w hw))]
          exact htb w (by simp [h1.2 ▸ hw])
        · intro w hw
          rw [hclenpush w hw, hcv]
    | cons s0 s' =>
      have h1 : vertex = s0 ∧ rest = s' ++ t := by simpa using hsplit
      have hcv : clen st.paths vertex = b := by
        rw [h1.1]
        exact hsb s0 (by simp)
      refine ⟨b, s', t ++ adjacent, by rw [h1.2]; simp, ?_, ?_, ?_⟩
      · intro u hu
        rcases List.mem_cons.mp hu with rfl | hu'
        · rw [hclenkeep u (Or.inl hvstack), hcv]
        · rw [hclenkeep u (Or.inr hu')]
          exact hvb u hu'
      · intro w hw
        have hws : w ∈ rest := by rw [h1.2]; simp [hw]
        rw [hclenkeep w (Or.inl (hrests w hws))]
        exact hsb w (by simp [hw])
      · intro w hw
        rcases List.mem_append.mp hw with hw' | hw'
        · have hws : w ∈ rest := by rw [h1.2]; simp [hw']
          rw [hclenkeep w (Or.inl (hrests w hws))]
          exact htb w hw'
        · rw [hclenpush w hw', hcv]
  · show BCover G r paths' (vertex :: st.visited) (rest ++ adjacent)
    have hm0 : b ≤ clen st.paths vertex := by
      rcases (hpop vertex).mpr (Or.inl rfl) with _
      cases s with
      | nil =>
        cases t with
        | nil => simp at hsplit
        | cons t0 t' =>
          have h1 : vertex = t0 := by
            have := hsplit
            simp at this
            exact this.1
          rw [h1, htb t0 (by simp)]
          omega
      | cons s0 s' =>
        have h1 : vertex = s0 := by
          have := hsplit
          simp at this
          exact this.1
        rw [h1, hsb s0 (by simp)]
    have hstkb : ∀ w ∈ rest ++ adjacent,
        clen paths' w ≤ clen st.paths vertex + 1 := by
      intro w hw
      rcases List.mem_append.mp hw with hw' | hw'
      · rw [hclenkeep w (Or.inl (hrests w hw'))]
        have : clen st.paths w = b ∨ clen st.paths w = b + 1 := by
          have hws : w ∈ s ++ t := by rw [← hsplit]; simp [hw']
          rcases List.mem_append.mp hws with h | h
          · exact Or.inl (hsb w h)
          · exact Or.inr (htb w h)
        rcases this with h | h
        · omega
        · omega
      · rw [hclenpush w hw']
    have hclos' : ∀ u ∈ vertex :: st.visited, ∀ adj0,
        alookup G u = some adj0 → ∀ v ∈ adj0,
        v ∈ vertex :: st.visited ∨ v ∈ rest ++ adjacent := by
      intro u hu adj0 hadj0 v hv
      exact hSI'.closure u hu (fun L hL => nomatch hL) adj0 hadj0 v hv
    intro z q hq
    rcases hB.2 z q hq with hall | ⟨q1, x, q2, h1, h2, h3, h4, h5⟩
    · exact Or.inl fun v hv => List.mem_cons_of_mem _ (hall v hv)
    · by_cases hxv : x = vertex
      · subst hxv
        have hchain : chainB G (x :: q2) = true := by
          have := (validPathB_iff.mp hq).2.2
          rw [h1] at this
          exact chainB_mid q1 x q2 this
        rcases bfs_walk hclos' hstkb q2 x (by simp) hchain with
          hall2 | ⟨s1, y, s2, hq2, hys, hynv, hylen, hs1v⟩
        · refine Or.inl ?_
          intro v hv
          rw [h1] at hv
          rcases List.mem_append.mp hv with h | h
          · exact List.mem_cons_of_mem _ (h5 v h)
          · rcases List.mem_cons.mp h with rfl | h'
            · exact List.mem_cons_self _ _
            · exact hall2 v h'
        · refine Or.inr ⟨q1 ++ x :: s1, y, s2, ?_, hys, hynv, ?_, ?_⟩
          · rw [h1, hq2]
            simp
          · have hm1 : clen st.paths x ≤ q1.length + 1 := h4
            simp only [List.length_append, List.length_cons]
            omega
          · intro v hv
            rcases List.mem_append.mp hv with h | h
            · exact List.mem_cons_of_mem _ (h5 v h)
            · rcases List.mem_cons.mp h with rfl | h'
              · exact List.mem_cons_self _ _
              · exact hs1v v h'
      · refine Or.inr ⟨q1, x, q2, h1, ?_, ?_, ?_, ?_⟩
        · have hxr : x ∈ rest := by
            rw [hstack] at h2
            rcases List.mem_cons.mp h2 with h' | h'
            · exact absurd h' hxv
            · exact h'
          exact List.mem_append.mpr (Or.inl hxr)
        · intro hcon
          rcases List.mem_cons.mp hcon with h' | h'
          · exact hxv h'
          · exact h3 h'
        · rw [hclenkeep x (Or.inl h2)]
          exact h4
        · exact fun v hv => List.mem_cons_of_mem _ (h5 v hv)

/-- A stepping BFS iteration preserves the combined invariant. -/
theorem bfs_next {goal : Vert} {G : Graph} {r : Vert} {st st' : SState}
    (HC : ∀ u adj, alookup G u = some adj → ∀ v ∈ adj, v ∈ gkeys G)
    (HT : ∀ v ∈ gkeys G, v.truthy = true) (hr : r ∈ gkeys G)
    (hI : SInv Option.none goal G r st) (hB : BInv G r st)
    (hstep : searchStep false Option.none goal G st = .next st') :
    SInv Option.none goal G r st' ∧ BInv G r st' := by
  have hSI' := (searchStep_next HC HT hr hI hstep).1
  refine ⟨hSI', ?_⟩
  unfold searchStep at hstep
  cases hpop : popF false st.stack with
  | none => rw [hpop] at hstep; cases hstep
  | some pr =>
    obtain ⟨vertex, rest⟩ := pr
    rw [hpop] at hstep
    have hstack := popF_false_eq hpop
    simp only at hstep
    by_cases hvis : vertex ∈ st.visited
    · rw [if_pos hvis] at hstep
      cases hstep
      exact binv_skip hB hstack hvis
    · rw [if_neg hvis] at hstep
      obtain ⟨p, hp, _, _, _⟩ := hI.comp vertex (Or.inl (by rw [hstack]; simp))
      rw [hp] at hstep
      simp only at hstep
      by_cases hg : vertex = goal
      · rw [if_pos hg] at hstep
        cases hstep
      · rw [if_neg hg] at hstep
        cases hadj : alookup G vertex with
        | none =>
          rw [hadj] at hstep
          cases hstep
        | some adj =>
          rw [hadj] at hstep
          simp only at hstep
          cases hstep
          exact binv_expand hI hB HC HT hr hstack hvis hg hadj

/-- A terminating BFS iteration returns the empty set or a composed path
that is at least as short as every root-to-goal path. -/
theorem bfs_done_opt {goal : Vert} {G : Graph} {r : Vert} {st : SState}
    {res : SearchRes}
    (hI : SInv Option.none goal G r st) (hB : BInv G r st)
    (hstep : searchStep false Option.none goal G st = .done res) :
    res = .noPath ∨
    ∃ p, res = .path p ∧ validPathB G r goal p = true ∧
      ∀ q, validPathB G r goal q = true → p.length ≤ q.length := by
  unfold searchStep at hstep
  cases hpop : popF false st.stack with
  | none =>
    rw [hpop] at hstep
    cases hstep
    exact Or.inl rfl
  | some pr =>
    obtain ⟨vertex, rest⟩ := pr
    rw [hpop] at hstep
    have hstack := popF_false_eq hpop
    simp only at hstep
    by_cases hvis : vertex ∈ st.visited
    · rw [if_pos hvis] at hstep
      cases hstep
    · rw [if_neg hvis] at hstep
      have hvst : vertex ∈ st.stack := by rw [hstack]; simp
      have hvk := hI.stackK vertex hvst
      obtain ⟨p, hp, hvp, hnd, helems⟩ := hI.comp vertex (Or.inl hvst)
      rw [hp] at hstep
      simp only at hstep
      by_cases hg : vertex = goal
      · rw [if_pos hg] at hstep
        cases hstep
        refine Or.inr ⟨p, rfl, hg ▸ hvp, ?_⟩
        intro q hq
        rcases hB.2 goal q hq with hall | ⟨q1, x, q2, h1, h2, h3, h4, _⟩
        · exfalso
          have hgq : goal ∈ q := mem_of_getLast? (validPathB_iff.mp hq).2.1
          exact (hg ▸ hvis) (hall goal hgq)
        · have hpl : p.length = clen st.paths vertex :=
            (clen_of_compose hp).symm
          obtain ⟨b, s, t, hsplit, hvb, hsb, htb⟩ := hB.1
          rw [hstack] at hsplit
          have hxst : x ∈ s ++ t := by
            rw [← hsplit, ← hstack]
            exact h2
          have hmin : clen st.paths vertex ≤ clen st.paths x := by
            cases s with
            | nil =>
              have hvt : vertex ∈ t := by
                have : vertex ∈ ([] : List Vert) ++ t := by
                  rw [← hsplit]
                  simp
                simpa using this
              have hxt : x ∈ t := by simpa using hxst
              rw [htb vertex hvt, htb x hxt]
            | cons s0 s' =>
              have h0 : vertex = s0 := by
                have := hsplit
                simp at this
                exact this.1
              have hcv : clen st.paths vertex = b := by
                rw [h0]
                exact hsb s0 (by simp)
              rcases List.mem_append.mp hxst with hx | hx
              · rw [hcv, hsb x hx]
              · rw [hcv, htb x hx]
                omega
          have hql : q1.length + 1 ≤ q.length := by
            rw [h1]
            simp
          omega
      · rw [if_neg hg] at hstep
        cases hadj : alookup G vertex with
        | none =>
          obtain ⟨adj, ha⟩ := alookup_isSome_of_mem G vertex hvk
          rw [ha] at hadj
          cases hadj
        | some adj =>
          rw [hadj] at hstep
          simp only at hstep
          cases hstep

/-- On a closed truthy graph with a reachable goal, `perform_bfs` returns
a valid root-to-goal path that is at least as short as every
root-to-goal path. -/
theorem bfs_opt {G : Graph} {r g : Vert}
    (HC : ∀ u adj, alookup G u = some adj → ∀ v ∈ adj, v ∈ gkeys G)
    (HT : ∀ v ∈ gkeys G, v.truthy = true) (hr : r ∈ gkeys G)
    (hre : Reaches G r g) :
    ∃ p, Returns (perform_bfs r g G) (.path p) ∧
      validPathB G r g p = true ∧
      ∀ q, validPathB G r g q = true → p.length ≤ q.length := by
  set st0 : SState := ⟨[r], [], initPaths G, []⟩ with hst0
  set f := smeasure G st0 + 1 with hf
  have hne : perform_bfs r g G f ≠ .outOfFuel := searchLoop_terminates _ _ _ _ _
  have hinit : SInv Option.none g G r st0 ∧ BInv G r st0 :=
    ⟨sinv_init hr (fun L hL => nomatch hL), binv_init hr⟩
  obtain ⟨s, hIs, hP⟩ := iterStep_inv (searchStep false Option.none g G)
    (fun st => SInv Option.none g G r st ∧ BInv G r st)
    (fun _ res => res = .noPath ∨
      ∃ p, res = .path p ∧ validPathB G r g p = true ∧
        ∀ q, validPathB G r g q = true → p.length ≤ q.length)
    (fun s s' hI hs => bfs_next HC HT hr hI.1 hI.2 hs)
    (fun s res hI hs => bfs_done_opt hI.1 hI.2 hs)
    f st0 hinit hne
  rcases hP with hnp | ⟨p, hpath, hval, hopt⟩
  · exfalso
    obtain ⟨p0, hr0, _⟩ := (bfs_spec HC HT hr).1 hre
    have hrn : Returns (perform_bfs r g G) .noPath := ⟨by simp, f, hnp⟩
    cases Returns_eq (fun f' => rfl) hr0 hrn
  · exact ⟨p, ⟨by simp, f, hpath⟩, hval, hopt⟩

/-- C7: on the graph `{A:{B}, B:{C}, C:{}}` with root `A` and goal `C`,
`perform_dls` with `depth_limit = 1` reports no path (the empty set), and
with `depth_limit = 2` returns exactly `[A, B, C]`. -/
theorem claim_C7 :
    Returns (perform_dls (Vert.s "A") (Vert.s "C")
      [(Vert.s "A", [Vert.s "B"]), (Vert.s "B", [Vert.s "C"]), (Vert.s "C", [])] 1)
      SearchRes.noPath ∧
    Returns (perform_dls (Vert.s "A") (Vert.s "C")
      [(Vert.s "A", [Vert.s "B"]), (Vert.s "B", [Vert.s "C"]), (Vert.s "C", [])] 2)
      (SearchRes.path [Vert.s "A", Vert.s "B", Vert.s "C"]) :=
  ⟨⟨by decide, 10, by decide⟩, ⟨by decide, 10, by decide⟩⟩

/-- C2 (failing input): on the graph `{R:{A,X}, A:{X}, X:{}}` with the
complete all-positive cost table `{R-A:3, R-X:3, A-X:2}`, `perform_ucs`
from `R` to `X` returns `[R, A, X]`, whose summed edge cost is `5`,
although `[R, X]` is a root-to-goal path of cost `3 < 5`.  The
`costs[neighbor] = cost` overwrite for a not-yet-visited neighbor is taken
without comparing against the recorded cost, so a cost-tied pop order can
inflate a cost and reparent the goal onto a more expensive route, contrary
to the module's own docstring ("finds a path with the minimum cost"). -/
theorem claim_C2 :
    Returns (perform_ucs (Vert.s "R") (Vert.s "X")
      [(Vert.s "R", [Vert.s "A", Vert.s "X"]), (Vert.s "A", [Vert.s "X"]),
       (Vert.s "X", [])]
      [("R-A", 3), ("R-X", 3), ("A-X", 2)])
      (SearchRes.path [Vert.s "R", Vert.s "A", Vert.s "X"]) ∧
    pathCost [("R-A", 3), ("R-X", 3), ("A-X", 2)]
      [Vert.s "R", Vert.s "A", Vert.s "X"] = some 5 ∧
    validPathB [(Vert.s "R", [Vert.s "A", Vert.s "X"]), (Vert.s "A", [Vert.s "X"]),
       (Vert.s "X", [])] (Vert.s "R") (Vert.s "X") [Vert.s "R", Vert.s "X"] = true ∧
    pathCost [("R-A", 3), ("R-X", 3), ("A-X", 2)] [Vert.s "R", Vert.s "X"] = some 3 ∧
    ¬ (5 : Int) ≤ 3 :=
  ⟨⟨by decide, 10, by decide⟩, by decide, by decide, by decide, by decide⟩

/-- C8 (counterexample): the claim asserts that popping a vertex that is
not a key of the graph behaves as an empty neighbor set and never causes
an error.  On `{A:{B}}` with root `A` and goal `C`, `perform_dfs` pops the
non-key vertex `B` and the lookup `graph[B]` raises `KeyError`; in
particular the search does not return the no-path value. -/
theorem claim_C8_counterexample :
    Returns (perform_dfs (Vert.s "A") (Vert.s "C") [(Vert.s "A", [Vert.s "B"])])
      SearchRes.keyErr ∧
    ¬ Returns (perform_dfs (Vert.s "A") (Vert.s "C") [(Vert.s "A", [Vert.s "B"])])
      SearchRes.noPath := by
  have h1 : Returns (perform_dfs (Vert.s "A") (Vert.s "C")
      [(Vert.s "A", [Vert.s "B"])]) SearchRes.keyErr := ⟨by decide, 10, by decide⟩
  refine ⟨h1, fun h2 => ?_⟩
  have := Returns_eq (fun f => rfl) h1 h2
  cases this

/-- C8 (amended): a vertex referenced as a neighbor but absent from the
graph's keys makes the neighbor lookup raise `KeyError` when the search
reaches it, instead of behaving as an empty neighbor set; each of the six
search operations fails this way on a one-edge graph with a dangling
neighbor (for `perform_bidi`, already on the dangling initial goal). -/
theorem claim_C8 :
    Returns (perform_dfs (Vert.s "A") (Vert.s "C") [(Vert.s "A", [Vert.s "B"])])
      SearchRes.keyErr ∧
    Returns (perform_bfs (Vert.s "A") (Vert.s "C") [(Vert.s "A", [Vert.s "B"])])
      SearchRes.keyErr ∧
    Returns (perform_dls (Vert.s "A") (Vert.s "C") [(Vert.s "A", [Vert.s "B"])] 5)
      SearchRes.keyErr ∧
    Returns (perform_ids (Vert.s "A") (Vert.s "C") [(Vert.s "A", [Vert.s "B"])] 3)
      SearchRes.keyErr ∧
    Returns (perform_bidi (Vert.s "A") (Vert.s "C") [(Vert.s "A", [])])
      SearchRes.keyErr ∧
    Returns (perform_ucs (Vert.s "A") (Vert.s "C") [(Vert.s "A", [Vert.s "B"])]
      [("A-B", 1)]) SearchRes.keyErr :=
  ⟨⟨by decide, 10, by decide⟩, ⟨by decide, 10, by decide⟩, ⟨by decide, 10, by decide⟩,
    ⟨by decide, 10, by decide⟩, ⟨by decide, 10, by decide⟩, ⟨by decide, 10, by decide⟩⟩

/-- C9: `_compose_path` prepends parents only while the parent value is
truthy, so a parent equal to `0` or `""` (any falsy vertex) terminates the
walk exactly like the `None` sentinel; consequently a search whose
discovered route passes through such a vertex returns a path truncated
there: `perform_bfs` through the vertex `""` (and through `0`) returns the
single-vertex path `[goal]` instead of a root-to-goal path. -/
theorem claim_C9 :
    (∀ (paths : PathMapV) (v w : Vert), alookup paths v = some (some w) →
      w.truthy = false → compose_path v paths = .path [v]) ∧
    (∀ (paths : PathMapV) (v : Vert), alookup paths v = some Option.none →
      compose_path v paths = .path [v]) ∧
    Returns (perform_bfs (Vert.s "A") (Vert.s "B")
      [(Vert.s "A", [Vert.s ""]), (Vert.s "", [Vert.s "B"]), (Vert.s "B", [])])
      (SearchRes.path [Vert.s "B"]) ∧
    Returns (perform_bfs (Vert.i 1) (Vert.i 2)
      [(Vert.i 1, [Vert.i 0]), (Vert.i 0, [Vert.i 2]), (Vert.i 2, [])])
      (SearchRes.path [Vert.i 2]) :=
  ⟨fun _ _ _ h hw => compose_path_falsy h hw,
   fun _ _ h => compose_path_none h,
   ⟨by decide, 10, by decide⟩, ⟨by decide, 10, by decide⟩⟩

/-- C1 (counterexample): on the closed truthy graph
`{A:{B}, B:{G}, G:{C}, C:{B}}` the goal `G` is reachable from the root `A`
(via `[A, B, G]`), yet `perform_bidi` returns `[A, B, C, G, B, A]` — and
nothing else — which is not a root-to-goal edge sequence (it ends at `A`,
and e.g. the pair `(B, C)` is not an edge): the shared parent map mixes
the two search directions, so the claim fails for `perform_bidi`. -/
theorem claim_C1_counterexample :
    validPathB [(Vert.s "A", [Vert.s "B"]), (Vert.s "B", [Vert.s "G"]),
      (Vert.s "G", [Vert.s "C"]), (Vert.s "C", [Vert.s "B"])]
      (Vert.s "A") (Vert.s "G") [Vert.s "A", Vert.s "B", Vert.s "G"] = true ∧
    Returns (perform_bidi (Vert.s "A") (Vert.s "G")
      [(Vert.s "A", [Vert.s "B"]), (Vert.s "B", [Vert.s "G"]),
       (Vert.s "G", [Vert.s "C"]), (Vert.s "C", [Vert.s "B"])])
      (SearchRes.path [Vert.s "A", Vert.s "B", Vert.s "C", Vert.s "G",
        Vert.s "B", Vert.s "A"]) ∧
    validPathB [(Vert.s "A", [Vert.s "B"]), (Vert.s "B", [Vert.s "G"]),
      (Vert.s "G", [Vert.s "C"]), (Vert.s "C", [Vert.s "B"])]
      (Vert.s "A") (Vert.s "G")
      [Vert.s "A", Vert.s "B", Vert.s "C", Vert.s "G", Vert.s "B", Vert.s "A"]
      = false ∧
    (∀ res, Returns (perform_bidi (Vert.s "A") (Vert.s "G")
      [(Vert.s "A", [Vert.s "B"]), (Vert.s "B", [Vert.s "G"]),
       (Vert.s "G", [Vert.s "C"]), (Vert.s "C", [Vert.s "B"])]) res →
      res = SearchRes.path [Vert.s "A", Vert.s "B", Vert.s "C", Vert.s "G",
        Vert.s "B", Vert.s "A"]) := by
  have h1 : Returns (perform_bidi (Vert.s "A") (Vert.s "G")
      [(Vert.s "A", [Vert.s "B"]), (Vert.s "B", [Vert.s "G"]),
       (Vert.s "G", [Vert.s "C"]), (Vert.s "C", [Vert.s "B"])])
      (SearchRes.path [Vert.s "A", Vert.s "B", Vert.s "C", Vert.s "G",
        Vert.s "B", Vert.s "A"]) := ⟨by decide, 20, by decide⟩
  exact ⟨by decide, h1, by decide,
    fun res hres => (Returns_eq (fun f => rfl) hres h1)⟩

/-- C4 (counterexample): on the closed truthy graph `{A:{B}, B:{}, G:{B}}`
the goal `G` is not reachable from the root `A`, yet `perform_bidi`
returns the non-empty vertex sequence `[A, B, G]` (the goal-side
exploration meets the root-side parent assignment at `B`) instead of its
no-path value, so the claim fails for `perform_bidi`. -/
theorem claim_C4_counterexample :
    ¬ Reaches [(Vert.s "A", [Vert.s "B"]), (Vert.s "B", []), (Vert.s "G", [Vert.s "B"])]
      (Vert.s "A") (Vert.s "G") ∧
    Returns (perform_bidi (Vert.s "A") (Vert.s "G")
      [(Vert.s "A", [Vert.s "B"]), (Vert.s "B", []), (Vert.s "G", [Vert.s "B"])])
      (SearchRes.path [Vert.s "A", Vert.s "B", Vert.s "G"]) ∧
    ¬ Returns (perform_bidi (Vert.s "A") (Vert.s "G")
      [(Vert.s "A", [Vert.s "B"]), (Vert.s "B", []), (Vert.s "G", [Vert.s "B"])])
      SearchRes.noPath := by
  have h1 : Returns (perform_bidi (Vert.s "A") (Vert.s "G")
      [(Vert.s "A", [Vert.s "B"]), (Vert.s "B", []), (Vert.s "G", [Vert.s "B"])])
      (SearchRes.path [Vert.s "A", Vert.s "B", Vert.s "G"]) :=
    ⟨by decide, 20, by decide⟩
  refine ⟨fun h => ?_, h1, fun h2 => ?_⟩
  · have hS : ∀ u ∈ [Vert.s "A", Vert.s "B"], ∀ adj,
        alookup [(Vert.s "A", [Vert.s "B"]), (Vert.s "B", []),
          (Vert.s "G", [Vert.s "B"])] u = some adj →
        ∀ v ∈ adj, v ∈ [Vert.s "A", Vert.s "B"] := by decide
    have hmem := reaches_subset hS (by decide) h
    exact absurd hmem (by decide)
  · cases Returns_eq (fun f => rfl) h1 h2

/-- C5 (counterexample): on the graph `{A:{B}, B:{}}` with
`root = goal = A`, `perform_bidi` returns `[A, B, A]` — and nothing else —
rather than the single-element sequence `[A]`: the root-equals-goal test
is commented out in `bidi.py`, so the claim fails for `perform_bidi`. -/
theorem claim_C5_counterexample :
    Returns (perform_bidi (Vert.s "A") (Vert.s "A")
      [(Vert.s "A", [Vert.s "B"]), (Vert.s "B", [])])
      (SearchRes.path [Vert.s "A", Vert.s "B", Vert.s "A"]) ∧
    ¬ Returns (perform_bidi (Vert.s "A") (Vert.s "A")
      [(Vert.s "A", [Vert.s "B"]), (Vert.s "B", [])])
      (SearchRes.path [Vert.s "A"]) := by
  have h1 : Returns (perform_bidi (Vert.s "A") (Vert.s "A")
      [(Vert.s "A", [Vert.s "B"]), (Vert.s "B", [])])
      (SearchRes.path [Vert.s "A", Vert.s "B", Vert.s "A"]) :=
    ⟨by decide, 20, by decide⟩
  refine ⟨h1, fun h2 => ?_⟩
  cases Returns_eq (fun f => rfl) h1 h2

/-- C6 (counterexample): on the graph `{A:{}}` with `root = goal = A` and
`max_depth = D = 1`, `perform_ids` returns the path `[A]` and
`perform_dls` with `depth_limit = 1` returns a path, so the smallest
successful `k` with `1 ≤ k ≤ D` is `1`, but the edge count of the returned
path is `0 ≠ 1`. -/
theorem claim_C6_counterexample :
    Returns (perform_ids (Vert.s "A") (Vert.s "A") [(Vert.s "A", [])] 1)
      (SearchRes.path [Vert.s "A"]) ∧
    Returns (perform_dls (Vert.s "A") (Vert.s "A") [(Vert.s "A", [])] 1)
      (SearchRes.path [Vert.s "A"]) ∧
    [Vert.s "A"].length - 1 ≠ 1 :=
  ⟨⟨by decide, 10, by decide⟩, ⟨by decide, 10, by decide⟩, by decide⟩

theorem perform_dfs_self {r : Vert} {G : Graph} (h : r ∈ gkeys G) :
    perform_dfs r r G 1 = .path [r] := by
  have hc : compose_path r (initPaths G) = .path [r] :=
    compose_path_none (alookup_initPaths h)
  simp [perform_dfs, searchLoop, iterStep, searchStep, popF, hc]

theorem perform_bfs_self {r : Vert} {G : Graph} (h : r ∈ gkeys G) :
    perform_bfs r r G 1 = .path [r] := by
  have hc : compose_path r (initPaths G) = .path [r] :=
    compose_path_none (alookup_initPaths h)
  simp [perform_bfs, searchLoop, iterStep, searchStep, popF, hc]

theorem perform_dls_self {r : Vert} {G : Graph} (L : Int) (h : r ∈ gkeys G) :
    perform_dls r r G L 1 = .path [r] := by
  have hc : compose_path r (initPaths G) = .path [r] :=
    compose_path_none (alookup_initPaths h)
  simp [perform_dls, searchLoop, iterStep, searchStep, popF, hc]

theorem perform_ucs_self {r : Vert} {G : Graph} (ec : List (String × Int))
    (h : r ∈ gkeys G) : perform_ucs r r G ec 1 = .path [r] := by
  have hc : compose_path r (initPaths G) = .path [r] :=
    compose_path_none (alookup_initPaths h)
  simp [perform_ucs, ucsLoop, iterStep, ucsStep, popMin, minEntry, removeFirst, hc]

theorem alookup_pair_mem {α : Type} (m : List (Vert × α)) (k : Vert) (v : α)
    (h : alookup m k = some v) : (k, v) ∈ m := by
  induction m with
  | nil => cases h
  | cons p rest ih =>
    by_cases hp : p.1 = k
    · simp only [alookup, if_pos hp] at h
      cases h
      have : p = (k, p.2) := by
        rw [Prod.ext_iff]
        exact ⟨hp, rfl⟩
      rw [← this]
      exact List.mem_cons_self _ _
    · simp only [alookup, if_neg hp] at h
      exact List.mem_cons_of_mem _ (ih h)

/-- A `True` result of the executable closure check gives the neighbor
closure hypothesis. -/
theorem closedB_spec {G : Graph} (h : closedB G = true) :
    ∀ u adj, alookup G u = some adj → ∀ v ∈ adj, v ∈ gkeys G := by
  intro u adj hadj v hv
  have hm := alookup_pair_mem G u adj hadj
  unfold closedB at h
  rw [List.all_eq_true] at h
  have h2 := h (u, adj) hm
  rw [List.all_eq_true] at h2
  have h3 := h2 v hv
  simpa using h3

/-- A `True` result of the executable truthiness check gives the
all-keys-truthy hypothesis. -/
theorem truthyB_spec {G : Graph} (h : truthyB G = true) :
    ∀ v ∈ gkeys G, v.truthy = true := by
  intro v hv
  obtain ⟨pr, hpr, hfst⟩ := List.mem_map.mp hv
  unfold truthyB at h
  rw [List.all_eq_true] at h
  have := h pr hpr
  rw [← hfst]
  exact this

/-- A `True` result of the executable edge-cost check gives
`CostsComplete`. -/
theorem ecOkB_spec {G : Graph} {ec : List (String × Int)}
    (h : ecOkB G ec = true) : CostsComplete G ec := by
  intro u adj hadj v hv
  have hm := alookup_pair_mem G u adj hadj
  unfold ecOkB at h
  rw [List.all_eq_true] at h
  have h2 := h (u, adj) hm
  rw [List.all_eq_true] at h2
  have h3 := h2 v hv
  cases hsl : slookup ec (u.pyStr ++ "-" ++ v.pyStr) with
  | none =>
    simp only [hsl] at h3
    cases h3
  | some w =>
    simp only [hsl] at h3
    exact ⟨w, rfl, by simpa using h3⟩

/-- C1 (amended): on a finite graph whose adjacency sets mention only
graph keys and whose keys are truthy, with the root a key and the goal
reachable, `perform_dfs`, `perform_bfs`, `perform_dls` (depth limit at
least the key count), `perform_ids` (max depth at least the key count)
and `perform_ucs` (with a complete nonnegative edge-cost table, on keys
all of one type — with mixed int/str keys a cost tie can make the heap
compare an int vertex with a str vertex and raise `TypeError`) each
return a sequence that starts at the root, ends at the goal, and follows
directed edges of the graph; `perform_bidi` is excluded (see the
counterexample). -/
theorem claim_C1 (r g : Vert) (G : Graph) (L D : Int)
    (ec : List (String × Int))
    (HC : ∀ u adj, alookup G u = some adj → ∀ v ∈ adj, v ∈ gkeys G)
    (HT : ∀ v ∈ gkeys G, v.truthy = true)
    (HCC : CostsComplete G ec) (hr : r ∈ gkeys G)
    (hre : Reaches G r g)
    (hL : ((gkeys G).length : Int) ≤ L) (hD : ((gkeys G).length : Int) ≤ D) :
    (∃ p, Returns (perform_dfs r g G) (.path p) ∧
      validPathB G r g p = true) ∧
    (∃ p, Returns (perform_bfs r g G) (.path p) ∧
      validPathB G r g p = true) ∧
    (∃ p, Returns (perform_dls r g G L) (.path p) ∧
      validPathB G r g p = true) ∧
    (∃ p, Returns (perform_ids r g G D) (.path p) ∧
      validPathB G r g p = true) ∧
    (homogB G = true →
      ∃ p, Returns (perform_ucs r g G ec) (.path p) ∧
        validPathB G r g p = true) := by
  refine ⟨(dfs_spec HC HT hr).1 hre, (bfs_spec HC HT hr).1 hre, ?_, ?_, ?_⟩
  · obtain ⟨p, h1, h2, _⟩ := (dls_spec L HC HT hr).1 hre hL
    exact ⟨p, h1, h2⟩
  · exact (ids_spec D HC HT hr).2 hre hD
  · intro _
    obtain ⟨⟨res, hres⟩, hchar⟩ := ucs_spec HC HT HCC hr
    rcases hchar res hres with ⟨_, h2⟩ | ⟨p, h1, h2⟩
    · exact absurd hre h2
    · exact ⟨p, h1 ▸ hres, h2⟩

/-- C1 (witness): the amended theorem applied to the concrete closed
truthy all-string graph `{A:{B}, B:{}}` with root `A`, reachable goal
`B`, limits `2` and the cost table `{A-B: 1}`. -/
theorem claim_C1_witness :
    ∃ p, Returns (perform_ucs (Vert.s "A") (Vert.s "B")
      [(Vert.s "A", [Vert.s "B"]), (Vert.s "B", [])] [("A-B", 1)])
      (.path p) ∧
      validPathB [(Vert.s "A", [Vert.s "B"]), (Vert.s "B", [])]
        (Vert.s "A") (Vert.s "B") p = true :=
  (claim_C1 (Vert.s "A") (Vert.s "B")
    [(Vert.s "A", [Vert.s "B"]), (Vert.s "B", [])] 2 2 [("A-B", 1)]
    (closedB_spec (by decide)) (truthyB_spec (by decide))
    (ecOkB_spec (by decide)) (by decide)
    ⟨[Vert.s "A", Vert.s "B"], by decide⟩ (by decide) (by decide)).2.2.2.2
    (by decide)

/-- C4 (amended): on a finite graph whose adjacency sets mention only
graph keys and whose keys are truthy, with the root a key and the goal
unreachable, `perform_dfs`, `perform_bfs` and `perform_dls` (any depth
limit) return their no-path value (the empty set), and `perform_ids` and
`perform_ucs` (with a complete nonnegative edge-cost table, on keys all
of one type — with mixed int/str keys a cost tie can make the heap raise
`TypeError`) return `None`, always as a normal return; `perform_bidi` is
excluded (see the counterexample). -/
theorem claim_C4 (r g : Vert) (G : Graph) (L D : Int)
    (ec : List (String × Int))
    (HC : ∀ u adj, alookup G u = some adj → ∀ v ∈ adj, v ∈ gkeys G)
    (HT : ∀ v ∈ gkeys G, v.truthy = true)
    (HCC : CostsComplete G ec) (hr : r ∈ gkeys G)
    (hun : ¬ Reaches G r g) :
    Returns (perform_dfs r g G) SearchRes.noPath ∧
    Returns (perform_bfs r g G) SearchRes.noPath ∧
    Returns (perform_dls r g G L) SearchRes.noPath ∧
    Returns (perform_ids r g G D) SearchRes.noneRes ∧
    (homogB G = true →
      Returns (perform_ucs r g G ec) SearchRes.noneRes) := by
  refine ⟨(dfs_spec HC HT hr).2 hun, (bfs_spec HC HT hr).2 hun,
    (dls_spec L HC HT hr).2.1 hun, (ids_spec D HC HT hr).1 hun, ?_⟩
  intro _
  obtain ⟨⟨res, hres⟩, hchar⟩ := ucs_spec HC HT HCC hr
  rcases hchar res hres with ⟨h1, _⟩ | ⟨p, h1, h2⟩
  · exact h1 ▸ hres
  · exact absurd ⟨p, h2⟩ hun

/-- C4 (witness): the amended theorem applied to the concrete closed
truthy all-string graph `{A:{B}, B:{A}, C:{}}` with root `A` and
unreachable goal `C` (the set `{A, B}` is neighbor-closed and excludes
`C`). -/
theorem claim_C4_witness :
    Returns (perform_dfs (Vert.s "A") (Vert.s "C")
      [(Vert.s "A", [Vert.s "B"]), (Vert.s "B", [Vert.s "A"]),
       (Vert.s "C", [])]) SearchRes.noPath ∧
    Returns (perform_ucs (Vert.s "A") (Vert.s "C")
      [(Vert.s "A", [Vert.s "B"]), (Vert.s "B", [Vert.s "A"]),
       (Vert.s "C", [])] [("A-B", 1), ("B-A", 1)]) SearchRes.noneRes := by
  have h := claim_C4 (Vert.s "A") (Vert.s "C")
    [(Vert.s "A", [Vert.s "B"]), (Vert.s "B", [Vert.s "A"]),
     (Vert.s "C", [])] 3 3 [("A-B", 1), ("B-A", 1)]
    (closedB_spec (by decide)) (truthyB_spec (by decide))
    (ecOkB_spec (by decide)) (by decide)
    (fun hre => absurd (reaches_subset
      (show ∀ u ∈ [Vert.s "A", Vert.s "B"], ∀ adj,
        alookup [(Vert.s "A", [Vert.s "B"]), (Vert.s "B", [Vert.s "A"]),
          (Vert.s "C", [])] u = some adj →
        ∀ v ∈ adj, v ∈ [Vert.s "A", Vert.s "B"] by decide)
      (by decide) hre) (by decide))
  exact ⟨h.1, h.2.2.2.2 (by decide)⟩

/-- The `for i in range(max_depth)` loop of `perform_ids` returns `None`
when every tried limit reports no path, and otherwise the path of the
first (smallest) succeeding limit. -/
theorem idsAux_char {r g : Vert} {G : Graph} {f : Nat}
    (hgood : ∀ L : Int, perform_dls r g G L f = .noPath ∨
      ∃ p, perform_dls r g G L f = .path p ∧ p ≠ []) :
    ∀ (k : Nat) (L : Int),
      (idsAux r g G f k L = .noneRes ∧
        ∀ j : Int, L ≤ j → j < L + k → perform_dls r g G j f = .noPath) ∨
      (∃ p j, idsAux r g G f k L = .path p ∧ L ≤ j ∧ j < L + k ∧
        perform_dls r g G j f = .path p ∧
        ∀ j' : Int, L ≤ j' → j' < j → perform_dls r g G j' f = .noPath) := by
  intro k
  induction k with
  | zero =>
    intro L
    refine Or.inl ⟨rfl, ?_⟩
    intro j h1 h2
    omega
  | succ n ih =>
    intro L
    rcases hgood L with h | ⟨p, hp, hpne⟩
    · have hred : idsAux r g G f (n + 1) L = idsAux r g G f n (L + 1) := by
        conv_lhs => unfold idsAux
        rw [h]
      rcases ih (L + 1) with ⟨h1, h2⟩ | ⟨p, j, h1, h2, h3, h4, h5⟩
      · refine Or.inl ⟨hred.trans h1, ?_⟩
        intro j hj1 hj2
        by_cases hjL : j = L
        · exact hjL ▸ h
        · exact h2 j (by omega) (by omega)
      · refine Or.inr ⟨p, j, hred.trans h1, by omega, by omega, h4, ?_⟩
        intro j' hj1 hj2
        by_cases hjL : j' = L
        · exact hjL ▸ h
        · exact h5 j' (by omega) hj2
    · have hred : idsAux r g G f (n + 1) L = SearchRes.path p := by
        conv_lhs => unfold idsAux
        rw [hp]
        exact if_neg hpne
      refine Or.inr ⟨p, L, hred, le_refl L, by omega, hp, ?_⟩
      intro j' hj1 hj2
      omega

theorem idsAux_mono {r g : Vert} {G : Graph} :
    ∀ (k : Nat) (L : Int) (f f' : Nat), f ≤ f' →
      idsAux r g G f k L ≠ .outOfFuel →
      idsAux r g G f' k L = idsAux r g G f k L := by
  intro k
  induction k with
  | zero => intro L f f' _ _; rfl
  | succ n ih =>
    intro L f f' hle hne
    cases hd : perform_dls r g G L f with
    | outOfFuel =>
      exfalso
      apply hne
      unfold idsAux
      rw [hd]
    | path p =>
      have hd' : perform_dls r g G L f' = .path p := by
        rw [show perform_dls r g G L f' =
          iterStep (searchStep true (some L) g G) f'
            ⟨[r], [], initPaths G, initDepths G r⟩ from rfl]
        rw [iterStep_mono _ f f' hle _ (by rw [show iterStep
          (searchStep true (some L) g G) f
            ⟨[r], [], initPaths G, initDepths G r⟩ =
            perform_dls r g G L f from rfl, hd]; intro h; cases h)]
        exact hd
      by_cases hp : p = []
      · have hred1 : idsAux r g G f (n + 1) L = idsAux r g G f n (L + 1) := by
          conv_lhs => unfold idsAux
          rw [hd]
          exact if_pos hp
        have hred2 : idsAux r g G f' (n + 1) L = idsAux r g G f' n (L + 1) := by
          conv_lhs => unfold idsAux
          rw [hd']
          exact if_pos hp
        rw [hred1, hred2]
        refine ih (L + 1) f f' hle ?_
        rw [← hred1]
        exact hne
      · have hred1 : idsAux r g G f (n + 1) L = .path p := by
          conv_lhs => unfold idsAux
          rw [hd]
          exact if_neg hp
        have hred2 : idsAux r g G f' (n + 1) L = .path p := by
          conv_lhs => unfold idsAux
          rw [hd']
          exact if_neg hp
        rw [hred1, hred2]
    | noPath =>
      have hd' : perform_dls r g G L f' = .noPath := by
        rw [show perform_dls r g G L f' =
          iterStep (searchStep true (some L) g G) f'
            ⟨[r], [], initPaths G, initDepths G r⟩ from rfl]
        rw [iterStep_mono _ f f' hle _ (by rw [show iterStep
          (searchStep true (some L) g G) f
            ⟨[r], [], initPaths G, initDepths G r⟩ =
            perform_dls r g G L f from rfl, hd]; intro h; cases h)]
        exact hd
      have hred1 : idsAux r g G f (n + 1) L = idsAux r g G f n (L + 1) := by
        conv_lhs => unfold idsAux
        rw [hd]
      have hred2 : idsAux r g G f' (n + 1) L = idsAux r g G f' n (L + 1) := by
        conv_lhs => unfold idsAux
        rw [hd']
      rw [hred1, hred2]
      refine ih (L + 1) f f' hle ?_
      rw [← hred1]
      exact hne
    | noneRes =>
      have hd' : perform_dls r g G L f' = .noneRes := by
        rw [show perform_dls r g G L f' =
          iterStep (searchStep true (some L) g G) f'
            ⟨[r], [], initPaths G, initDepths G r⟩ from rfl]
        rw [iterStep_mono _ f f' hle _ (by rw [show iterStep
          (searchStep true (some L) g G) f
            ⟨[r], [], initPaths G, initDepths G r⟩ =
            perform_dls r g G L f from rfl, hd]; intro h; cases h)]
        exact hd
      have hred1 : idsAux r g G f (n + 1) L = .noneRes := by
        conv_lhs => unfold idsAux
        rw [hd]
      have hred2 : idsAux r g G f' (n + 1) L = .noneRes := by
        conv_lhs => unfold idsAux
        rw [hd']
      rw [hred1, hred2]
    | keyErr =>
      have hd' : perform_dls r g G L f' = .keyErr := by
        rw [show perform_dls r g G L f' =
          iterStep (searchStep true (some L) g G) f'
            ⟨[r], [], initPaths G, initDepths G r⟩ from rfl]
        rw [iterStep_mono _ f f' hle _ (by rw [show iterStep
          (searchStep true (some L) g G) f
            ⟨[r], [], initPaths G, initDepths G r⟩ =
            perform_dls r g G L f from rfl, hd]; intro h; cases h)]
        exact hd
      have hred1 : idsAux r g G f (n + 1) L = .keyErr := by
        conv_lhs => unfold idsAux
        rw [hd]
      have hred2 : idsAux r g G f' (n + 1) L = .keyErr := by
        conv_lhs => unfold idsAux
        rw [hd']
      rw [hred1, hred2]
    | diverge =>
      have hd' : perform_dls r g G L f' = .diverge := by
        rw [show perform_dls r g G L f' =
          iterStep (searchStep true (some L) g G) f'
            ⟨[r], [], initPaths G, initDepths G r⟩ from rfl]
        rw [iterStep_mono _ f f' hle _ (by rw [show iterStep
          (searchStep true (some L) g G) f
            ⟨[r], [], initPaths G, initDepths G r⟩ =
            perform_dls r g G L f from rfl, hd]; intro h; cases h)]
        exact hd
      have hred1 : idsAux r g G f (n + 1) L = .diverge := by
        conv_lhs => unfold idsAux
        rw [hd]
      have hred2 : idsAux r g G f' (n + 1) L = .diverge := by
        conv_lhs => unfold idsAux
        rw [hd']
      rw [hred1, hred2]

/-- `Returns`-values of a fuel-monotone run are unique. -/
theorem Returns_eq_mono {run : Nat → SearchRes}
    (hmono : ∀ f f', f ≤ f' → run f ≠ .outOfFuel → run f' = run f)
    {a b : SearchRes} (ha : Returns run a) (hb : Returns run b) : a = b := by
  obtain ⟨hane, fa, hfa⟩ := ha
  obtain ⟨hbne, fb, hfb⟩ := hb
  rcases Nat.le_total fa fb with h | h
  · rw [← hfa, ← hfb, hmono fa fb h (by rw [hfa]; exact hane)]
  · rw [← hfa, ← hfb, hmono fb fa h (by rw [hfb]; exact hbne)]

/-- C6 (amended): on a finite graph whose adjacency sets mention only
graph keys and whose keys are truthy, with the root a key,
`perform_ids(max_depth = D)` returns a path iff `perform_dls` returns a
path for some depth limit `k` with `1 ≤ k ≤ D`; the path it returns is
exactly the one `perform_dls` returns at the smallest such `k` (every
smaller limit reports no path), and that path's edge count is at most `k`
— with equality not guaranteed: when root equals goal the edge count is
`0` whatever `k` is (see the counterexample). -/
theorem claim_C6 (r g : Vert) (G : Graph) (D : Int)
    (HC : ∀ u adj, alookup G u = some adj → ∀ v ∈ adj, v ∈ gkeys G)
    (HT : ∀ v ∈ gkeys G, v.truthy = true) (hr : r ∈ gkeys G) :
    ((∃ p, Returns (perform_ids r g G D) (.path p)) ↔
      (∃ k : Int, 1 ≤ k ∧ k ≤ D ∧
        ∃ p, Returns (perform_dls r g G k) (.path p))) ∧
    (∀ p, Returns (perform_ids r g G D) (.path p) →
      ∃ k : Int, 1 ≤ k ∧ k ≤ D ∧ Returns (perform_dls r g G k) (.path p) ∧
        (∀ k' : Int, 1 ≤ k' → k' < k →
          Returns (perform_dls r g G k') .noPath) ∧
        ((p.length : Int) - 1 ≤ k ∨ g = r)) := by
  set st0 : SState := ⟨[r], [], initPaths G, initDepths G r⟩ with hst0
  set f := smeasure G st0 + 1 with hf
  have hne : ∀ L : Int, perform_dls r g G L f ≠ .outOfFuel := fun L =>
    searchLoop_terminates _ _ _ _ _
  have hchar : ∀ L : Int, perform_dls r g G L f = .noPath ∨
      ∃ p, perform_dls r g G L f = .path p ∧ p ≠ [] ∧
        ((p.length : Int) - 1 ≤ L ∨ g = r) := by
    intro L
    rcases (dls_spec L HC HT hr).2.2 (perform_dls r g G L f)
      ⟨hne L, f, rfl⟩ with hres | ⟨p, h1, h2, h3⟩
    · exact Or.inl hres
    · refine Or.inr ⟨p, h1, ?_, h3⟩
      intro he
      rw [he] at h2
      obtain ⟨hh, _, _⟩ := validPathB_iff.mp h2
      cases hh
  have hgood : ∀ L : Int, perform_dls r g G L f = .noPath ∨
      ∃ p, perform_dls r g G L f = .path p ∧ p ≠ [] := by
    intro L
    rcases hchar L with h | ⟨p, h1, h2, _⟩
    · exact Or.inl h
    · exact Or.inr ⟨p, h1, h2⟩
  have hids_mono : ∀ f1 f2, f1 ≤ f2 →
      perform_ids r g G D f1 ≠ .outOfFuel →
      perform_ids r g G D f2 = perform_ids r g G D f1 :=
    fun f1 f2 hle hne' => idsAux_mono D.toNat 1 f1 f2 hle hne'
  have hdlsval : ∀ (k : Int) (res : SearchRes),
      Returns (perform_dls r g G k) res → perform_dls r g G k f = res := by
    intro k res hres
    exact Returns_eq (fun f' => rfl) ⟨hne k, f, rfl⟩ hres
  rcases idsAux_char hgood D.toNat 1 with ⟨h1, h2⟩ | ⟨p0, j, h1, h2, h3, h4, h5⟩
  · have hidsval : Returns (perform_ids r g G D) .noneRes := ⟨by simp, f, h1⟩
    constructor
    · constructor
      · intro ⟨p, hp⟩
        cases Returns_eq_mono hids_mono hp hidsval
      · intro ⟨k, hk1, hkD, p, hp⟩
        have := hdlsval k (.path p) hp
        have hnp := h2 k hk1 (by omega)
        rw [this] at hnp
        cases hnp
    · intro p hp
      cases Returns_eq_mono hids_mono hp hidsval
  · have hidsval : Returns (perform_ids r g G D) (.path p0) := ⟨by simp, f, h1⟩
    have hjD : j ≤ D := by omega
    constructor
    · constructor
      · intro _
        exact ⟨j, h2, hjD, p0, by simp, f, h4⟩
      · intro _
        exact ⟨p0, hidsval⟩
    · intro p hp
      have heq : SearchRes.path p = SearchRes.path p0 :=
        Returns_eq_mono hids_mono hp hidsval
      cases heq
      refine ⟨j, h2, hjD, ⟨by simp, f, h4⟩, ?_, ?_⟩
      · intro k' hk1 hk2
        exact ⟨by simp, f, h5 k' hk1 hk2⟩
      · rcases hchar j with hnp | ⟨p', hp', _, hbound⟩
        · rw [h4] at hnp
          cases hnp
        · rw [h4] at hp'
          cases hp'
          exact hbound

/-- C6 (witness): the amended theorem applied to the concrete closed
truthy graph `{A:{B}, B:{C}, C:{}}` with root `A`, goal `C` and
`max_depth = 3`. -/
theorem claim_C6_witness :
    (∃ p, Returns (perform_ids (Vert.s "A") (Vert.s "C")
      [(Vert.s "A", [Vert.s "B"]), (Vert.s "B", [Vert.s "C"]),
       (Vert.s "C", [])] 3) (.path p)) ↔
    (∃ k : Int, 1 ≤ k ∧ k ≤ 3 ∧
      ∃ p, Returns (perform_dls (Vert.s "A") (Vert.s "C")
        [(Vert.s "A", [Vert.s "B"]), (Vert.s "B", [Vert.s "C"]),
         (Vert.s "C", [])] k) (.path p)) :=
  (claim_C6 (Vert.s "A") (Vert.s "C")
    [(Vert.s "A", [Vert.s "B"]), (Vert.s "B", [Vert.s "C"]),
     (Vert.s "C", [])] 3
    (closedB_spec (by decide)) (truthyB_spec (by decide)) (by decide)).1

/-- C3 (counterexample): on the graph `{A:{""}, "":{B}, B:{}}` the goal
`B` is reachable from `A` only through the falsy vertex `""`, and every
root-to-goal path has at least two edges, yet `perform_bfs` returns the
truncated single-vertex sequence `[B]` with edge count `0 ≠ 2`:
`_compose_path` stops at the falsy parent `""`. -/
theorem claim_C3_counterexample :
    Returns (perform_bfs (Vert.s "A") (Vert.s "B")
      [(Vert.s "A", [Vert.s ""]), (Vert.s "", [Vert.s "B"]), (Vert.s "B", [])])
      (SearchRes.path [Vert.s "B"]) ∧
    validPathB [(Vert.s "A", [Vert.s ""]), (Vert.s "", [Vert.s "B"]),
      (Vert.s "B", [])] (Vert.s "A") (Vert.s "B")
      [Vert.s "A", Vert.s "", Vert.s "B"] = true ∧
    (∀ q, validPathB [(Vert.s "A", [Vert.s ""]), (Vert.s "", [Vert.s "B"]),
      (Vert.s "B", [])] (Vert.s "A") (Vert.s "B") q = true → 3 ≤ q.length) ∧
    [Vert.s "B"].length = 1 := by
  refine ⟨⟨by decide, 10, by decide⟩, by decide, ?_, by decide⟩
  intro q hq
  obtain ⟨hh, hl, hc⟩ := validPathB_iff.mp hq
  cases q with
  | nil => cases hh
  | cons a q' =>
    have ha : a = Vert.s "A" := by simpa using hh
    subst ha
    cases q' with
    | nil =>
      exact absurd (show Vert.s "A" = Vert.s "B" by simpa using hl) (by decide)
    | cons c q'' =>
      have hedge := (chainB_cons_iff.mp hc).1
      have hce : c = Vert.s "" := by
        simp [edgeB, alookup] at hedge
        exact hedge
      subst hce
      cases q'' with
      | nil =>
        exact absurd (show Vert.s "" = Vert.s "B" by simpa using hl) (by decide)
      | cons d q''' =>
        simp only [List.length_cons]
        omega

/-- C3 (amended): on a finite graph whose adjacency sets mention only
graph keys and whose keys are truthy, with the root a key and the goal
reachable, `perform_bfs` returns a valid root-to-goal path whose vertex
count — hence whose edge count — is minimal among all root-to-goal
paths, i.e. its edge count is the true shortest-path distance. -/
theorem claim_C3 (r g : Vert) (G : Graph)
    (HC : ∀ u adj, alookup G u = some adj → ∀ v ∈ adj, v ∈ gkeys G)
    (HT : ∀ v ∈ gkeys G, v.truthy = true) (hr : r ∈ gkeys G)
    (hre : Reaches G r g) :
    ∃ p, Returns (perform_bfs r g G) (.path p) ∧
      validPathB G r g p = true ∧
      ∀ q, validPathB G r g q = true → p.length ≤ q.length :=
  bfs_opt HC HT hr hre

/-- C3 (witness): the amended theorem applied to the concrete closed
truthy graph `{A:{C,B}, B:{C}, C:{}}` with root `A` and reachable goal
`C`. -/
theorem claim_C3_witness :
    ∃ p, Returns (perform_bfs (Vert.s "A") (Vert.s "C")
      [(Vert.s "A", [Vert.s "C", Vert.s "B"]), (Vert.s "B", [Vert.s "C"]),
       (Vert.s "C", [])]) (.path p) ∧
      validPathB [(Vert.s "A", [Vert.s "C", Vert.s "B"]),
        (Vert.s "B", [Vert.s "C"]), (Vert.s "C", [])]
        (Vert.s "A") (Vert.s "C") p = true ∧
      ∀ q, validPathB [(Vert.s "A", [Vert.s "C", Vert.s "B"]),
        (Vert.s "B", [Vert.s "C"]), (Vert.s "C", [])]
        (Vert.s "A") (Vert.s "C") q = true → p.length ≤ q.length :=
  claim_C3 (Vert.s "A") (Vert.s "C")
    [(Vert.s "A", [Vert.s "C", Vert.s "B"]), (Vert.s "B", [Vert.s "C"]),
     (Vert.s "C", [])]
    (closedB_spec (by decide)) (truthyB_spec (by decide)) (by decide)
    ⟨[Vert.s "A", Vert.s "C"], by decide⟩

/-- C5 (amended): for every graph containing the root as a key, when the
root equals the goal, `perform_dfs`, `perform_bfs`, `perform_dls` (any
depth limit) and `perform_ucs` (any edge-cost table) return the
single-element sequence `[root]` on their first iteration, and so does
`perform_ids` provided `max_depth ≥ 1`; `perform_bidi` is excluded (see
the counterexample). -/
theorem claim_C5 (r : Vert) (G : Graph) (h : r ∈ gkeys G) :
    Returns (perform_dfs r r G) (.path [r]) ∧
    Returns (perform_bfs r r G) (.path [r]) ∧
    (∀ L : Int, Returns (perform_dls r r G L) (.path [r])) ∧
    (∀ ec : List (String × Int), Returns (perform_ucs r r G ec) (.path [r])) ∧
    (∀ D : Int, 1 ≤ D → Returns (perform_ids r r G D) (.path [r])) := by
  refine ⟨⟨by simp, 1, perform_dfs_self h⟩, ⟨by simp, 1, perform_bfs_self h⟩,
    fun L => ⟨by simp, 1, perform_dls_self L h⟩,
    fun ec => ⟨by simp, 1, perform_ucs_self ec h⟩,
    fun D hD => ⟨by simp, 1, ?_⟩⟩
  have h1 : 1 ≤ D.toNat := by omega
  obtain ⟨k, hk⟩ : ∃ k, D.toNat = k + 1 := ⟨D.toNat - 1, by omega⟩
  unfold perform_ids
  rw [hk]
  unfold idsAux
  rw [perform_dls_self 1 h]
  simp

/-- C5 (witness): the root-equals-goal theorem applied to the concrete
graph `{A:{B}, B:{}}`. -/
theorem claim_C5_witness :
    Vert.s "A" ∈ gkeys [(Vert.s "A", [Vert.s "B"]), (Vert.s "B", [])] ∧
    Returns (perform_dfs (Vert.s "A") (Vert.s "A")
      [(Vert.s "A", [Vert.s "B"]), (Vert.s "B", [])]) (.path [Vert.s "A"]) ∧
    Returns (perform_ids (Vert.s "A") (Vert.s "A")
      [(Vert.s "A", [Vert.s "B"]), (Vert.s "B", [])] 1) (.path [Vert.s "A"]) :=
  ⟨by decide,
    (claim_C5 (Vert.s "A") [(Vert.s "A", [Vert.s "B"]), (Vert.s "B", [])]
      (by decide)).1,
    (claim_C5 (Vert.s "A") [(Vert.s "A", [Vert.s "B"]), (Vert.s "B", [])]
      (by decide)).2.2.2.2 1 (by decide)⟩

/-- C9 (witness): the truncation lemma applied at a concrete parent map
whose entry for `A` is the falsy vertex `0`. -/
theorem claim_C9_witness :
    alookup [(Vert.s "A", some (Vert.i 0))] (Vert.s "A") = some (some (Vert.i 0)) ∧
    (Vert.i 0).truthy = false ∧
    compose_path (Vert.s "A") [(Vert.s "A", some (Vert.i 0))] = .path [Vert.s "A"] :=
  ⟨by decide, by decide,
    claim_C9.1 [(Vert.s "A", some (Vert.i 0))] (Vert.s "A") (Vert.i 0)
      (by decide) (by decide)⟩

end USM
